import Mathlib

/-!
# HD44780 parallel bus transport (`hd44780/gpio.go`)

A shallow embedding of the GPIO bus transport of the HD44780 driver.

The Go code talks to the outside world only through `machine.Pin`
(`Configure`, `High`, `Low`, `Get`), `time.Sleep` and the `print` builtins.
Those calls are embedded as events appended to a trace, oldest event first.
What `Get` answers is decided by a `PinReader`, a function of the history so
far and of the pin asked; `lastDriven` is the reader of a line set that
returns the level last driven by `High`/`Low`.

Bytes are natural numbers; every place where Go truncates to eight bits
carries an explicit `% 256`.
-/

set_option autoImplicit false

namespace hd44780

/-! ## The outside world: pins, delays, console -/

/-- A `machine.Pin` is a pin number. -/
abbrev Pin := Nat

/-- The two pin modes the driver uses (`machine.PinOutput`, `machine.PinInput`). -/
inductive PinMode where
  | PinOutput
  | PinInput
  deriving DecidableEq, Repr

/-- What the `print` builtins of `printBit` and `printNibble` write to the console. -/
inductive Console where
  | int (n : Nat)
  | space
  | newline
  deriving DecidableEq, Repr

/-- One call into the outside world. -/
inductive Event where
  | configure (p : Pin) (m : PinMode)
  | high (p : Pin)
  | low (p : Pin)
  | get (p : Pin) (v : Bool)
  | sleep (ns : Nat)
  | print (c : Console)
  deriving DecidableEq, Repr

/-- The history of calls, oldest first. -/
abbrev Trace := List Event

/-- The answer of `Get`, given the history so far and the pin asked. -/
abbrev PinReader := Trace → Pin → Bool

/-- `time.Microsecond`: a `time.Duration` counts nanoseconds. -/
def Microsecond : Nat := 1000

/-- `p.Configure(machine.PinConfig{Mode: m})`. -/
def Pin.Configure (p : Pin) (m : PinMode) (t : Trace) : Trace := t ++ [Event.configure p m]

/-- `p.High()`. -/
def Pin.High (p : Pin) (t : Trace) : Trace := t ++ [Event.high p]

/-- `p.Low()`. -/
def Pin.Low (p : Pin) (t : Trace) : Trace := t ++ [Event.low p]

/-- `p.Get()`: the reader answers, and the call is recorded with its answer. -/
def Pin.Get (rd : PinReader) (p : Pin) (t : Trace) : Bool × Trace :=
  (rd t p, t ++ [Event.get p (rd t p)])

/-- `time.Sleep(d)`. -/
def Sleep (d : Nat) (t : Trace) : Trace := t ++ [Event.sleep d]

/-- The `print`/`println` builtins. -/
def consolePrint (c : Console) (t : Trace) : Trace := t ++ [Event.print c]

/-! ## Observations on a trace -/

/-- The level a pin was last driven to by `High`/`Low` (low when never driven). -/
def level (p : Pin) (t : Trace) : Bool :=
  t.foldl (fun b e =>
    match e with
    | Event.high q => if q = p then true else b
    | Event.low q => if q = p then false else b
    | _ => b) false

/-- The mode a pin was last configured to (`none` when never configured). -/
def direction (p : Pin) (t : Trace) : Option PinMode :=
  t.foldl (fun d e =>
    match e with
    | Event.configure q m => if q = p then some m else d
    | _ => d) none

/-- A line set whose `Get` returns the level last driven by `High`/`Low`. -/
def lastDriven : PinReader := fun t p => level p t

/-- The value the data lines show: line `i` contributes `2 ^ i` when it is high. -/
def lineValue : List Pin → Trace → Nat
  | [], _ => 0
  | p :: ps, t => (if level p t then 1 else 0) + 2 * lineValue ps t

/-- The values the data lines `dps` show at each drive-high of the enable line
`en` among the events `evs`, which follow the history `h`. -/
def shownFrom (dps : List Pin) (en : Pin) : Trace → List Event → List Nat
  | _, [] => []
  | h, e :: es =>
      (if e = Event.high en then [lineValue dps (h ++ [e])] else [])
        ++ shownFrom dps en (h ++ [e]) es

/-- The values the data lines `dps` show at each drive-high of the enable line
`en` in the whole history `t`, oldest first: one entry per enable pulse. -/
def shown (dps : List Pin) (en : Pin) (t : Trace) : List Nat := shownFrom dps en [] t

/-- The value assembled from the answers of successive `Get` calls on the pins
`ps`, the first pin counting 1, the next 2, and so on; every call is recorded
before the next one is made. -/
def sampled (rd : PinReader) : List Pin → Trace → Nat
  | [], _ => 0
  | p :: ps, t => (if rd t p then 1 else 0) + 2 * sampled rd ps (t ++ [Event.get p (rd t p)])

/-- The history after the `Get` calls of `sampled`. -/
def sampledTrace (rd : PinReader) : List Pin → Trace → Trace
  | [], t => t
  | p :: ps, t => sampledTrace rd ps (t ++ [Event.get p (rd t p)])

/-- The line an event touches, if it touches one. -/
def Event.line : Event → Option Pin
  | Event.configure p _ => some p
  | Event.high p => some p
  | Event.low p => some p
  | Event.get p _ => some p
  | Event.sleep _ => none
  | Event.print _ => none

/-- The answers of successive `Get` calls on the pins `ps`, in order. -/
def answers (rd : PinReader) : List Pin → Trace → List Bool
  | [], _ => []
  | p :: ps, t => rd t p :: answers rd ps (t ++ [Event.get p (rd t p)])

/-- The bytes and the final history of `k` successive calls of `f`. -/
def successive (f : Trace → Nat × Trace) : Nat → Trace → List Nat × Trace
  | 0, t => ([], t)
  | k + 1, t => ((f t).1 :: (successive f k (f t).2).1, (successive f k (f t).2).2)

/-- The levels a pin was driven to by `High` (true) and `Low` (false), in order. -/
def drives (p : Pin) : List Event → List Bool
  | [] => []
  | Event.high q :: es => if q = p then true :: drives p es else drives p es
  | Event.low q :: es => if q = p then false :: drives p es else drives p es
  | _ :: es => drives p es

/-- The delays requested by the `Sleep` calls of a trace, in order, in nanoseconds. -/
def delays : List Event → List Nat
  | [] => []
  | Event.sleep d :: es => d :: delays es
  | _ :: es => delays es

/-- The history `t1` is the history `t` followed by events that all satisfy `P`. -/
def Adds (P : Event → Prop) (t t1 : Trace) : Prop :=
  ∃ evs, t1 = t ++ evs ∧ ∀ e ∈ evs, P e

/-- `P` holds of every event a write on the data pins `dps` with the enable pin
`en` can add: drives of the data pins and of enable, delays and console output. -/
def WriteEvents (P : Event → Prop) (dps : List Pin) (en : Pin) : Prop :=
  (∀ p ∈ dps, P (Event.high p) ∧ P (Event.low p)) ∧ P (Event.low en) ∧ P (Event.high en)
    ∧ (∀ d, P (Event.sleep d)) ∧ (∀ c, P (Event.print c))

/-- `P` holds of every event the read of one byte on the data pins `dps` with
the enable pin `en` can add: drives of enable and samples of the data pins. -/
def ReadEvents (P : Event → Prop) (dps : List Pin) (en : Pin) : Prop :=
  P (Event.high en) ∧ P (Event.low en) ∧ (∀ p ∈ dps, ∀ v, P (Event.get p v))

/-- The events of one run of the enable-pulse sequencer, in the words of the
specification: enable low, hold one microsecond, enable high, hold one
microsecond, enable low, hold 100 microseconds. -/
def pulseEvents (en : Pin) : List Event :=
  [Event.low en, Event.sleep (1 * Microsecond), Event.high en, Event.sleep (1 * Microsecond),
   Event.low en, Event.sleep (100 * Microsecond)]

/-- The events that put the value `v` on the lines `ps`, in the words of the
specification: line `i` is driven high when bit `i` of `v` is 1, else low,
line 0 first. -/
def lineEvents : List Pin → Nat → List Event
  | [], _ => []
  | p :: ps, v => (if v % 2 = 1 then Event.high p else Event.low p) :: lineEvents ps (v / 2)

/-- The console output for one nibble: bits 3, 2, 1, 0 of `word`, then a
newline or a space. -/
def nibbleText (word : Nat) (nl : Bool) : List Event :=
  [Event.print (Console.int (word / 8 % 2)), Event.print (Console.int (word / 4 % 2)),
   Event.print (Console.int (word / 2 % 2)), Event.print (Console.int (word % 2)),
   Event.print (if nl then Console.newline else Console.space)]

/-- The events that configure every line of `ps` to the mode `m`, in order. -/
def configEvents (m : PinMode) (ps : List Pin) : List Event :=
  ps.map (fun p => Event.configure p m)

/-- The events of sampling the lines `ps` one after the other after the
history `h`, each with the answer the reader gives at that moment. -/
def sampleEvents (rd : PinReader) : List Pin → Trace → List Event
  | [], _ => []
  | p :: ps, h => Event.get p (rd h p) :: sampleEvents rd ps (h ++ [Event.get p (rd h p)])

/-- The events of `k` successive units of a read after the history `h`: each
unit raises enable, samples the lines `ps` and lowers enable. -/
def readUnits (rd : PinReader) (ps : List Pin) (en : Pin) : Nat → Trace → List Event
  | 0, _ => []
  | k + 1, h =>
      ([Event.high en] ++ sampleEvents rd ps (h ++ [Event.high en]) ++ [Event.low en])
        ++ readUnits rd ps en k
            (h ++ ([Event.high en] ++ sampleEvents rd ps (h ++ [Event.high en])
              ++ [Event.low en]))

/-- The enable pulses among the events `evs`, which follow the history `h`. A
pulse opens at a drive-high of the enable line `en` and closes at the next
drive-low of it; its entry lists the value the data lines `dps` show after
each event of the pulse, from the drive-high to the drive-low. `cur` is the
pulse that is open, if one is. -/
def windowsFrom (dps : List Pin) (en : Pin) :
    Trace → Option (List Nat) → List Event → List (List Nat)
  | _, none, [] => []
  | _, some w, [] => [w]
  | h, none, e :: es =>
      if e = Event.high en then
        windowsFrom dps en (h ++ [e]) (some [lineValue dps (h ++ [e])]) es
      else windowsFrom dps en (h ++ [e]) none es
  | h, some w, e :: es =>
      if e = Event.low en then
        (w ++ [lineValue dps (h ++ [e])]) :: windowsFrom dps en (h ++ [e]) none es
      else windowsFrom dps en (h ++ [e]) (some (w ++ [lineValue dps (h ++ [e])])) es

/-- The enable pulses a call added: the pulses among the events of `t1` that
follow the history `t`, each with the values the data lines show during it. -/
def pulseWindows (dps : List Pin) (en : Pin) (t t1 : Trace) : List (List Nat) :=
  windowsFrom dps en t none (t1.drop t.length)

/-- The total delay requested by the `Sleep` calls of a trace, in nanoseconds. -/
def totalSleep : List Event → Nat
  | [] => 0
  | Event.sleep d :: es => d + totalSleep es
  | _ :: es => totalSleep es

/-! ## The transport -/

/-- The `error` values the transport returns. -/
inductive GoError where
  | New (msg : String)
  deriving DecidableEq, Repr

/-- The result of a call: it returns a value, or it stops at the call of a
function field that is nil. Either way the trace up to that point is kept. -/
inductive Outcome (α : Type) where
  | ret (a : α) (t : Trace)
  | nilFunc (t : Trace)

/-- The trace at the end of a call. -/
def Outcome.trace {α : Type} : Outcome α → Trace
  | Outcome.ret _ t => t
  | Outcome.nilFunc t => t

/-- The value a call returned, if it returned. -/
def Outcome.value {α : Type} : Outcome α → Option α
  | Outcome.ret a _ => some a
  | Outcome.nilFunc _ => none

/-- The `GPIO` struct. A function field is `none` when it is nil. -/
structure GPIO where
  dataPins : List Pin
  en : Pin
  rw : Pin
  rs : Pin
  write : Option (Nat → Trace → Trace)
  writeNibble : Option (Nat → Trace → Trace)
  read : Option (Trace → Nat × Trace)

/-- The fields of `Device` that `newGPIO` fills in. -/
structure Device where
  bus : GPIO
  datalength : Nat

/-- `SetCommandMode`. -/
def GPIO.SetCommandMode (g : GPIO) (set : Bool) (t : Trace) : Trace :=
  if set then Pin.Low g.rs t else Pin.High g.rs t

/-- `pulseEnable`. -/
def GPIO.pulseEnable (g : GPIO) (t : Trace) : Trace :=
  let t := Pin.Low g.en t
  let t := Sleep Microsecond t
  let t := Pin.High g.en t
  let t := Sleep Microsecond t
  let t := Pin.Low g.en t
  Sleep (100 * Microsecond) t

/-- The loop of `setPins`, over the data pins still to be set, with the current
`mask`; the shift of the `byte` mask is cut to eight bits. -/
def setPinsLoop (data : Nat) : List Pin → Nat → Trace → Trace
  | [], _, t => t
  | p :: ps, mask, t =>
      let t := if data &&& mask ≠ 0 then Pin.High p t else Pin.Low p t
      setPinsLoop data ps ((mask <<< 1) % 256) t

/-- `setPins`: sets high or low state on all data pins depending on data. -/
def GPIO.setPins (g : GPIO) (data : Nat) (t : Trace) : Trace :=
  setPinsLoop data g.dataPins 1 t

/-- The loop of `pins`, over the data pins still to be read, `i` being the
index of the first of them. -/
def pinsLoop (rd : PinReader) : List Pin → Nat → Nat → Trace → Nat × Trace
  | [], _, bits, t => (bits, t)
  | p :: ps, i, bits, t =>
      let r := Pin.Get rd p t
      let bits := if r.1 then bits ||| ((1 <<< i) % 256) else bits
      pinsLoop rd ps (i + 1) bits r.2

/-- `pins`: returns current state of data pins. The loop counter and its bound
are `uint8`, so the bound is the number of data pins modulo 256. -/
def GPIO.pins (rd : PinReader) (g : GPIO) (t : Trace) : Nat × Trace :=
  pinsLoop rd (g.dataPins.take (g.dataPins.length % 256)) 0 0 t

/-- `write8BitMode`. -/
def GPIO.write8BitMode (g : GPIO) (data : Nat) (t : Trace) : Trace :=
  let t := g.setPins data t
  g.pulseEnable t

/-- `printBit`. -/
def printBit (word mask : Nat) (t : Trace) : Trace :=
  let bit := if mask &&& word = mask then 1 else 0
  consolePrint (Console.int bit) t

/-- `printNibble`. -/
def printNibble (word : Nat) (nl : Bool) (t : Trace) : Trace :=
  let t := printBit word 0x8 t
  let t := printBit word 0x4 t
  let t := printBit word 0x2 t
  let t := printBit word 0x1 t
  if nl then consolePrint Console.newline t else consolePrint Console.space t

/-- `debugWrite`. -/
def debugWrite (write : Nat → Trace → Trace) (onlyLow : Bool) : Nat → Trace → Trace :=
  fun data t =>
    let highNibble := data >>> 4
    let t := if !onlyLow then printNibble highNibble false t else t
    let t := printNibble data true t
    write data t

/-- `write4BitNibble`. -/
def GPIO.write4BitNibble (g : GPIO) (data : Nat) (t : Trace) : Trace :=
  let t := g.setPins data t
  g.pulseEnable t

/-- `write4BitMode`. -/
def GPIO.write4BitMode (g : GPIO) (data : Nat) (t : Trace) : Trace :=
  let t := g.write4BitNibble (data >>> 4) t
  g.write4BitNibble data t

/-- `read4BitMode`. -/
def GPIO.read4BitMode (rd : PinReader) (g : GPIO) (t : Trace) : Nat × Trace :=
  let t := Pin.High g.en t
  let r := g.pins rd t
  let data := ((r.1 <<< 4) % 256) &&& 0xF0
  let t := Pin.Low g.en r.2
  let t := Pin.High g.en t
  let r := g.pins rd t
  let data := data ||| (r.1 &&& 0x0F)
  let t := Pin.Low g.en r.2
  (data, t)

/-- `read8BitMode`. -/
def GPIO.read8BitMode (rd : PinReader) (g : GPIO) (t : Trace) : Nat × Trace :=
  let t := Pin.High g.en t
  let r := g.pins rd t
  let data := r.1
  let t := Pin.Low g.en r.2
  (data, t)

/-- The loop of `reconfigureGPIOMode`. -/
def reconfigureLoop (mode : PinMode) : List Pin → Trace → Trace
  | [], t => t
  | p :: ps, t => reconfigureLoop mode ps (Pin.Configure p mode t)

/-- `reconfigureGPIOMode`. -/
def GPIO.reconfigureGPIOMode (g : GPIO) (mode : PinMode) (t : Trace) : Trace :=
  reconfigureLoop mode g.dataPins t

/-- The loop of `Write` and of `WriteNibble`: one call of the function field
per byte, counting in `n`. -/
def writeLoop (wr : Option (Nat → Trace → Trace)) : List Nat → Nat → Trace → Outcome Nat
  | [], n, t => Outcome.ret n t
  | d :: ds, n, t =>
      match wr with
      | none => Outcome.nilFunc t
      | some f => writeLoop wr ds (n + 1) (f d t)

/-- `Write`: writes len(data) bytes from data to display driver. -/
def GPIO.Write (g : GPIO) (data : List Nat) (t : Trace) : Outcome (Nat × Option GoError) :=
  let t := Pin.Low g.rw t
  match writeLoop g.write data 0 t with
  | Outcome.nilFunc t => Outcome.nilFunc t
  | Outcome.ret n t => Outcome.ret (n, none) t

/-- `WriteNibble`. -/
def GPIO.WriteNibble (g : GPIO) (data : List Nat) (t : Trace) : Outcome (Nat × Option GoError) :=
  let t := Pin.Low g.rw t
  match writeLoop g.writeNibble data 0 t with
  | Outcome.nilFunc t => Outcome.nilFunc t
  | Outcome.ret n t =>
      let t := g.pulseEnable t
      Outcome.ret (n, none) t

/-- The loop of `Read`: `k` positions are still to be filled, `i` is the next one. -/
def readLoop (read : Option (Trace → Nat × Trace)) :
    Nat → Nat → List Nat → Nat → Trace → Outcome (List Nat × Nat)
  | 0, _, data, n, t => Outcome.ret (data, n) t
  | k + 1, i, data, n, t =>
      match read with
      | none => Outcome.nilFunc t
      | some f =>
          let r := f t
          readLoop read k (i + 1) (data.set i r.1) (n + 1) r.2

/-- `Read`: reads len(data) bytes from display RAM to data. The buffer after the
call is returned with the count and the error. -/
def GPIO.Read (g : GPIO) (data : List Nat) (t : Trace) :
    Outcome (List Nat × Nat × Option GoError) :=
  if data.length = 0 then
    Outcome.ret (data, 0, some (GoError.New "length greater than 0 is required")) t
  else
    let t := Pin.High g.rw t
    let t := g.reconfigureGPIOMode PinMode.PinInput t
    match readLoop g.read data.length 0 data 0 t with
    | Outcome.nilFunc t => Outcome.nilFunc t
    | Outcome.ret r t =>
        let t := g.reconfigureGPIOMode PinMode.PinInput t
        Outcome.ret (r.1, r.2, none) t

/-- `newGPIO`. The constant `DATA_LENGTH_4BIT` is declared outside this file of
the driver and is taken as the parameter `c4`. The first loop configures every
data pin as output and copies it, pin by pin, which is `reconfigureLoop` on the
caller's list. The method values bound to the function fields read only
`dataPins` and `en`, which never change after construction. -/
def newGPIO (rd : PinReader) (c4 : Nat) (dataPins : List Pin) (en rs rw : Pin) (mode : Nat)
    (t : Trace) : Device × Trace :=
  let pins := dataPins
  let t := reconfigureLoop PinMode.PinOutput dataPins t
  let t := Pin.Configure en PinMode.PinOutput t
  let t := Pin.Configure rs PinMode.PinOutput t
  let t := Pin.Configure rw PinMode.PinOutput t
  let t := Pin.Low rw t
  let gpio : GPIO :=
    { dataPins := pins, en := en, rs := rs, rw := rw,
      write := none, writeNibble := none, read := none }
  let gpio : GPIO :=
    if mode = c4 then
      { gpio with
        write := some (debugWrite gpio.write4BitMode false),
        read := some (gpio.read4BitMode rd),
        writeNibble := some (debugWrite gpio.write4BitNibble true) }
    else
      { gpio with
        write := some gpio.write8BitMode,
        read := some (gpio.read8BitMode rd) }
  ({ bus := gpio, datalength := mode }, t)

/-! ## How each outside call changes the observations -/

section Observations

variable (rd : PinReader) (p q en : Pin) (dps : List Pin) (m : PinMode) (d : Nat)
  (c : Console) (t : Trace)

theorem level_snoc (e : Event) :
    level p (t ++ [e]) =
      match e with
      | Event.high q => if q = p then true else level p t
      | Event.low q => if q = p then false else level p t
      | _ => level p t := by
  unfold level
  rw [List.foldl_append]
  cases e <;> rfl

@[simp] theorem level_High : level p (Pin.High q t) = if q = p then true else level p t := by
  simp [Pin.High, level_snoc]

@[simp] theorem level_Low : level p (Pin.Low q t) = if q = p then false else level p t := by
  simp [Pin.Low, level_snoc]

@[simp] theorem level_Configure : level p (Pin.Configure q m t) = level p t := by
  simp [Pin.Configure, level_snoc]

@[simp] theorem level_Get : level p (Pin.Get rd q t).2 = level p t := by
  simp [Pin.Get, level_snoc]

@[simp] theorem level_Sleep : level p (Sleep d t) = level p t := by
  simp [Sleep, level_snoc]

@[simp] theorem level_consolePrint : level p (consolePrint c t) = level p t := by
  simp [consolePrint, level_snoc]

theorem lineValue_congr {t1 t2 : Trace} (h : ∀ x ∈ dps, level x t1 = level x t2) :
    lineValue dps t1 = lineValue dps t2 := by
  induction dps with
  | nil => rfl
  | cons x xs ih =>
      simp only [lineValue]
      rw [h x (List.mem_cons_self x xs), ih (fun y hy => h y (List.mem_cons_of_mem x hy))]

theorem lineValue_lt : lineValue dps t < 2 ^ dps.length := by
  induction dps with
  | nil => simp [lineValue]
  | cons x xs ih =>
      simp only [lineValue, List.length_cons, pow_succ]
      split <;> omega

theorem lineValue_High (h : q ∉ dps) : lineValue dps (Pin.High q t) = lineValue dps t := by
  apply lineValue_congr
  intro x hx
  have : q ≠ x := fun e => h (e ▸ hx)
  simp [this]

theorem lineValue_Low (h : q ∉ dps) : lineValue dps (Pin.Low q t) = lineValue dps t := by
  apply lineValue_congr
  intro x hx
  have : q ≠ x := fun e => h (e ▸ hx)
  simp [this]

@[simp] theorem lineValue_Configure : lineValue dps (Pin.Configure q m t) = lineValue dps t :=
  lineValue_congr dps (fun _ _ => by simp)

@[simp] theorem lineValue_Get : lineValue dps (Pin.Get rd q t).2 = lineValue dps t :=
  lineValue_congr dps (fun _ _ => by simp)

@[simp] theorem lineValue_Sleep : lineValue dps (Sleep d t) = lineValue dps t :=
  lineValue_congr dps (fun _ _ => by simp)

@[simp] theorem lineValue_consolePrint : lineValue dps (consolePrint c t) = lineValue dps t :=
  lineValue_congr dps (fun _ _ => by simp)

theorem shownFrom_snoc (h : Trace) (e : Event) :
    shownFrom dps en h (t ++ [e]) =
      shownFrom dps en h t ++ (if e = Event.high en then [lineValue dps (h ++ t ++ [e])] else []) := by
  induction t generalizing h with
  | nil => simp [shownFrom]
  | cons x xs ih => simp [shownFrom, ih]

theorem shown_snoc (e : Event) :
    shown dps en (t ++ [e]) =
      shown dps en t ++ (if e = Event.high en then [lineValue dps (t ++ [e])] else []) := by
  simp [shown, shownFrom_snoc]

@[simp] theorem shown_High :
    shown dps en (Pin.High q t) =
      shown dps en t ++ (if q = en then [lineValue dps (Pin.High q t)] else []) := by
  simp [Pin.High, shown_snoc]

@[simp] theorem shown_Low : shown dps en (Pin.Low q t) = shown dps en t := by
  simp [Pin.Low, shown_snoc]

@[simp] theorem shown_Configure : shown dps en (Pin.Configure q m t) = shown dps en t := by
  simp [Pin.Configure, shown_snoc]

@[simp] theorem shown_Get : shown dps en (Pin.Get rd q t).2 = shown dps en t := by
  simp [Pin.Get, shown_snoc]

@[simp] theorem shown_Sleep : shown dps en (Sleep d t) = shown dps en t := by
  simp [Sleep, shown_snoc]

@[simp] theorem shown_consolePrint : shown dps en (consolePrint c t) = shown dps en t := by
  simp [consolePrint, shown_snoc]

theorem totalSleep_snoc (e : Event) :
    totalSleep (t ++ [e]) =
      totalSleep t + (match e with | Event.sleep d => d | _ => 0) := by
  induction t with
  | nil => cases e <;> simp [totalSleep]
  | cons x xs ih =>
      cases x <;> simp [totalSleep, ih]
      omega

@[simp] theorem totalSleep_High : totalSleep (Pin.High q t) = totalSleep t := by
  simp [Pin.High, totalSleep_snoc]

@[simp] theorem totalSleep_Low : totalSleep (Pin.Low q t) = totalSleep t := by
  simp [Pin.Low, totalSleep_snoc]

@[simp] theorem totalSleep_Configure : totalSleep (Pin.Configure q m t) = totalSleep t := by
  simp [Pin.Configure, totalSleep_snoc]

@[simp] theorem totalSleep_Get : totalSleep (Pin.Get rd q t).2 = totalSleep t := by
  simp [Pin.Get, totalSleep_snoc]

@[simp] theorem totalSleep_Sleep : totalSleep (Sleep d t) = totalSleep t + d := by
  simp [Sleep, totalSleep_snoc]

@[simp] theorem totalSleep_consolePrint : totalSleep (consolePrint c t) = totalSleep t := by
  simp [consolePrint, totalSleep_snoc]

end Observations

/-! ## Byte arithmetic -/

section Bytes

theorem mask_step (j : Nat) : ((2 ^ j % 256) <<< 1) % 256 = 2 ^ (j + 1) % 256 := by
  rw [Nat.shiftLeft_eq, pow_succ]
  omega

theorem and_mask_ne_zero (data j : Nat) (hd : data < 256) :
    (data &&& (2 ^ j % 256) ≠ 0) ↔ data / 2 ^ j % 2 = 1 := by
  by_cases hj : j < 8
  · have h256 : 2 ^ j % 256 = 2 ^ j := by
      interval_cases j <;> rfl
    rw [h256, Nat.and_two_pow, Nat.toNat_testBit]
    have hpos : 0 < 2 ^ j := Nat.pow_pos (by decide)
    have hlt : data / 2 ^ j % 2 < 2 := Nat.mod_lt _ (by decide)
    constructor
    · intro h
      by_contra hne
      have h0 : data / 2 ^ j % 2 = 0 := by omega
      exact h (by rw [h0, Nat.zero_mul])
    · intro h
      rw [h, Nat.one_mul]
      omega
  · have hdvd : 2 ^ j % 256 = 0 := by
      have h8 : 2 ^ j = 2 ^ 8 * 2 ^ (j - 8) := by
        rw [← pow_add]
        congr 1
        omega
      rw [h8]
      norm_num
    have hbig : 256 ≤ 2 ^ j := by
      calc 256 = 2 ^ 8 := by norm_num
        _ ≤ 2 ^ j := Nat.pow_le_pow_right (by decide) (by omega)
    have hz : data / 2 ^ j = 0 := Nat.div_eq_of_lt (by omega)
    rw [hdvd, hz]
    simp

theorem bit_add_two_mul (x n : Nat) :
    x % 2 + 2 * (x / 2 % 2 ^ n) = x % 2 ^ (n + 1) := by
  have h := @Nat.mod_mul 2 (2 ^ n) x
  rw [pow_succ, Nat.mul_comm (2 ^ n) 2]
  omega

theorem or_bit (bits i : Nat) (hb : bits < 2 ^ i) (hi : i < 8) :
    bits ||| ((1 <<< i) % 256) = bits + 2 ^ i := by
  have h256 : (1 <<< i) % 256 = 2 ^ i := by
    interval_cases i <;> rfl
  rw [h256]
  have h := Nat.mul_add_lt_is_or hb 1
  rw [Nat.mul_one] at h
  rw [Nat.or_comm, ← h, Nat.add_comm]

theorem high_nibble_assemble (x : Nat) :
    ((x <<< 4) % 256) &&& 0xF0 = (x &&& 0x0F) <<< 4 := by
  have h1 : (x <<< 4) % 256 = (x % 16) * 16 := by
    rw [Nat.shiftLeft_eq]
    norm_num
    omega
  have h2 : x &&& 0x0F = x % 16 := Nat.and_pow_two_sub_one_eq_mod x 4
  rw [h1, h2, Nat.shiftLeft_eq]
  have hx : x % 16 < 16 := Nat.mod_lt _ (by decide)
  generalize x % 16 = y at hx
  interval_cases y <;> rfl

end Bytes

/-! ## The loops and the enable pulse -/

section Loops

variable (rd : PinReader) (dps : List Pin) (en : Pin)

theorem level_setPinsLoop (data : Nat) (ps : List Pin) (mask : Nat) (t : Trace) (p : Pin)
    (h : p ∉ ps) : level p (setPinsLoop data ps mask t) = level p t := by
  induction ps generalizing mask t with
  | nil => rfl
  | cons x xs ih =>
      have hx : x ≠ p := fun e => h (e ▸ List.mem_cons_self x xs)
      have hxs : p ∉ xs := fun hm => h (List.mem_cons_of_mem x hm)
      simp only [setPinsLoop]
      rw [ih _ _ hxs]
      split <;> simp [hx]

theorem shown_setPinsLoop (data : Nat) (ps : List Pin) (mask : Nat) (t : Trace)
    (h : en ∉ ps) : shown dps en (setPinsLoop data ps mask t) = shown dps en t := by
  induction ps generalizing mask t with
  | nil => rfl
  | cons x xs ih =>
      have hx : x ≠ en := fun e => h (e ▸ List.mem_cons_self x xs)
      have hxs : en ∉ xs := fun hm => h (List.mem_cons_of_mem x hm)
      simp only [setPinsLoop]
      rw [ih _ _ hxs]
      split <;> simp [hx]

theorem totalSleep_setPinsLoop (data : Nat) (ps : List Pin) (mask : Nat) (t : Trace) :
    totalSleep (setPinsLoop data ps mask t) = totalSleep t := by
  induction ps generalizing mask t with
  | nil => rfl
  | cons x xs ih =>
      simp only [setPinsLoop]
      rw [ih]
      split <;> simp

theorem lineValue_setPinsLoop (data : Nat) (hd : data < 256) (ps : List Pin) (j : Nat)
    (t : Trace) (hn : ps.Nodup) :
    lineValue ps (setPinsLoop data ps (2 ^ j % 256) t) = data / 2 ^ j % 2 ^ ps.length := by
  induction ps generalizing j t with
  | nil => simp [lineValue, setPinsLoop, Nat.mod_one]
  | cons x xs ih =>
      have hx : x ∉ xs := (List.nodup_cons.mp hn).1
      have hxs : xs.Nodup := (List.nodup_cons.mp hn).2
      simp only [setPinsLoop, lineValue, List.length_cons]
      simp only [level_setPinsLoop _ _ _ _ _ hx, mask_step, ih (j + 1) _ hxs]
      have hdiv : data / 2 ^ (j + 1) = data / 2 ^ j / 2 := by
        rw [pow_succ, Nat.div_div_eq_div_mul]
      rw [hdiv, ← bit_add_two_mul]
      congr 1
      have hm := and_mask_ne_zero data j hd
      have hlt : data / 2 ^ j % 2 < 2 := Nat.mod_lt _ (by decide)
      by_cases hc : data &&& (2 ^ j % 256) ≠ 0
      · rw [if_pos hc, hm.mp hc]
        simp
      · have h0 : data / 2 ^ j % 2 = 0 := by
          have : ¬ data / 2 ^ j % 2 = 1 := fun h1 => hc (hm.mpr h1)
          omega
        rw [if_neg hc, h0]
        simp

theorem lineValue_setPins (g : GPIO) (data : Nat) (hd : data < 256) (t : Trace)
    (hn : g.dataPins.Nodup) :
    lineValue g.dataPins (g.setPins data t) = data % 2 ^ g.dataPins.length := by
  have h := lineValue_setPinsLoop data hd g.dataPins 0 t hn
  simpa [ GPIO.setPins] using h

theorem pinsLoop_snd (ps : List Pin) (i bits : Nat) (t : Trace) :
    (pinsLoop rd ps i bits t).2 = sampledTrace rd ps t := by
  induction ps generalizing i bits t with
  | nil => rfl
  | cons x xs ih => simp only [pinsLoop, sampledTrace, Pin.Get, ih]

theorem pinsLoop_fst (ps : List Pin) (i bits : Nat) (t : Trace) (hb : bits < 2 ^ i)
    (hi : i + ps.length ≤ 8) :
    (pinsLoop rd ps i bits t).1 = bits + 2 ^ i * sampled rd ps t := by
  induction ps generalizing i bits t with
  | nil => simp [pinsLoop, sampled]
  | cons x xs ih =>
      simp only [List.length_cons] at hi
      simp only [pinsLoop, sampled, Pin.Get]
      have hpow : 2 ^ (i + 1) = 2 * 2 ^ i := by rw [pow_succ, Nat.mul_comm]
      have hb1 : bits + 2 ^ i < 2 ^ (i + 1) := by omega
      have hb2 : bits < 2 ^ (i + 1) := by omega
      have hi1 : i + 1 + xs.length ≤ 8 := by omega
      by_cases hx : rd t x = true
      · simp only [hx, if_true]
        rw [or_bit bits i hb (by omega), ih (i + 1) _ _ hb1 hi1, hpow]
        ring
      · have hf : rd t x = false := by simpa using hx
        simp only [hf, Bool.false_eq_true, if_false]
        rw [ih (i + 1) _ _ hb2 hi1, hpow]
        ring

theorem level_sampledTrace (ps : List Pin) (t : Trace) (p : Pin) :
    level p (sampledTrace rd ps t) = level p t := by
  induction ps generalizing t with
  | nil => rfl
  | cons x xs ih => simp [sampledTrace, ih, level_snoc]

theorem lineValue_sampledTrace (ps : List Pin) (t : Trace) :
    lineValue dps (sampledTrace rd ps t) = lineValue dps t :=
  lineValue_congr dps (fun x _ => level_sampledTrace rd ps t x)

theorem shown_sampledTrace (ps : List Pin) (t : Trace) :
    shown dps en (sampledTrace rd ps t) = shown dps en t := by
  induction ps generalizing t with
  | nil => rfl
  | cons x xs ih => simp [sampledTrace, ih, shown_snoc]

theorem totalSleep_sampledTrace (ps : List Pin) (t : Trace) :
    totalSleep (sampledTrace rd ps t) = totalSleep t := by
  induction ps generalizing t with
  | nil => rfl
  | cons x xs ih => simp [sampledTrace, ih, totalSleep_snoc]

theorem sampled_lastDriven (ps : List Pin) (t : Trace) :
    sampled lastDriven ps t = lineValue ps t := by
  induction ps generalizing t with
  | nil => rfl
  | cons x xs ih =>
      simp only [sampled, lineValue, ih]
      have h : lineValue xs (t ++ [Event.get x (lastDriven t x)]) = lineValue xs t :=
        lineValue_congr xs (fun y _ => by simp [level_snoc])
      rw [h]
      rfl

theorem lineValue_pulseEnable (g : GPIO) (t : Trace) (h : g.en ∉ dps) :
    lineValue dps (g.pulseEnable t) = lineValue dps t := by
  simp [ GPIO.pulseEnable, lineValue_Low, lineValue_High, h]

theorem shown_pulseEnable (g : GPIO) (t : Trace) (h : g.en ∉ dps) :
    shown dps g.en (g.pulseEnable t) = shown dps g.en t ++ [lineValue dps t] := by
  simp [ GPIO.pulseEnable, lineValue_Low, lineValue_High, h]

theorem totalSleep_pulseEnable (g : GPIO) (t : Trace) :
    totalSleep (g.pulseEnable t) = totalSleep t + 102 * Microsecond := by
  simp [ GPIO.pulseEnable]
  omega

theorem level_printNibble (word : Nat) (nl : Bool) (t : Trace) (p : Pin) :
    level p (printNibble word nl t) = level p t := by
  cases nl <;> simp [printNibble, printBit]

theorem lineValue_printNibble (word : Nat) (nl : Bool) (t : Trace) :
    lineValue dps (printNibble word nl t) = lineValue dps t :=
  lineValue_congr dps (fun x _ => level_printNibble word nl t x)

theorem shown_printNibble (word : Nat) (nl : Bool) (t : Trace) :
    shown dps en (printNibble word nl t) = shown dps en t := by
  cases nl <;> simp [printNibble, printBit]

theorem totalSleep_printNibble (word : Nat) (nl : Bool) (t : Trace) :
    totalSleep (printNibble word nl t) = totalSleep t := by
  cases nl <;> simp [printNibble, printBit]

theorem level_reconfigureLoop (m : PinMode) (ps : List Pin) (t : Trace) (p : Pin) :
    level p (reconfigureLoop m ps t) = level p t := by
  induction ps generalizing t with
  | nil => rfl
  | cons x xs ih => simp [reconfigureLoop, ih]

theorem lineValue_reconfigureLoop (m : PinMode) (ps : List Pin) (t : Trace) :
    lineValue dps (reconfigureLoop m ps t) = lineValue dps t :=
  lineValue_congr dps (fun x _ => level_reconfigureLoop m ps t x)

theorem shown_reconfigureLoop (m : PinMode) (ps : List Pin) (t : Trace) :
    shown dps en (reconfigureLoop m ps t) = shown dps en t := by
  induction ps generalizing t with
  | nil => rfl
  | cons x xs ih => simp [reconfigureLoop, ih]

theorem totalSleep_reconfigureLoop (m : PinMode) (ps : List Pin) (t : Trace) :
    totalSleep (reconfigureLoop m ps t) = totalSleep t := by
  induction ps generalizing t with
  | nil => rfl
  | cons x xs ih => simp [reconfigureLoop, ih]

end Loops

/-! ## Sampling the data lines -/

theorem pins_eq (rd : PinReader) (g : GPIO) (t : Trace) (hlen : g.dataPins.length ≤ 8) :
    g.pins rd t = (sampled rd g.dataPins t, sampledTrace rd g.dataPins t) := by
  have hmod : g.dataPins.length % 256 = g.dataPins.length := Nat.mod_eq_of_lt (by omega)
  unfold GPIO.pins
  rw [hmod, List.take_length]
  apply Prod.ext
  · rw [pinsLoop_fst rd g.dataPins 0 0 t (by simp) (by omega)]
    simp
  · exact pinsLoop_snd rd g.dataPins 0 0 t

theorem pins_lastDriven (g : GPIO) (t : Trace) (hlen : g.dataPins.length ≤ 8) :
    (g.pins lastDriven t).1 = lineValue g.dataPins t := by
  rw [pins_eq lastDriven g t hlen]
  exact sampled_lastDriven g.dataPins t

theorem sampled_lt (rd : PinReader) (ps : List Pin) (t : Trace) :
    sampled rd ps t < 2 ^ ps.length := by
  induction ps generalizing t with
  | nil => simp [sampled]
  | cons x xs ih =>
      have h := ih (t ++ [Event.get x (rd t x)])
      simp only [sampled, List.length_cons, pow_succ]
      split <;> omega

theorem sampled_testBit (rd : PinReader) (ps : List Pin) (t : Trace) (i : Nat) :
    (sampled rd ps t).testBit i = (answers rd ps t).getD i false := by
  induction ps generalizing t i with
  | nil => simp [sampled, answers]
  | cons x xs ih =>
      cases i with
      | zero =>
          simp only [sampled, answers, Nat.testBit_zero, List.getD_cons_zero]
          cases rd t x <;> simp
      | succ k =>
          simp only [sampled, answers, Nat.testBit_succ, List.getD_cons_succ]
          rw [← ih]
          congr 1
          split <;> omega

/-! ## One unit of a write -/

section WriteUnit

variable (g : GPIO)

theorem lineValue_write4BitNibble (v : Nat) (t : Trace) (hv : v < 256)
    (hn : g.dataPins.Nodup) (hen : g.en ∉ g.dataPins) :
    lineValue g.dataPins (g.write4BitNibble v t) = v % 2 ^ g.dataPins.length := by
  simp only [ GPIO.write4BitNibble]
  rw [lineValue_pulseEnable _ g _ hen, lineValue_setPins g v hv t hn]

theorem shown_write4BitNibble (v : Nat) (t : Trace) (hv : v < 256)
    (hn : g.dataPins.Nodup) (hen : g.en ∉ g.dataPins) :
    shown g.dataPins g.en (g.write4BitNibble v t)
      = shown g.dataPins g.en t ++ [v % 2 ^ g.dataPins.length] := by
  simp only [ GPIO.write4BitNibble]
  rw [shown_pulseEnable _ g _ hen, lineValue_setPins g v hv t hn]
  simp only [ GPIO.setPins]
  rw [shown_setPinsLoop _ _ _ _ _ _ hen]

theorem totalSleep_write4BitNibble (v : Nat) (t : Trace) :
    totalSleep (g.write4BitNibble v t) = totalSleep t + 102 * Microsecond := by
  simp only [ GPIO.write4BitNibble, GPIO.setPins]
  rw [totalSleep_pulseEnable, totalSleep_setPinsLoop]

theorem lineValue_write8BitMode (v : Nat) (t : Trace) (hv : v < 256)
    (hn : g.dataPins.Nodup) (hen : g.en ∉ g.dataPins) :
    lineValue g.dataPins (g.write8BitMode v t) = v % 2 ^ g.dataPins.length :=
  lineValue_write4BitNibble g v t hv hn hen

theorem shown_write8BitMode (v : Nat) (t : Trace) (hv : v < 256)
    (hn : g.dataPins.Nodup) (hen : g.en ∉ g.dataPins) :
    shown g.dataPins g.en (g.write8BitMode v t)
      = shown g.dataPins g.en t ++ [v % 2 ^ g.dataPins.length] :=
  shown_write4BitNibble g v t hv hn hen

theorem totalSleep_write8BitMode (v : Nat) (t : Trace) :
    totalSleep (g.write8BitMode v t) = totalSleep t + 102 * Microsecond :=
  totalSleep_write4BitNibble g v t

theorem shiftRight_four_lt (v : Nat) (hv : v < 256) : v >>> 4 < 16 := by
  rw [Nat.shiftRight_eq_div_pow]
  omega

theorem lineValue_write4BitMode (v : Nat) (t : Trace) (hv : v < 256)
    (hn : g.dataPins.Nodup) (hen : g.en ∉ g.dataPins) :
    lineValue g.dataPins (g.write4BitMode v t) = v % 2 ^ g.dataPins.length := by
  simp only [ GPIO.write4BitMode]
  exact lineValue_write4BitNibble g v _ hv hn hen

theorem shown_write4BitMode (v : Nat) (t : Trace) (hv : v < 256)
    (hn : g.dataPins.Nodup) (hen : g.en ∉ g.dataPins) :
    shown g.dataPins g.en (g.write4BitMode v t)
      = shown g.dataPins g.en t
          ++ [(v >>> 4) % 2 ^ g.dataPins.length, v % 2 ^ g.dataPins.length] := by
  have hhi : v >>> 4 < 256 := by
    have := shiftRight_four_lt v hv
    omega
  simp only [ GPIO.write4BitMode]
  rw [shown_write4BitNibble g v _ hv hn hen, shown_write4BitNibble g _ _ hhi hn hen]
  simp

theorem totalSleep_write4BitMode (v : Nat) (t : Trace) :
    totalSleep (g.write4BitMode v t) = totalSleep t + 2 * (102 * Microsecond) := by
  simp only [ GPIO.write4BitMode]
  rw [totalSleep_write4BitNibble, totalSleep_write4BitNibble]
  omega

theorem lineValue_debugWrite (dps : List Pin) (w : Nat → Trace → Trace) (onlyLow : Bool)
    (v : Nat) (t : Trace) (x : Nat) (hw : ∀ t1, lineValue dps (w v t1) = x) :
    lineValue dps (debugWrite w onlyLow v t) = x := by
  simp only [debugWrite]
  exact hw _

theorem shown_debugWrite (dps : List Pin) (en : Pin) (w : Nat → Trace → Trace)
    (onlyLow : Bool) (v : Nat) (t : Trace) (xs : List Nat)
    (hw : ∀ t1, shown dps en (w v t1) = shown dps en t1 ++ xs) :
    shown dps en (debugWrite w onlyLow v t) = shown dps en t ++ xs := by
  simp only [debugWrite]
  rw [hw, shown_printNibble]
  cases onlyLow <;> simp [shown_printNibble]

theorem totalSleep_debugWrite (w : Nat → Trace → Trace) (onlyLow : Bool) (v : Nat)
    (t : Trace) (c : Nat) (hw : ∀ t1, totalSleep (w v t1) = totalSleep t1 + c) :
    totalSleep (debugWrite w onlyLow v t) = totalSleep t + c := by
  simp only [debugWrite]
  rw [hw, totalSleep_printNibble]
  cases onlyLow <;> simp [totalSleep_printNibble]

end WriteUnit

/-! ## The write loop -/

section WriteLoop

variable (f : Nat → Trace → Trace)

theorem writeLoop_value (data : List Nat) (n : Nat) (t : Trace) :
    (writeLoop (some f) data n t).value = some (n + data.length) := by
  induction data generalizing n t with
  | nil => simp [writeLoop, Outcome.value]
  | cons d ds ih =>
      simp only [writeLoop, List.length_cons]
      rw [ih]
      congr 1
      omega

theorem writeLoop_ret (data : List Nat) (n : Nat) (t : Trace) :
    writeLoop (some f) data n t
      = Outcome.ret (n + data.length) (writeLoop (some f) data n t).trace := by
  induction data generalizing n t with
  | nil => simp [writeLoop, Outcome.trace]
  | cons d ds ih =>
      simp only [writeLoop, List.length_cons]
      rw [ih]
      simp only [Outcome.trace]
      congr 1
      omega

theorem shown_writeLoop (dps : List Pin) (en : Pin) (F : Nat → List Nat)
    (data : List Nat) (hdata : ∀ d ∈ data, d < 256)
    (hf : ∀ d, d < 256 → ∀ t, shown dps en (f d t) = shown dps en t ++ F d)
    (n : Nat) (t : Trace) :
    shown dps en (writeLoop (some f) data n t).trace = shown dps en t ++ data.flatMap F := by
  induction data generalizing n t with
  | nil => simp [writeLoop, Outcome.trace]
  | cons d ds ih =>
      have hd : d < 256 := hdata d (List.mem_cons_self d ds)
      have hds : ∀ x ∈ ds, x < 256 := fun x hx => hdata x (List.mem_cons_of_mem d hx)
      simp only [writeLoop, List.flatMap_cons]
      rw [ih hds, hf d hd, List.append_assoc]

theorem totalSleep_writeLoop (c : Nat) (data : List Nat)
    (hf : ∀ d t, totalSleep (f d t) = totalSleep t + c) (n : Nat) (t : Trace) :
    totalSleep (writeLoop (some f) data n t).trace = totalSleep t + data.length * c := by
  induction data generalizing n t with
  | nil => simp [writeLoop, Outcome.trace]
  | cons d ds ih =>
      simp only [writeLoop, List.length_cons]
      rw [ih, hf]
      ring

theorem lineValue_writeLoop (dps : List Pin) (V : Nat → Nat)
    (data : List Nat) (hdata : ∀ d ∈ data, d < 256)
    (hf : ∀ d, d < 256 → ∀ t, lineValue dps (f d t) = V d)
    (n : Nat) (t : Trace) :
    lineValue dps (writeLoop (some f) data n t).trace
      = match data.getLast? with
        | some d => V d
        | none => lineValue dps t := by
  induction data generalizing n t with
  | nil => simp [writeLoop, Outcome.trace]
  | cons d ds ih =>
      have hd : d < 256 := hdata d (List.mem_cons_self d ds)
      have hds : ∀ x ∈ ds, x < 256 := fun x hx => hdata x (List.mem_cons_of_mem d hx)
      simp only [writeLoop]
      rw [ih hds, List.getLast?_cons]
      cases ds.getLast? with
      | none => simp [hf d hd]
      | some y => simp

end WriteLoop

/-! ## The transport built by `newGPIO` -/

section Constructor

variable (rd : PinReader) (c4 : Nat) (dps : List Pin) (en rs rw : Pin) (mode : Nat) (t0 : Trace)

@[simp] theorem newGPIO_dataPins : ( newGPIO rd c4 dps en rs rw mode t0).1.bus.dataPins = dps := by
  simp only [ newGPIO]
  split <;> rfl

@[simp] theorem newGPIO_en : ( newGPIO rd c4 dps en rs rw mode t0).1.bus.en = en := by
  simp only [ newGPIO]
  split <;> rfl

@[simp] theorem newGPIO_rw : ( newGPIO rd c4 dps en rs rw mode t0).1.bus.rw = rw := by
  simp only [ newGPIO]
  split <;> rfl

@[simp] theorem newGPIO_rs : ( newGPIO rd c4 dps en rs rw mode t0).1.bus.rs = rs := by
  simp only [ newGPIO]
  split <;> rfl

theorem newGPIO_write_4 :
    ( newGPIO rd c4 dps en rs rw c4 t0).1.bus.write
      = some (debugWrite ( GPIO.write4BitMode
          { dataPins := dps, en := en, rs := rs, rw := rw,
            write := none, writeNibble := none, read := none }) false) := by
  simp [ newGPIO]

theorem newGPIO_writeNibble_4 :
    ( newGPIO rd c4 dps en rs rw c4 t0).1.bus.writeNibble
      = some (debugWrite ( GPIO.write4BitNibble
          { dataPins := dps, en := en, rs := rs, rw := rw,
            write := none, writeNibble := none, read := none }) true) := by
  simp [ newGPIO]

theorem newGPIO_read_4 :
    ( newGPIO rd c4 dps en rs rw c4 t0).1.bus.read
      = some ( GPIO.read4BitMode rd
          { dataPins := dps, en := en, rs := rs, rw := rw,
            write := none, writeNibble := none, read := none }) := by
  simp [ newGPIO]

theorem newGPIO_write_8 (hm : mode ≠ c4) :
    ( newGPIO rd c4 dps en rs rw mode t0).1.bus.write
      = some ( GPIO.write8BitMode
          { dataPins := dps, en := en, rs := rs, rw := rw,
            write := none, writeNibble := none, read := none }) := by
  simp [ newGPIO, hm]

theorem newGPIO_writeNibble_8 (hm : mode ≠ c4) :
    ( newGPIO rd c4 dps en rs rw mode t0).1.bus.writeNibble = none := by
  simp [ newGPIO, hm]

theorem newGPIO_read_8 (hm : mode ≠ c4) :
    ( newGPIO rd c4 dps en rs rw mode t0).1.bus.read
      = some ( GPIO.read8BitMode rd
          { dataPins := dps, en := en, rs := rs, rw := rw,
            write := none, writeNibble := none, read := none }) := by
  simp [ newGPIO, hm]

end Constructor

/-! ## `Write` and `WriteNibble` as loops -/

theorem trace_ret {α : Type} (a : α) (t : Trace) : (Outcome.ret a t).trace = t := rfl

theorem value_ret {α : Type} (a : α) (t : Trace) : (Outcome.ret a t).value = some a := rfl

theorem Write_eq (g : GPIO) (f : Nat → Trace → Trace) (hf : g.write = some f)
    (data : List Nat) (t : Trace) :
    g.Write data t
      = Outcome.ret (data.length, none) (writeLoop (some f) data 0 (Pin.Low g.rw t)).trace := by
  simp only [ GPIO.Write, hf]
  rw [writeLoop_ret]
  simp [Outcome.trace]

theorem WriteNibble_eq (g : GPIO) (f : Nat → Trace → Trace) (hf : g.writeNibble = some f)
    (data : List Nat) (t : Trace) :
    g.WriteNibble data t
      = Outcome.ret (data.length, none)
          (g.pulseEnable (writeLoop (some f) data 0 (Pin.Low g.rw t)).trace) := by
  simp only [ GPIO.WriteNibble, hf]
  rw [writeLoop_ret]
  simp [Outcome.trace]

theorem low_nibble (d : Nat) : d % 2 ^ 4 = d &&& 0x0F :=
  (Nat.and_pow_two_sub_one_eq_mod d 4).symm

theorem flatMap_single {α β : Type} (f : α → β) (l : List α) :
    l.flatMap (fun a => [f a]) = l.map f := by
  induction l with
  | nil => rfl
  | cons a as ih => simp [List.flatMap_cons, ih]

theorem lineValue_testBit (dps : List Pin) (t : Trace) (i : Nat) :
    (lineValue dps t).testBit i = (dps.map (fun p => level p t)).getD i false := by
  induction dps generalizing i with
  | nil => simp [lineValue]
  | cons x xs ih =>
      cases i with
      | zero =>
          simp only [lineValue, List.map_cons, Nat.testBit_zero, List.getD_cons_zero]
          cases level x t <;> simp
      | succ k =>
          simp only [lineValue, List.map_cons, Nat.testBit_succ, List.getD_cons_succ]
          rw [← ih]
          congr 1
          split <;> omega

/-! ## `Read` as successive calls of the read function -/

section ReadLoop

variable (f : Trace → Nat × Trace)

theorem successive_length (k : Nat) (t : Trace) : (successive f k t).1.length = k := by
  induction k generalizing t with
  | zero => rfl
  | succ k ih => simp [successive, ih]

theorem take_succ_set (data : List Nat) (i b : Nat) (hi : i < data.length) :
    (data.set i b).take (i + 1) = data.take i ++ [b] := by
  rw [List.set_eq_take_append_cons_drop, if_pos hi, List.take_append_eq_append_take]
  have hl : (List.take i data).length = i := by
    rw [List.length_take]
    omega
  rw [hl, List.take_of_length_le (by omega)]
  simp

theorem readLoop_eq (k i : Nat) (data : List Nat) (n : Nat) (t : Trace)
    (hk : i + k = data.length) :
    readLoop (some f) k i data n t
      = Outcome.ret (data.take i ++ (successive f k t).1, n + k) (successive f k t).2 := by
  induction k generalizing i data n t with
  | zero =>
      have hi : data.length ≤ i := by omega
      simp [readLoop, successive, List.take_of_length_le hi]
  | succ k ih =>
      simp only [readLoop, successive]
      rw [ih (i + 1) _ _ _ (by rw [List.length_set]; omega), take_succ_set data i _ (by omega)]
      congr 1
      · simp
        omega

theorem Read_eq (g : GPIO) (hf : g.read = some f) (data : List Nat) (t : Trace)
    (hne : data ≠ []) :
    g.Read data t
      = Outcome.ret
          ((successive f data.length
              (g.reconfigureGPIOMode PinMode.PinInput (Pin.High g.rw t))).1, data.length, none)
          (g.reconfigureGPIOMode PinMode.PinInput
            (successive f data.length
              (g.reconfigureGPIOMode PinMode.PinInput (Pin.High g.rw t))).2) := by
  have hlen : ¬ data.length = 0 := fun h => hne (List.length_eq_zero.mp h)
  simp only [ GPIO.Read, if_neg hlen, hf]
  rw [readLoop_eq f data.length 0 data 0 _ (by omega)]
  simp

end ReadLoop

/-! ## One unit of a read -/

section ReadUnit

variable (rd : PinReader) (g : GPIO)

theorem drives_append (p : Pin) (t1 t2 : List Event) :
    drives p (t1 ++ t2) = drives p t1 ++ drives p t2 := by
  induction t1 with
  | nil => rfl
  | cons e es ih =>
      cases e <;> simp only [List.cons_append, drives]
      case high q => by_cases h : q = p <;> simp [h, ih]
      case low q => by_cases h : q = p <;> simp [h, ih]
      all_goals exact ih

theorem drives_High (p q : Pin) (t : Trace) :
    drives p (Pin.High q t) = drives p t ++ (if q = p then [true] else []) := by
  simp only [Pin.High, drives_append, drives]

theorem drives_Low (p q : Pin) (t : Trace) :
    drives p (Pin.Low q t) = drives p t ++ (if q = p then [false] else []) := by
  simp only [Pin.Low, drives_append, drives]

theorem drives_sampledTrace (p : Pin) (ps : List Pin) (t : Trace) :
    drives p (sampledTrace rd ps t) = drives p t := by
  induction ps generalizing t with
  | nil => rfl
  | cons x xs ih => simp [sampledTrace, ih, drives_append, drives]

theorem read8BitMode_eq (t : Trace) (hlen : g.dataPins.length ≤ 8) :
    g.read8BitMode rd t
      = (sampled rd g.dataPins (Pin.High g.en t),
         Pin.Low g.en (sampledTrace rd g.dataPins (Pin.High g.en t))) := by
  simp only [ GPIO.read8BitMode, pins_eq rd g _ hlen]

theorem read4BitMode_eq (t : Trace) (hlen : g.dataPins.length ≤ 8) :
    g.read4BitMode rd t
      = (((sampled rd g.dataPins (Pin.High g.en t) &&& 0x0F) <<< 4)
          ||| (sampled rd g.dataPins
                (Pin.High g.en (Pin.Low g.en (sampledTrace rd g.dataPins (Pin.High g.en t))))
              &&& 0x0F),
         Pin.Low g.en (sampledTrace rd g.dataPins
           (Pin.High g.en (Pin.Low g.en (sampledTrace rd g.dataPins (Pin.High g.en t)))))) := by
  simp only [ GPIO.read4BitMode, pins_eq rd g _ hlen, high_nibble_assemble]

theorem read8BitMode_lastDriven (t : Trace) (hlen : g.dataPins.length ≤ 8)
    (hen : g.en ∉ g.dataPins) :
    (g.read8BitMode lastDriven t).1 = lineValue g.dataPins t := by
  rw [read8BitMode_eq lastDriven g t hlen]
  simp only [sampled_lastDriven]
  exact lineValue_High _ _ _ hen

theorem read4BitMode_lastDriven (t : Trace) (hlen : g.dataPins.length ≤ 8)
    (hen : g.en ∉ g.dataPins) :
    (g.read4BitMode lastDriven t).1
      = ((lineValue g.dataPins t &&& 0x0F) <<< 4) ||| (lineValue g.dataPins t &&& 0x0F) := by
  rw [read4BitMode_eq lastDriven g t hlen]
  simp only [sampled_lastDriven]
  rw [lineValue_High _ _ _ hen, lineValue_High _ _ _ hen, lineValue_Low _ _ _ hen,
    lineValue_sampledTrace, lineValue_High _ _ _ hen]

theorem successive_mem (f : Trace → Nat × Trace) (k : Nat) (t : Trace) :
    ∀ b ∈ (successive f k t).1, ∃ tk, b = (f tk).1 := by
  induction k generalizing t with
  | zero => simp [successive]
  | succ k ih =>
      intro b hb
      simp only [successive, List.mem_cons] at hb
      rcases hb with h | h
      · exact ⟨t, h⟩
      · exact ih _ b h

theorem nibbles_assemble (x : Nat) (hx : x < 16) :
    ((x &&& 0x0F) <<< 4) ||| (x &&& 0x0F) = x * 0x11 := by
  interval_cases x <;> rfl

end ReadUnit

/-! ## A write followed by a read on lines that return the level last driven -/

section WriteThenRead

variable (c4 mode : Nat) (dps : List Pin) (en rs rw : Pin) (t0 t : Trace) (v b0 : Nat)

theorem Write_Read_8line_value (hm : mode ≠ c4) (hlen : dps.length = 8) (hn : dps.Nodup)
    (hen : en ∉ dps) (hrw : rw ∉ dps) (hv : v < 256) :
    (( newGPIO lastDriven c4 dps en rs rw mode t0).1.bus.Read [b0]
        (( newGPIO lastDriven c4 dps en rs rw mode t0).1.bus.Write [v] t).trace).value
      = some ([v], 1, none) := by
  rw [Write_eq _ _ (newGPIO_write_8 lastDriven c4 dps en rs rw mode t0 hm), trace_ret]
  rw [Read_eq _ _ (newGPIO_read_8 lastDriven c4 dps en rs rw mode t0 hm) [b0] _ (by simp),
    value_ret]
  simp only [successive, writeLoop, trace_ret, GPIO.reconfigureGPIOMode, newGPIO_dataPins,
    newGPIO_rw, List.length_singleton]
  have hw := lineValue_write8BitMode
    { dataPins := dps, en := en, rs := rs, rw := rw,
      write := none, writeNibble := none, read := none } v (Pin.Low rw t) hv hn hen
  simp only [hlen] at hw
  rw [read8BitMode_lastDriven
    { dataPins := dps, en := en, rs := rs, rw := rw,
      write := none, writeNibble := none, read := none } _ (by simp [hlen]) hen]
  simp only [lineValue_reconfigureLoop]
  rw [lineValue_High _ _ _ hrw, hw, Nat.mod_eq_of_lt (by omega)]

theorem Write_Read_4line_value (hlen : dps.length = 4) (hn : dps.Nodup)
    (hen : en ∉ dps) (hrw : rw ∉ dps) (hv : v < 256) :
    (( newGPIO lastDriven c4 dps en rs rw c4 t0).1.bus.Read [b0]
        (( newGPIO lastDriven c4 dps en rs rw c4 t0).1.bus.Write [v] t).trace).value
      = some ([(v &&& 0x0F) * 0x11], 1, none) := by
  rw [Write_eq _ _ (newGPIO_write_4 lastDriven c4 dps en rs rw t0), trace_ret]
  rw [Read_eq _ _ (newGPIO_read_4 lastDriven c4 dps en rs rw t0) [b0] _ (by simp), value_ret]
  simp only [successive, writeLoop, trace_ret, GPIO.reconfigureGPIOMode, newGPIO_dataPins,
    newGPIO_rw, List.length_singleton]
  have hw : ∀ t1, lineValue dps (debugWrite ( GPIO.write4BitMode
      { dataPins := dps, en := en, rs := rs, rw := rw,
        write := none, writeNibble := none, read := none }) false v t1) = v % 2 ^ 4 := by
    intro t1
    apply lineValue_debugWrite
    intro t2
    have h := lineValue_write4BitMode
      { dataPins := dps, en := en, rs := rs, rw := rw,
        write := none, writeNibble := none, read := none } v t2 hv hn hen
    simp only [hlen] at h
    exact h
  rw [read4BitMode_lastDriven
    { dataPins := dps, en := en, rs := rs, rw := rw,
      write := none, writeNibble := none, read := none } _ (by simp [hlen]) hen]
  simp only [lineValue_reconfigureLoop]
  have hx : v % 2 ^ 4 < 16 := Nat.mod_lt _ (by decide)
  rw [lineValue_High _ _ _ hrw, hw, nibbles_assemble (v % 2 ^ 4) hx, low_nibble]

end WriteThenRead

/-! ## Calls that only add events of a given kind -/

section Frames

variable {P : Event → Prop}

theorem Adds.refl (t : Trace) : Adds P t t := ⟨[], by simp, by simp⟩

theorem Adds.trans {t1 t2 t3 : Trace} (h1 : Adds P t1 t2) (h2 : Adds P t2 t3) :
    Adds P t1 t3 := by
  obtain ⟨e1, rfl, hp1⟩ := h1
  obtain ⟨e2, rfl, hp2⟩ := h2
  refine ⟨e1 ++ e2, by simp, ?_⟩
  intro e he
  rcases List.mem_append.mp he with h | h
  · exact hp1 e h
  · exact hp2 e h

theorem Adds.one (t : Trace) (e : Event) (h : P e) : Adds P t (t ++ [e]) :=
  ⟨[e], rfl, by simpa using h⟩

theorem Adds.mono {Q : Event → Prop} {t1 t2 : Trace} (h : Adds P t1 t2)
    (hpq : ∀ e, P e → Q e) : Adds Q t1 t2 := by
  obtain ⟨evs, rfl, hp⟩ := h
  exact ⟨evs, rfl, fun e he => hpq e (hp e he)⟩

theorem Adds_High (p : Pin) (t : Trace) (h : P (Event.high p)) : Adds P t (Pin.High p t) :=
  Adds.one t _ h

theorem Adds_Low (p : Pin) (t : Trace) (h : P (Event.low p)) : Adds P t (Pin.Low p t) :=
  Adds.one t _ h

theorem Adds_Configure (p : Pin) (m : PinMode) (t : Trace) (h : P (Event.configure p m)) :
    Adds P t (Pin.Configure p m t) :=
  Adds.one t _ h

theorem Adds_Sleep (d : Nat) (t : Trace) (h : P (Event.sleep d)) : Adds P t (Sleep d t) :=
  Adds.one t _ h

theorem Adds_consolePrint (c : Console) (t : Trace) (h : P (Event.print c)) :
    Adds P t (consolePrint c t) :=
  Adds.one t _ h

theorem Adds_setPinsLoop (data : Nat) (ps : List Pin) (mask : Nat) (t : Trace)
    (h : ∀ p ∈ ps, P (Event.high p) ∧ P (Event.low p)) :
    Adds P t (setPinsLoop data ps mask t) := by
  induction ps generalizing mask t with
  | nil => exact Adds.refl t
  | cons x xs ih =>
      have hx := h x (List.mem_cons_self x xs)
      have hxs : ∀ p ∈ xs, P (Event.high p) ∧ P (Event.low p) :=
        fun p hp => h p (List.mem_cons_of_mem x hp)
      simp only [setPinsLoop]
      refine Adds.trans ?_ (ih _ _ hxs)
      split
      · exact Adds_High x t hx.1
      · exact Adds_Low x t hx.2

theorem Adds_pulseEnable (g : GPIO) (t : Trace) (hl : P (Event.low g.en))
    (hh : P (Event.high g.en)) (hs : ∀ d, P (Event.sleep d)) :
    Adds P t (g.pulseEnable t) := by
  simp only [ GPIO.pulseEnable]
  exact (((((Adds_Low _ _ hl).trans (Adds_Sleep _ _ (hs _))).trans (Adds_High _ _ hh)).trans
    (Adds_Sleep _ _ (hs _))).trans (Adds_Low _ _ hl)).trans (Adds_Sleep _ _ (hs _))

theorem Adds_printBit (word mask : Nat) (t : Trace) (hp : ∀ c, P (Event.print c)) :
    Adds P t (printBit word mask t) :=
  Adds_consolePrint _ _ (hp _)

theorem Adds_printNibble (word : Nat) (nl : Bool) (t : Trace) (hp : ∀ c, P (Event.print c)) :
    Adds P t (printNibble word nl t) := by
  have h4 : Adds P t (printBit word 0x1 (printBit word 0x2 (printBit word 0x4
      (printBit word 0x8 t)))) :=
    (((Adds_printBit word 0x8 t hp).trans (Adds_printBit word 0x4 _ hp)).trans
      (Adds_printBit word 0x2 _ hp)).trans (Adds_printBit word 0x1 _ hp)
  cases nl
  · exact h4.trans (Adds_consolePrint _ _ (hp _))
  · exact h4.trans (Adds_consolePrint _ _ (hp _))

theorem Adds_reconfigureLoop (m : PinMode) (ps : List Pin) (t : Trace)
    (h : ∀ p ∈ ps, P (Event.configure p m)) : Adds P t (reconfigureLoop m ps t) := by
  induction ps generalizing t with
  | nil => exact Adds.refl t
  | cons x xs ih =>
      simp only [reconfigureLoop]
      exact (Adds_Configure x m t (h x (List.mem_cons_self x xs))).trans
        (ih _ (fun p hp => h p (List.mem_cons_of_mem x hp)))

theorem Adds_sampledTrace (rd : PinReader) (ps : List Pin) (t : Trace)
    (h : ∀ p ∈ ps, ∀ v, P (Event.get p v)) : Adds P t (sampledTrace rd ps t) := by
  induction ps generalizing t with
  | nil => exact Adds.refl t
  | cons x xs ih =>
      simp only [sampledTrace]
      exact (Adds.one t _ (h x (List.mem_cons_self x xs) _)).trans
        (ih _ (fun p hp => h p (List.mem_cons_of_mem x hp)))

theorem Adds_pins (rd : PinReader) (g : GPIO) (t : Trace)
    (h : ∀ p ∈ g.dataPins, ∀ v, P (Event.get p v)) : Adds P t (g.pins rd t).2 := by
  simp only [ GPIO.pins, pinsLoop_snd]
  exact Adds_sampledTrace rd _ t (fun p hp => h p (List.mem_of_mem_take hp))

end Frames

/-! ## What the transport's calls add to the history -/

section TransportFrames

variable {P : Event → Prop} (g : GPIO)

theorem Adds_setPins (v : Nat) (t : Trace) (h : WriteEvents P g.dataPins g.en) :
    Adds P t (g.setPins v t) :=
  Adds_setPinsLoop v g.dataPins 1 t h.1

theorem Adds_write4BitNibble (v : Nat) (t : Trace) (h : WriteEvents P g.dataPins g.en) :
    Adds P t (g.write4BitNibble v t) :=
  (Adds_setPins g v t h).trans (Adds_pulseEnable g _ h.2.1 h.2.2.1 h.2.2.2.1)

theorem Adds_write8BitMode (v : Nat) (t : Trace) (h : WriteEvents P g.dataPins g.en) :
    Adds P t (g.write8BitMode v t) :=
  Adds_write4BitNibble g v t h

theorem Adds_write4BitMode (v : Nat) (t : Trace) (h : WriteEvents P g.dataPins g.en) :
    Adds P t (g.write4BitMode v t) :=
  (Adds_write4BitNibble g (v >>> 4) t h).trans (Adds_write4BitNibble g v _ h)

theorem Adds_debugWrite (w : Nat → Trace → Trace) (onlyLow : Bool) (v : Nat) (t : Trace)
    (hw : ∀ t1, Adds P t1 (w v t1)) (hp : ∀ c, P (Event.print c)) :
    Adds P t (debugWrite w onlyLow v t) := by
  simp only [debugWrite]
  refine Adds.trans ?_ (hw _)
  refine Adds.trans ?_ (Adds_printNibble _ _ _ hp)
  cases onlyLow
  · simpa using Adds_printNibble (v >>> 4) false t hp
  · simpa using Adds.refl t

theorem Adds_writeLoop (wr : Option (Nat → Trace → Trace)) (data : List Nat) (n : Nat)
    (t : Trace) (hw : ∀ f, wr = some f → ∀ d t1, Adds P t1 (f d t1)) :
    Adds P t (writeLoop wr data n t).trace := by
  induction data generalizing n t with
  | nil => exact Adds.refl t
  | cons d ds ih =>
      cases wr with
      | none => exact Adds.refl t
      | some f =>
          simp only [writeLoop]
          exact (hw f rfl d t).trans (ih _ _)

theorem Adds_Write (data : List Nat) (t : Trace) (hrw : P (Event.low g.rw))
    (hw : ∀ f, g.write = some f → ∀ d t1, Adds P t1 (f d t1)) :
    Adds P t (g.Write data t).trace := by
  have h := (Adds_Low g.rw t hrw).trans (Adds_writeLoop g.write data 0 (Pin.Low g.rw t) hw)
  simp only [ GPIO.Write]
  cases hl : writeLoop g.write data 0 (Pin.Low g.rw t) with
  | ret a t1 => rw [hl] at h; exact h
  | nilFunc t1 => rw [hl] at h; exact h

theorem Adds_WriteNibble (data : List Nat) (t : Trace) (hrw : P (Event.low g.rw))
    (hen : P (Event.low g.en) ∧ P (Event.high g.en) ∧ ∀ d, P (Event.sleep d))
    (hw : ∀ f, g.writeNibble = some f → ∀ d t1, Adds P t1 (f d t1)) :
    Adds P t (g.WriteNibble data t).trace := by
  have h := (Adds_Low g.rw t hrw).trans
    (Adds_writeLoop g.writeNibble data 0 (Pin.Low g.rw t) hw)
  simp only [ GPIO.WriteNibble]
  cases hl : writeLoop g.writeNibble data 0 (Pin.Low g.rw t) with
  | ret a t1 =>
      rw [hl] at h
      exact h.trans (Adds_pulseEnable g t1 hen.1 hen.2.1 hen.2.2)
  | nilFunc t1 => rw [hl] at h; exact h

theorem Adds_read8BitMode (rd : PinReader) (t : Trace) (h : ReadEvents P g.dataPins g.en) :
    Adds P t (g.read8BitMode rd t).2 := by
  simp only [ GPIO.read8BitMode]
  exact ((Adds_High g.en t h.1).trans (Adds_pins rd g _ h.2.2)).trans (Adds_Low g.en _ h.2.1)

theorem Adds_read4BitMode (rd : PinReader) (t : Trace) (h : ReadEvents P g.dataPins g.en) :
    Adds P t (g.read4BitMode rd t).2 := by
  simp only [ GPIO.read4BitMode]
  exact (((((Adds_High g.en t h.1).trans (Adds_pins rd g _ h.2.2)).trans
    (Adds_Low g.en _ h.2.1)).trans (Adds_High g.en _ h.1)).trans
    (Adds_pins rd g _ h.2.2)).trans (Adds_Low g.en _ h.2.1)

theorem Adds_successive (f : Trace → Nat × Trace) (k : Nat) (t : Trace)
    (hf : ∀ t1, Adds P t1 (f t1).2) : Adds P t (successive f k t).2 := by
  induction k generalizing t with
  | zero => exact Adds.refl t
  | succ k ih =>
      simp only [successive]
      exact (hf t).trans (ih _)

theorem Adds_Read (f : Trace → Nat × Trace) (hf : g.read = some f) (data : List Nat)
    (t : Trace) (hrw : P (Event.high g.rw))
    (hc : ∀ p ∈ g.dataPins, P (Event.configure p PinMode.PinInput))
    (hr : ∀ t1, Adds P t1 (f t1).2) :
    Adds P t (g.Read data t).trace := by
  by_cases hne : data = []
  · subst hne
    exact Adds.refl t
  · rw [Read_eq f g hf data t hne, trace_ret]
    simp only [ GPIO.reconfigureGPIOMode]
    exact (((Adds_High g.rw t hrw).trans (Adds_reconfigureLoop _ _ _ hc)).trans
      (Adds_successive f _ _ hr)).trans (Adds_reconfigureLoop _ _ _ hc)

end TransportFrames

section BuiltFrames

variable {P : Event → Prop} (rd : PinReader) (c4 mode : Nat) (dps : List Pin) (en rs rw : Pin)
  (t0 : Trace)

theorem newGPIO_write_Adds (h : WriteEvents P dps en) (f : Nat → Trace → Trace)
    (hf : ( newGPIO rd c4 dps en rs rw mode t0).1.bus.write = some f) (d : Nat) (t : Trace) :
    Adds P t (f d t) := by
  by_cases hm : mode = c4
  · subst hm
    rw [newGPIO_write_4] at hf
    cases hf
    exact Adds_debugWrite _ _ _ _ (fun t1 => Adds_write4BitMode _ d t1 h) h.2.2.2.2
  · rw [newGPIO_write_8 rd c4 dps en rs rw mode t0 hm] at hf
    cases hf
    exact Adds_write8BitMode _ d t h

theorem newGPIO_writeNibble_Adds (h : WriteEvents P dps en) (f : Nat → Trace → Trace)
    (hf : ( newGPIO rd c4 dps en rs rw mode t0).1.bus.writeNibble = some f) (d : Nat)
    (t : Trace) : Adds P t (f d t) := by
  by_cases hm : mode = c4
  · subst hm
    rw [newGPIO_writeNibble_4] at hf
    cases hf
    exact Adds_debugWrite _ _ _ _ (fun t1 => Adds_write4BitNibble _ d t1 h) h.2.2.2.2
  · rw [newGPIO_writeNibble_8 rd c4 dps en rs rw mode t0 hm] at hf
    cases hf

theorem newGPIO_read_Adds (h : ReadEvents P dps en) :
    ∃ f, ( newGPIO rd c4 dps en rs rw mode t0).1.bus.read = some f
      ∧ ∀ t, Adds P t (f t).2 := by
  by_cases hm : mode = c4
  · subst hm
    exact ⟨_, newGPIO_read_4 rd mode dps en rs rw t0, fun t => Adds_read4BitMode _ rd t h⟩
  · exact ⟨_, newGPIO_read_8 rd c4 dps en rs rw mode t0 hm, fun t => Adds_read8BitMode _ rd t h⟩

end BuiltFrames

/-! ## Observations across added events -/

section FrameObservations

theorem direction_append (p : Pin) (t evs : List Event)
    (h : ∀ e ∈ evs, ∀ m, e ≠ Event.configure p m) : direction p (t ++ evs) = direction p t := by
  induction evs generalizing t with
  | nil => simp
  | cons e es ih =>
      have he := h e (List.mem_cons_self e es)
      have hes : ∀ x ∈ es, ∀ m, x ≠ Event.configure p m :=
        fun x hx => h x (List.mem_cons_of_mem e hx)
      have h1 : direction p (t ++ [e]) = direction p t := by
        unfold direction
        rw [List.foldl_append]
        cases e with
        | configure q m =>
            have hq : q ≠ p := fun hqp => he m (by rw [hqp])
            simp [hq]
        | _ => rfl
      have h2 : t ++ e :: es = (t ++ [e]) ++ es := by simp
      rw [h2, ih _ hes, h1]

theorem direction_of_Adds (p : Pin) {t t1 : Trace}
    (h : Adds (fun e => ∀ m, e ≠ Event.configure p m) t t1) :
    direction p t1 = direction p t := by
  obtain ⟨evs, rfl, hp⟩ := h
  exact direction_append p t evs hp

theorem direction_Configure (p q : Pin) (m : PinMode) (t : Trace) :
    direction p (Pin.Configure q m t) = if q = p then some m else direction p t := by
  unfold direction Pin.Configure
  rw [List.foldl_append]
  rfl

theorem direction_reconfigureLoop_mem (m : PinMode) (ps : List Pin) (t : Trace) (p : Pin)
    (h : p ∈ ps) : direction p (reconfigureLoop m ps t) = some m := by
  induction ps generalizing t with
  | nil => simp at h
  | cons x xs ih =>
      simp only [reconfigureLoop]
      by_cases hx : p ∈ xs
      · exact ih _ hx
      · have hpx : p = x := by
          rcases List.mem_cons.mp h with h1 | h1
          · exact h1
          · exact absurd h1 hx
        have hfr : direction p (reconfigureLoop m xs (Pin.Configure x m t))
            = direction p (Pin.Configure x m t) :=
          direction_of_Adds p (Adds_reconfigureLoop m xs _ (fun q hq k hk => by
            cases hk
            exact hx hq))
        rw [hfr, direction_Configure, if_pos hpx.symm]

theorem delays_append (t1 t2 : List Event) : delays (t1 ++ t2) = delays t1 ++ delays t2 := by
  induction t1 with
  | nil => rfl
  | cons e es ih => cases e <;> simp [delays, ih]

theorem delays_quiet (evs : List Event) (h : ∀ e ∈ evs, ∀ d, e ≠ Event.sleep d) :
    delays evs = [] := by
  induction evs with
  | nil => rfl
  | cons e es ih =>
      have he := h e (List.mem_cons_self e es)
      have hes := ih (fun x hx => h x (List.mem_cons_of_mem e hx))
      cases e with
      | sleep d => exact absurd rfl (he d)
      | _ => simpa [delays] using hes

theorem delays_of_Adds {t t1 : Trace} (h : Adds (fun e => ∀ d, e ≠ Event.sleep d) t t1) :
    delays t1 = delays t := by
  obtain ⟨evs, rfl, hp⟩ := h
  rw [delays_append, delays_quiet evs hp]
  simp

theorem delays_Sleep (d : Nat) (t : Trace) : delays (Sleep d t) = delays t ++ [d] := by
  simp [Sleep, delays_append, delays]

theorem delays_High (p : Pin) (t : Trace) : delays (Pin.High p t) = delays t := by
  simp [Pin.High, delays_append, delays]

theorem delays_Low (p : Pin) (t : Trace) : delays (Pin.Low p t) = delays t := by
  simp [Pin.Low, delays_append, delays]

theorem delays_pulseEnable (g : GPIO) (t : Trace) :
    delays (g.pulseEnable t) = delays t ++ [Microsecond, Microsecond, 100 * Microsecond] := by
  simp [ GPIO.pulseEnable, delays_Sleep, delays_High, delays_Low]

theorem drives_quiet (p : Pin) (evs : List Event)
    (h : ∀ e ∈ evs, e ≠ Event.high p ∧ e ≠ Event.low p) : drives p evs = [] := by
  induction evs with
  | nil => rfl
  | cons e es ih =>
      have he := h e (List.mem_cons_self e es)
      have hes := ih (fun x hx => h x (List.mem_cons_of_mem e hx))
      cases e with
      | high q =>
          have hq : q ≠ p := fun hqp => he.1 (by rw [hqp])
          simpa [drives, hq] using hes
      | low q =>
          have hq : q ≠ p := fun hqp => he.2 (by rw [hqp])
          simpa [drives, hq] using hes
      | _ => simpa [drives] using hes

theorem drives_of_Adds (p : Pin) {t t1 : Trace}
    (h : Adds (fun e => e ≠ Event.high p ∧ e ≠ Event.low p) t t1) :
    drives p t1 = drives p t := by
  obtain ⟨evs, rfl, hp⟩ := h
  rw [drives_append, drives_quiet p evs hp]
  simp

theorem level_append (p : Pin) (t evs : List Event)
    (h : ∀ e ∈ evs, e ≠ Event.high p ∧ e ≠ Event.low p) : level p (t ++ evs) = level p t := by
  induction evs generalizing t with
  | nil => simp
  | cons e es ih =>
      have he := h e (List.mem_cons_self e es)
      have hes : ∀ x ∈ es, x ≠ Event.high p ∧ x ≠ Event.low p :=
        fun x hx => h x (List.mem_cons_of_mem e hx)
      have h1 : level p (t ++ [e]) = level p t := by
        rw [level_snoc]
        cases e with
        | high q =>
            have hq : q ≠ p := fun hqp => he.1 (by rw [hqp])
            simp [hq]
        | low q =>
            have hq : q ≠ p := fun hqp => he.2 (by rw [hqp])
            simp [hq]
        | _ => rfl
      have h2 : t ++ e :: es = (t ++ [e]) ++ es := by simp
      rw [h2, ih _ hes, h1]

theorem level_of_Adds (p : Pin) {t t1 : Trace}
    (h : Adds (fun e => e ≠ Event.high p ∧ e ≠ Event.low p) t t1) :
    level p t1 = level p t := by
  obtain ⟨evs, rfl, hp⟩ := h
  exact level_append p t evs hp

theorem obs_writeLoop {α : Type} (O : Trace → List α) (f : Nat → Trace → Trace)
    (F : Nat → List α) (hf : ∀ d t, O (f d t) = O t ++ F d) (data : List Nat) (n : Nat)
    (t : Trace) : O (writeLoop (some f) data n t).trace = O t ++ data.flatMap F := by
  induction data generalizing n t with
  | nil => simp [writeLoop, Outcome.trace]
  | cons d ds ih =>
      simp only [writeLoop, List.flatMap_cons]
      rw [ih, hf, List.append_assoc]

theorem flatMap_const {α : Type} (X : List α) (data : List Nat) :
    data.flatMap (fun _ => X) = (List.replicate data.length X).flatten := by
  induction data with
  | nil => rfl
  | cons d ds ih => simp [List.flatMap_cons, List.replicate_succ, ih]

theorem obs_successive {α : Type} (O : Trace → List α) (f : Trace → Nat × Trace)
    (X : List α) (hf : ∀ t, O (f t).2 = O t ++ X) (k : Nat) (t : Trace) :
    O (successive f k t).2 = O t ++ (List.replicate k X).flatten := by
  induction k generalizing t with
  | zero => simp [successive]
  | succ k ih =>
      simp only [successive, List.replicate_succ, List.flatten_cons]
      rw [ih, hf, List.append_assoc]

end FrameObservations

/-! ## Delays and enable drives of one unit -/

section UnitAccounts

variable (g : GPIO)

theorem drives_Sleep (p : Pin) (d : Nat) (t : Trace) : drives p (Sleep d t) = drives p t := by
  simp [Sleep, drives_append, drives]

theorem drives_pulseEnable (t : Trace) :
    drives g.en (g.pulseEnable t) = drives g.en t ++ [false, true, false] := by
  simp [ GPIO.pulseEnable, drives_Sleep, drives_High, drives_Low]

theorem delays_write4BitNibble (v : Nat) (t : Trace) :
    delays (g.write4BitNibble v t)
      = delays t ++ [Microsecond, Microsecond, 100 * Microsecond] := by
  simp only [ GPIO.write4BitNibble, GPIO.setPins]
  rw [delays_pulseEnable,
    delays_of_Adds (Adds_setPinsLoop v g.dataPins 1 t (fun p _ => by simp))]

theorem drives_write4BitNibble (v : Nat) (t : Trace) (hen : g.en ∉ g.dataPins) :
    drives g.en (g.write4BitNibble v t) = drives g.en t ++ [false, true, false] := by
  simp only [ GPIO.write4BitNibble, GPIO.setPins]
  rw [drives_pulseEnable,
    drives_of_Adds g.en (Adds_setPinsLoop v g.dataPins 1 t (fun p hp => by
      have hne : p ≠ g.en := fun h => hen (h ▸ hp)
      simp [hne]))]

theorem obs_debugWrite {α : Type} (O : Trace → List α) (w : Nat → Trace → Trace)
    (onlyLow : Bool) (v : Nat) (t : Trace) (X : List α)
    (hp : ∀ word nl t1, O (printNibble word nl t1) = O t1)
    (hw : ∀ t1, O (w v t1) = O t1 ++ X) :
    O (debugWrite w onlyLow v t) = O t ++ X := by
  simp only [debugWrite]
  rw [hw, hp]
  cases onlyLow <;> simp [hp]

theorem delays_printNibble (word : Nat) (nl : Bool) (t : Trace) :
    delays (printNibble word nl t) = delays t :=
  delays_of_Adds (Adds_printNibble word nl t (fun c => by simp))

theorem drives_printNibble (p : Pin) (word : Nat) (nl : Bool) (t : Trace) :
    drives p (printNibble word nl t) = drives p t :=
  drives_of_Adds p (Adds_printNibble word nl t (fun c => by simp))

theorem drives_read8BitMode (rd : PinReader) (t : Trace) :
    drives g.en (g.read8BitMode rd t).2 = drives g.en t ++ [true, false] := by
  simp only [ GPIO.read8BitMode]
  rw [drives_Low, drives_of_Adds g.en (Adds_pins rd g _ (fun p _ v => by simp)), drives_High]
  simp

theorem drives_read4BitMode (rd : PinReader) (t : Trace) :
    drives g.en (g.read4BitMode rd t).2 = drives g.en t ++ [true, false, true, false] := by
  simp only [ GPIO.read4BitMode]
  rw [drives_Low, drives_of_Adds g.en (Adds_pins rd g _ (fun p _ v => by simp)), drives_High,
    drives_Low, drives_of_Adds g.en (Adds_pins rd g _ (fun p _ v => by simp)), drives_High]
  simp

theorem replicate_double {α : Type} (X : List α) (n : Nat) :
    (List.replicate n (X ++ X)).flatten = (List.replicate (2 * n) X).flatten := by
  induction n with
  | zero => rfl
  | succ n ih =>
      have h2 : 2 * (n + 1) = (2 * n + 1) + 1 := by omega
      rw [h2, List.replicate_succ, List.replicate_succ, List.replicate_succ]
      simp [ih]

end UnitAccounts

/-! ## Delays and enable drives of whole calls -/

section CallAccounts

variable (rd : PinReader) (c4 mode : Nat) (dps : List Pin) (en rs rw : Pin) (t0 : Trace)
  (data : List Nat) (t : Trace)

theorem Write_delays_4 :
    delays (( newGPIO rd c4 dps en rs rw c4 t0).1.bus.Write data t).trace
      = delays t ++ (List.replicate (2 * data.length)
          [Microsecond, Microsecond, 100 * Microsecond]).flatten := by
  rw [Write_eq _ _ (newGPIO_write_4 rd c4 dps en rs rw t0), trace_ret]
  rw [obs_writeLoop delays _ (fun _ => [Microsecond, Microsecond, 100 * Microsecond]
    ++ [Microsecond, Microsecond, 100 * Microsecond])]
  · rw [flatMap_const, replicate_double, delays_Low]
  · intro d t1
    apply obs_debugWrite delays _ _ _ _ _ delays_printNibble
    intro t2
    simp only [ GPIO.write4BitMode]
    rw [delays_write4BitNibble, delays_write4BitNibble, List.append_assoc]

theorem Write_delays_8 (hm : mode ≠ c4) :
    delays (( newGPIO rd c4 dps en rs rw mode t0).1.bus.Write data t).trace
      = delays t ++ (List.replicate data.length
          [Microsecond, Microsecond, 100 * Microsecond]).flatten := by
  rw [Write_eq _ _ (newGPIO_write_8 rd c4 dps en rs rw mode t0 hm), trace_ret]
  rw [obs_writeLoop delays _ (fun _ => [Microsecond, Microsecond, 100 * Microsecond])]
  · rw [flatMap_const, delays_Low]
  · intro d t1
    exact delays_write4BitNibble _ d t1

theorem WriteNibble_delays_4 :
    delays (( newGPIO rd c4 dps en rs rw c4 t0).1.bus.WriteNibble data t).trace
      = delays t ++ (List.replicate (data.length + 1)
          [Microsecond, Microsecond, 100 * Microsecond]).flatten := by
  rw [WriteNibble_eq _ _ (newGPIO_writeNibble_4 rd c4 dps en rs rw t0), trace_ret]
  rw [delays_pulseEnable,
    obs_writeLoop delays _ (fun _ => [Microsecond, Microsecond, 100 * Microsecond])]
  · rw [flatMap_const, delays_Low, List.replicate_add, List.flatten_append]
    simp
  · intro d t1
    apply obs_debugWrite delays _ _ _ _ _ delays_printNibble
    intro t2
    exact delays_write4BitNibble _ d t2

theorem Write_drives_4 (hen : en ∉ dps) (hrw : rw ≠ en) :
    drives en (( newGPIO rd c4 dps en rs rw c4 t0).1.bus.Write data t).trace
      = drives en t ++ (List.replicate (2 * data.length) [false, true, false]).flatten := by
  rw [Write_eq _ _ (newGPIO_write_4 rd c4 dps en rs rw t0), trace_ret]
  rw [obs_writeLoop (drives en) _ (fun _ => [false, true, false] ++ [false, true, false])]
  · rw [flatMap_const, replicate_double, newGPIO_rw, drives_Low, if_neg hrw]
    simp
  · intro d t1
    apply obs_debugWrite (drives en) _ _ _ _ _ (drives_printNibble en)
    intro t2
    simp only [ GPIO.write4BitMode]
    have h := drives_write4BitNibble
      { dataPins := dps, en := en, rs := rs, rw := rw,
            write := none, writeNibble := none, read := none }
    rw [h _ _ hen, h _ _ hen, List.append_assoc]

theorem Write_drives_8 (hm : mode ≠ c4) (hen : en ∉ dps) (hrw : rw ≠ en) :
    drives en (( newGPIO rd c4 dps en rs rw mode t0).1.bus.Write data t).trace
      = drives en t ++ (List.replicate data.length [false, true, false]).flatten := by
  rw [Write_eq _ _ (newGPIO_write_8 rd c4 dps en rs rw mode t0 hm), trace_ret]
  rw [obs_writeLoop (drives en) _ (fun _ => [false, true, false])]
  · rw [flatMap_const, newGPIO_rw, drives_Low, if_neg hrw]
    simp
  · intro d t1
    exact drives_write4BitNibble
      { dataPins := dps, en := en, rs := rs, rw := rw,
            write := none, writeNibble := none, read := none } d t1 hen

theorem WriteNibble_drives_4 (hen : en ∉ dps) (hrw : rw ≠ en) :
    drives en (( newGPIO rd c4 dps en rs rw c4 t0).1.bus.WriteNibble data t).trace
      = drives en t ++ (List.replicate (data.length + 1) [false, true, false]).flatten := by
  rw [WriteNibble_eq _ _ (newGPIO_writeNibble_4 rd c4 dps en rs rw t0), trace_ret]
  have hp := drives_pulseEnable ( newGPIO rd c4 dps en rs rw c4 t0).1.bus
  rw [newGPIO_en] at hp
  rw [hp, obs_writeLoop (drives en) _ (fun _ => [false, true, false])]
  · rw [flatMap_const, newGPIO_rw, drives_Low, if_neg hrw, List.replicate_add,
      List.flatten_append]
    simp
  · intro d t1
    apply obs_debugWrite (drives en) _ _ _ _ _ (drives_printNibble en)
    intro t2
    exact drives_write4BitNibble
      { dataPins := dps, en := en, rs := rs, rw := rw,
            write := none, writeNibble := none, read := none } d t2 hen

theorem Read_delays (buffer : List Nat) :
    delays (( newGPIO rd c4 dps en rs rw mode t0).1.bus.Read buffer t).trace = delays t := by
  obtain ⟨f, hf, hadds⟩ := newGPIO_read_Adds (P := fun e => ∀ d, e ≠ Event.sleep d)
    rd c4 mode dps en rs rw t0 ⟨by simp, by simp, fun p _ v => by simp⟩
  exact delays_of_Adds (Adds_Read _ f hf buffer t (by simp) (fun p _ => by simp) hadds)

theorem Read_drives_4 (buffer : List Nat) (hrw : rw ≠ en) :
    drives en (( newGPIO rd c4 dps en rs rw c4 t0).1.bus.Read buffer t).trace
      = drives en t ++ (List.replicate (2 * buffer.length) [true, false]).flatten := by
  by_cases hne : buffer = []
  · subst hne
    simp [ GPIO.Read, Outcome.trace]
  · rw [Read_eq _ _ (newGPIO_read_4 rd c4 dps en rs rw t0) buffer t hne, trace_ret]
    simp only [ GPIO.reconfigureGPIOMode, newGPIO_dataPins, newGPIO_rw]
    rw [drives_of_Adds en (Adds_reconfigureLoop _ _ _ (fun p _ => by simp)),
      obs_successive (drives en) _ ([true, false] ++ [true, false])
        (fun t1 => drives_read4BitMode
          { dataPins := dps, en := en, rs := rs, rw := rw,
            write := none, writeNibble := none, read := none } rd t1),
      drives_of_Adds en (Adds_reconfigureLoop _ _ _ (fun p _ => by simp)),
      drives_High, if_neg hrw, replicate_double]
    simp

theorem Read_drives_8 (buffer : List Nat) (hm : mode ≠ c4) (hrw : rw ≠ en) :
    drives en (( newGPIO rd c4 dps en rs rw mode t0).1.bus.Read buffer t).trace
      = drives en t ++ (List.replicate buffer.length [true, false]).flatten := by
  by_cases hne : buffer = []
  · subst hne
    simp [ GPIO.Read, Outcome.trace]
  · rw [Read_eq _ _ (newGPIO_read_8 rd c4 dps en rs rw mode t0 hm) buffer t hne, trace_ret]
    simp only [ GPIO.reconfigureGPIOMode, newGPIO_dataPins, newGPIO_rw]
    rw [drives_of_Adds en (Adds_reconfigureLoop _ _ _ (fun p _ => by simp)),
      obs_successive (drives en) _ [true, false]
        (fun t1 => drives_read8BitMode
          { dataPins := dps, en := en, rs := rs, rw := rw,
            write := none, writeNibble := none, read := none } rd t1),
      drives_of_Adds en (Adds_reconfigureLoop _ _ _ (fun p _ => by simp)),
      drives_High, if_neg hrw]
    simp

end CallAccounts

/-! ## Drives of the data lines by a write -/

section DataDrives

theorem drives_length_le (p : Pin) {t t1 : Trace} (h : Adds (fun _ => True) t t1) :
    (drives p t).length ≤ (drives p t1).length := by
  obtain ⟨evs, rfl, -⟩ := h
  rw [drives_append, List.length_append]
  omega

theorem drives_length_setPinsLoop (p : Pin) (data : Nat) (ps : List Pin) (mask : Nat)
    (t : Trace) (hp : p ∈ ps) :
    (drives p t).length < (drives p (setPinsLoop data ps mask t)).length := by
  induction ps generalizing mask t with
  | nil => simp at hp
  | cons x xs ih =>
      simp only [setPinsLoop]
      by_cases hx : p ∈ xs
      · refine Nat.lt_of_le_of_lt ?_ (ih _ _ hx)
        apply drives_length_le
        split
        · exact Adds_High _ _ trivial
        · exact Adds_Low _ _ trivial
      · have hpx : x = p := by
          rcases List.mem_cons.mp hp with h1 | h1
          · exact h1.symm
          · exact absurd h1 hx
        refine Nat.lt_of_lt_of_le ?_
          (drives_length_le p (Adds_setPinsLoop data xs _ _ (fun _ _ => ⟨trivial, trivial⟩)))
        split
        · rw [drives_High, if_pos hpx]
          simp
        · rw [drives_Low, if_pos hpx]
          simp

theorem drives_length_write4BitNibble (g : GPIO) (p : Pin) (v : Nat) (t : Trace)
    (hp : p ∈ g.dataPins) :
    (drives p t).length < (drives p (g.write4BitNibble v t)).length := by
  simp only [ GPIO.write4BitNibble, GPIO.setPins]
  exact Nat.lt_of_lt_of_le (drives_length_setPinsLoop p v g.dataPins 1 t hp)
    (drives_length_le p (Adds_pulseEnable g _ trivial trivial (fun _ => trivial)))

theorem allEvents (dps : List Pin) (en : Pin) : WriteEvents (fun _ => True) dps en :=
  ⟨fun _ _ => ⟨trivial, trivial⟩, trivial, trivial, fun _ => trivial, fun _ => trivial⟩

theorem drives_length_Write (rd : PinReader) (c4 mode : Nat) (dps : List Pin) (en rs rw : Pin)
    (t0 : Trace) (d : Nat) (ds : List Nat) (t : Trace) (p : Pin) (hp : p ∈ dps) :
    (drives p t).length
      < (drives p (( newGPIO rd c4 dps en rs rw mode t0).1.bus.Write (d :: ds) t).trace).length := by
  have hrest : ∀ (f : Nat → Trace → Trace),
      ( newGPIO rd c4 dps en rs rw mode t0).1.bus.write = some f →
      ∀ t1, (drives p (f d t1)).length
        ≤ (drives p (writeLoop (some f) ds 1 (f d t1)).trace).length := by
    intro f hf t1
    exact drives_length_le p (Adds_writeLoop (some f) ds 1 _ (fun f1 h1 => by
      cases h1
      exact newGPIO_write_Adds rd c4 mode dps en rs rw t0 (allEvents dps en) f hf))
  have hlow : (drives p t).length ≤ (drives p (Pin.Low rw t)).length :=
    drives_length_le p (Adds_Low _ _ trivial)
  by_cases hm : mode = c4
  · subst hm
    rw [Write_eq _ _ (newGPIO_write_4 rd mode dps en rs rw t0), trace_ret, newGPIO_rw]
    simp only [writeLoop]
    refine Nat.lt_of_lt_of_le ?_ (hrest _ (newGPIO_write_4 rd mode dps en rs rw t0) _)
    refine Nat.lt_of_le_of_lt hlow ?_
    simp only [debugWrite, GPIO.write4BitMode]
    refine Nat.lt_of_le_of_lt ?_ (drives_length_write4BitNibble _ p _ _ hp)
    refine Nat.le_trans ?_ (Nat.le_of_lt (drives_length_write4BitNibble _ p _ _ hp))
    rw [drives_printNibble]
    simp [drives_printNibble]
  · rw [Write_eq _ _ (newGPIO_write_8 rd c4 dps en rs rw mode t0 hm), trace_ret, newGPIO_rw]
    simp only [writeLoop]
    refine Nat.lt_of_lt_of_le ?_ (hrest _ (newGPIO_write_8 rd c4 dps en rs rw mode t0 hm) _)
    refine Nat.lt_of_le_of_lt hlow ?_
    exact drives_length_write4BitNibble _ p _ _ hp

end DataDrives

/-! ## The events each call adds -/

section AddedEvents

theorem pulseEnable_events (g : GPIO) (t : Trace) : g.pulseEnable t = t ++ pulseEvents g.en := by
  simp [ GPIO.pulseEnable, pulseEvents, Pin.Low, Pin.High, Sleep]

theorem setPinsLoop_events (data : Nat) (hd : data < 256) (ps : List Pin) (j : Nat)
    (t : Trace) :
    setPinsLoop data ps (2 ^ j % 256) t = t ++ lineEvents ps (data / 2 ^ j) := by
  induction ps generalizing j t with
  | nil => simp [setPinsLoop, lineEvents]
  | cons x xs ih =>
      have hm := and_mask_ne_zero data j hd
      have hdiv : data / 2 ^ (j + 1) = data / 2 ^ j / 2 := by
        rw [pow_succ, Nat.div_div_eq_div_mul]
      simp only [setPinsLoop, lineEvents]
      rw [mask_step, ih (j + 1), hdiv]
      by_cases hc : data &&& (2 ^ j % 256) ≠ 0
      · rw [if_pos hc, if_pos (hm.mp hc)]
        simp [Pin.High]
      · rw [if_neg hc, if_neg (fun h1 => hc (hm.mpr h1))]
        simp [Pin.Low]

theorem setPins_events (g : GPIO) (v : Nat) (hv : v < 256) (t : Trace) :
    g.setPins v t = t ++ lineEvents g.dataPins v := by
  have h := setPinsLoop_events v hv g.dataPins 0 t
  simpa [ GPIO.setPins] using h

theorem lineEvents_mod (ps : List Pin) (v : Nat) :
    lineEvents ps (v % 2 ^ ps.length) = lineEvents ps v := by
  induction ps generalizing v with
  | nil => simp [lineEvents]
  | cons x xs ih =>
      have h1 : v % 2 ^ (xs.length + 1) % 2 = v % 2 := by
        rw [pow_succ]
        exact Nat.mod_mul_left_mod v (2 ^ xs.length) 2
      have h2 : v % 2 ^ (xs.length + 1) / 2 = v / 2 % 2 ^ xs.length := by
        rw [pow_succ, Nat.mul_comm]
        exact Nat.mod_mul_right_div_self v 2 (2 ^ xs.length)
      simp only [lineEvents, List.length_cons, h1, h2, ih]

theorem printBit_events (word k : Nat) (t : Trace) :
    printBit word (2 ^ k) t = t ++ [Event.print (Console.int (word / 2 ^ k % 2))] := by
  have h : (if 2 ^ k &&& word = 2 ^ k then 1 else 0) = word / 2 ^ k % 2 := by
    rw [Nat.and_comm, Nat.and_two_pow, Nat.toNat_testBit]
    have hlt : word / 2 ^ k % 2 < 2 := Nat.mod_lt _ (by decide)
    have hpos : 0 < 2 ^ k := Nat.pow_pos (by decide)
    by_cases h1 : word / 2 ^ k % 2 = 1
    · rw [h1]
      simp
    · have h0 : word / 2 ^ k % 2 = 0 := by omega
      rw [h0]
      simp
      omega
  simp only [printBit, consolePrint, h]

theorem printNibble_events (word : Nat) (nl : Bool) (t : Trace) :
    printNibble word nl t = t ++ nibbleText word nl := by
  have h8 := printBit_events word 3
  have h4 := printBit_events word 2
  have h2 := printBit_events word 1
  have h1 := printBit_events word 0
  simp only [pow_zero, pow_one, Nat.div_one] at h8 h4 h2 h1
  norm_num at h8 h4
  simp only [printNibble, h8, h4, h2, h1, consolePrint, nibbleText]
  cases nl <;> simp

theorem write4BitNibble_events (g : GPIO) (v : Nat) (hv : v < 256) (t : Trace) :
    g.write4BitNibble v t = t ++ (lineEvents g.dataPins v ++ pulseEvents g.en) := by
  simp only [ GPIO.write4BitNibble]
  rw [pulseEnable_events, setPins_events g v hv, List.append_assoc]

theorem write4BitMode_events (g : GPIO) (v : Nat) (hv : v < 256) (t : Trace) :
    g.write4BitMode v t
      = t ++ (lineEvents g.dataPins (v >>> 4) ++ pulseEvents g.en
          ++ (lineEvents g.dataPins v ++ pulseEvents g.en)) := by
  have hhi : v >>> 4 < 256 := by
    have := shiftRight_four_lt v hv
    omega
  simp only [ GPIO.write4BitMode]
  rw [write4BitNibble_events g v hv, write4BitNibble_events g _ hhi]
  simp

theorem debugWrite_events (w : Nat → Trace → Trace) (onlyLow : Bool) (v : Nat) (t : Trace)
    (E : List Event) (hw : ∀ t1, w v t1 = t1 ++ E) :
    debugWrite w onlyLow v t
      = t ++ ((if onlyLow then [] else nibbleText (v >>> 4) false) ++ nibbleText v true ++ E) := by
  simp only [debugWrite]
  rw [hw, printNibble_events]
  cases onlyLow <;> simp [printNibble_events]

theorem writeLoop_events (f : Nat → Trace → Trace) (E : Nat → List Event) (data : List Nat)
    (hdata : ∀ d ∈ data, d < 256) (hf : ∀ d, d < 256 → ∀ t, f d t = t ++ E d)
    (n : Nat) (t : Trace) :
    (writeLoop (some f) data n t).trace = t ++ data.flatMap E := by
  induction data generalizing n t with
  | nil => simp [writeLoop, Outcome.trace]
  | cons d ds ih =>
      have hd : d < 256 := hdata d (List.mem_cons_self d ds)
      have hds : ∀ x ∈ ds, x < 256 := fun x hx => hdata x (List.mem_cons_of_mem d hx)
      simp only [writeLoop, List.flatMap_cons]
      rw [ih hds, hf d hd, List.append_assoc]

theorem reconfigureLoop_events (m : PinMode) (ps : List Pin) (t : Trace) :
    reconfigureLoop m ps t = t ++ configEvents m ps := by
  induction ps generalizing t with
  | nil => simp [reconfigureLoop, configEvents]
  | cons x xs ih =>
      simp only [reconfigureLoop, ih, Pin.Configure, configEvents, List.map_cons]
      simp

theorem sampledTrace_events (rd : PinReader) (ps : List Pin) (t : Trace) :
    sampledTrace rd ps t = t ++ sampleEvents rd ps t := by
  induction ps generalizing t with
  | nil => simp [sampledTrace, sampleEvents]
  | cons x xs ih =>
      simp only [sampledTrace, sampleEvents, ih]
      simp

theorem pins_events (rd : PinReader) (g : GPIO) (t : Trace) (hlen : g.dataPins.length < 256) :
    (g.pins rd t).2 = t ++ sampleEvents rd g.dataPins t := by
  simp only [ GPIO.pins, pinsLoop_snd, Nat.mod_eq_of_lt hlen, List.take_length]
  exact sampledTrace_events rd g.dataPins t

theorem read8BitMode_events (rd : PinReader) (g : GPIO) (t : Trace)
    (hlen : g.dataPins.length < 256) :
    (g.read8BitMode rd t).2 = t ++ readUnits rd g.dataPins g.en 1 t := by
  simp only [ GPIO.read8BitMode, readUnits]
  rw [pins_events rd g _ hlen]
  simp [Pin.High, Pin.Low]

theorem read4BitMode_events (rd : PinReader) (g : GPIO) (t : Trace)
    (hlen : g.dataPins.length < 256) :
    (g.read4BitMode rd t).2 = t ++ readUnits rd g.dataPins g.en 2 t := by
  simp only [ GPIO.read4BitMode, readUnits]
  rw [pins_events rd g _ hlen, pins_events rd g _ hlen]
  simp [Pin.High, Pin.Low]

theorem readUnits_add (rd : PinReader) (ps : List Pin) (en : Pin) (a b : Nat) (h : Trace) :
    readUnits rd ps en (a + b) h
      = readUnits rd ps en a h ++ readUnits rd ps en b (h ++ readUnits rd ps en a h) := by
  induction a generalizing h with
  | zero => simp [readUnits]
  | succ a ih =>
      have hab : a + 1 + b = (a + b) + 1 := by omega
      rw [hab]
      simp only [readUnits]
      rw [ih]
      simp

theorem successive_events (rd : PinReader) (ps : List Pin) (en : Pin) (u : Nat)
    (f : Trace → Nat × Trace) (hf : ∀ t, (f t).2 = t ++ readUnits rd ps en u t) (k : Nat)
    (t : Trace) : (successive f k t).2 = t ++ readUnits rd ps en (k * u) t := by
  induction k generalizing t with
  | zero => simp [successive, readUnits]
  | succ k ih =>
      have hk : (k + 1) * u = u + k * u := by ring
      simp only [successive]
      rw [ih, hf, hk, readUnits_add, List.append_assoc]

end AddedEvents

/-! ## Enable pulses among added events -/

section Windows

variable (dps : List Pin) (en : Pin)

theorem lineEvents_mem (ps : List Pin) (v : Nat) (e : Event) (he : e ∈ lineEvents ps v) :
    ∃ p ∈ ps, e = Event.high p ∨ e = Event.low p := by
  induction ps generalizing v with
  | nil => simp [lineEvents] at he
  | cons x xs ih =>
      simp only [lineEvents, List.mem_cons] at he
      rcases he with h | h
      · refine ⟨x, List.mem_cons_self x xs, ?_⟩
        rw [h]
        split
        · exact Or.inl rfl
        · exact Or.inr rfl
      · obtain ⟨p, hp, hpe⟩ := ih _ h
        exact ⟨p, List.mem_cons_of_mem x hp, hpe⟩

theorem lineValue_append_quiet (h evs : List Event)
    (hq : ∀ e ∈ evs, ∀ p ∈ dps, e ≠ Event.high p ∧ e ≠ Event.low p) :
    lineValue dps (h ++ evs) = lineValue dps h :=
  lineValue_congr dps (fun p hp => level_append p h evs (fun e he => hq e he p hp))

theorem lineValue_lineEvents (h : Trace) (v : Nat) (hv : v < 256) (hn : dps.Nodup) :
    lineValue dps (h ++ lineEvents dps v) = v % 2 ^ dps.length := by
  have h1 := lineValue_setPinsLoop v hv dps 0 h hn
  rw [setPinsLoop_events v hv dps 0 h] at h1
  simpa using h1

theorem windows_skip (h A B : List Event) (hA : Event.high en ∉ A) :
    windowsFrom dps en h none (A ++ B) = windowsFrom dps en (h ++ A) none B := by
  induction A generalizing h with
  | nil => simp
  | cons a as ih =>
      have ha : a ≠ Event.high en := fun e => hA (e ▸ List.mem_cons_self a as)
      have has : Event.high en ∉ as := fun hm => hA (List.mem_cons_of_mem a hm)
      simp only [List.cons_append, windowsFrom, if_neg ha, List.append_eq]
      rw [ih _ has]
      simp

theorem windows_pulse (h B : List Event) (hen : en ∉ dps) :
    windowsFrom dps en h none (pulseEvents en ++ B)
      = [lineValue dps h, lineValue dps h, lineValue dps h]
          :: windowsFrom dps en (h ++ pulseEvents en) none B := by
  have hq : ∀ (evs : List Event), (∀ e ∈ evs, e = Event.low en ∨ e = Event.high en
      ∨ ∃ d, e = Event.sleep d) → lineValue dps (h ++ evs) = lineValue dps h := by
    intro evs hevs
    apply lineValue_append_quiet
    intro e he p hp
    have hne : en ≠ p := fun hh => hen (hh ▸ hp)
    rcases hevs e he with h1 | h1 | ⟨d, h1⟩ <;> subst h1 <;> simp [hne]
  have h3 := hq [Event.low en, Event.sleep (1 * Microsecond), Event.high en] (by simp)
  have h4 := hq [Event.low en, Event.sleep (1 * Microsecond), Event.high en,
    Event.sleep (1 * Microsecond)] (by simp)
  have h5 := hq [Event.low en, Event.sleep (1 * Microsecond), Event.high en,
    Event.sleep (1 * Microsecond), Event.low en] (by simp)
  simp only [pulseEvents, List.cons_append, List.nil_append, windowsFrom, List.append_assoc,
    reduceCtorEq, if_false, if_true, List.append_eq] at h3 h4 h5 ⊢
  rw [h3, h4, h5]

theorem windows_unit (h B : List Event) (v : Nat) (hv : v < 256) (hn : dps.Nodup)
    (hen : en ∉ dps) :
    windowsFrom dps en h none (lineEvents dps v ++ pulseEvents en ++ B)
      = [v % 2 ^ dps.length, v % 2 ^ dps.length, v % 2 ^ dps.length]
          :: windowsFrom dps en (h ++ (lineEvents dps v ++ pulseEvents en)) none B := by
  have hA : Event.high en ∉ lineEvents dps v := by
    intro hm
    obtain ⟨p, hp, hpe⟩ := lineEvents_mem dps v _ hm
    rcases hpe with h1 | h1
    · cases h1
      exact hen hp
    · cases h1
  rw [List.append_assoc, windows_skip dps en h _ _ hA, windows_pulse dps en _ _ hen,
    lineValue_lineEvents dps h v hv hn, List.append_assoc]

theorem windows_flatMap (U : Nat → List Event) (W : Nat → List (List Nat))
    (hU : ∀ d, d < 256 → ∀ h B, windowsFrom dps en h none (U d ++ B)
      = W d ++ windowsFrom dps en (h ++ U d) none B)
    (data : List Nat) (hdata : ∀ d ∈ data, d < 256) (h B : List Event) :
    windowsFrom dps en h none (data.flatMap U ++ B)
      = data.flatMap W ++ windowsFrom dps en (h ++ data.flatMap U) none B := by
  induction data generalizing h with
  | nil => simp
  | cons d ds ih =>
      have hd : d < 256 := hdata d (List.mem_cons_self d ds)
      have hds : ∀ x ∈ ds, x < 256 := fun x hx => hdata x (List.mem_cons_of_mem d hx)
      simp only [List.flatMap_cons, List.append_assoc]
      rw [hU d hd, ih hds]
      simp

theorem nibbleText_quiet (word : Nat) (nl : Bool) : Event.high en ∉ nibbleText word nl := by
  simp [nibbleText]

end Windows

/-! ## The events whole calls add -/

section CallEvents

variable (rd : PinReader) (c4 mode : Nat) (dps : List Pin) (en rs rw : Pin) (t0 : Trace)
  (data : List Nat) (t : Trace)

theorem Write_events_4 (hdata : ∀ d ∈ data, d < 256) :
    (( newGPIO rd c4 dps en rs rw c4 t0).1.bus.Write data t).trace
      = t ++ ([Event.low rw] ++ data.flatMap (fun d =>
          nibbleText (d >>> 4) false ++ nibbleText d true
            ++ (lineEvents dps (d >>> 4) ++ pulseEvents en
              ++ (lineEvents dps d ++ pulseEvents en)))) := by
  rw [Write_eq _ _ (newGPIO_write_4 rd c4 dps en rs rw t0), trace_ret, newGPIO_rw]
  rw [writeLoop_events _ (fun d => nibbleText (d >>> 4) false ++ nibbleText d true
    ++ (lineEvents dps (d >>> 4) ++ pulseEvents en ++ (lineEvents dps d ++ pulseEvents en)))
    data hdata]
  · simp [Pin.Low]
  · intro d hd t1
    have h := debugWrite_events ( GPIO.write4BitMode
        { dataPins := dps, en := en, rs := rs, rw := rw,
            write := none, writeNibble := none, read := none }) false d t1 _
      (fun t2 => write4BitMode_events _ d hd t2)
    simpa using h

theorem Write_events_8 (hm : mode ≠ c4) (hdata : ∀ d ∈ data, d < 256) :
    (( newGPIO rd c4 dps en rs rw mode t0).1.bus.Write data t).trace
      = t ++ ([Event.low rw] ++ data.flatMap (fun d => lineEvents dps d ++ pulseEvents en)) := by
  rw [Write_eq _ _ (newGPIO_write_8 rd c4 dps en rs rw mode t0 hm), trace_ret, newGPIO_rw]
  rw [writeLoop_events _ (fun d => lineEvents dps d ++ pulseEvents en) data hdata]
  · simp [Pin.Low]
  · intro d hd t1
    exact write4BitNibble_events
        { dataPins := dps, en := en, rs := rs, rw := rw,
            write := none, writeNibble := none, read := none } d hd t1

theorem WriteNibble_events_4 (hdata : ∀ d ∈ data, d < 256) :
    (( newGPIO rd c4 dps en rs rw c4 t0).1.bus.WriteNibble data t).trace
      = t ++ ([Event.low rw]
          ++ data.flatMap (fun d => nibbleText d true ++ (lineEvents dps d ++ pulseEvents en))
          ++ pulseEvents en) := by
  rw [WriteNibble_eq _ _ (newGPIO_writeNibble_4 rd c4 dps en rs rw t0), trace_ret, newGPIO_rw,
    pulseEnable_events, newGPIO_en]
  rw [writeLoop_events _ (fun d => nibbleText d true ++ (lineEvents dps d ++ pulseEvents en))
    data hdata]
  · simp [Pin.Low]
  · intro d hd t1
    have h := debugWrite_events ( GPIO.write4BitNibble
        { dataPins := dps, en := en, rs := rs, rw := rw,
            write := none, writeNibble := none, read := none }) true d t1 _
      (fun t2 => write4BitNibble_events _ d hd t2)
    simpa using h

theorem Read_events_4 (buffer : List Nat) (hne : buffer ≠ []) (hlen : dps.length < 256) :
    (( newGPIO rd c4 dps en rs rw c4 t0).1.bus.Read buffer t).trace
      = t ++ ([Event.high rw] ++ configEvents PinMode.PinInput dps
          ++ readUnits rd dps en (2 * buffer.length)
              (t ++ ([Event.high rw] ++ configEvents PinMode.PinInput dps))
          ++ configEvents PinMode.PinInput dps) := by
  rw [Read_eq _ _ (newGPIO_read_4 rd c4 dps en rs rw t0) buffer t hne, trace_ret]
  simp only [ GPIO.reconfigureGPIOMode, newGPIO_dataPins, newGPIO_rw]
  rw [reconfigureLoop_events, successive_events rd dps en 2 _
      (fun t1 => read4BitMode_events rd
        { dataPins := dps, en := en, rs := rs, rw := rw,
            write := none, writeNibble := none, read := none } t1 hlen),
    reconfigureLoop_events, Nat.mul_comm]
  simp [Pin.High]

theorem Read_events_8 (buffer : List Nat) (hm : mode ≠ c4) (hne : buffer ≠ [])
    (hlen : dps.length < 256) :
    (( newGPIO rd c4 dps en rs rw mode t0).1.bus.Read buffer t).trace
      = t ++ ([Event.high rw] ++ configEvents PinMode.PinInput dps
          ++ readUnits rd dps en buffer.length
              (t ++ ([Event.high rw] ++ configEvents PinMode.PinInput dps))
          ++ configEvents PinMode.PinInput dps) := by
  rw [Read_eq _ _ (newGPIO_read_8 rd c4 dps en rs rw mode t0 hm) buffer t hne, trace_ret]
  simp only [ GPIO.reconfigureGPIOMode, newGPIO_dataPins, newGPIO_rw]
  rw [reconfigureLoop_events, successive_events rd dps en 1 _
      (fun t1 => read8BitMode_events rd
        { dataPins := dps, en := en, rs := rs, rw := rw,
            write := none, writeNibble := none, read := none } t1 hlen),
    reconfigureLoop_events, Nat.mul_one]
  simp [Pin.High]

end CallEvents

/-! ## Enable pulses of whole writes -/

section CallWindows

variable (rd : PinReader) (c4 mode : Nat) (dps : List Pin) (en rs rw : Pin) (t0 : Trace)
  (data : List Nat) (t : Trace)

theorem windows_low (h B : List Event) :
    windowsFrom dps en h none ([Event.low rw] ++ B)
      = windowsFrom dps en (h ++ [Event.low rw]) none B :=
  windows_skip dps en h [Event.low rw] B (by simp)

theorem windows_Write_4 (hlen : dps.length = 4) (hn : dps.Nodup) (hen : en ∉ dps)
    (hdata : ∀ d ∈ data, d < 256) :
    pulseWindows dps en t (( newGPIO rd c4 dps en rs rw c4 t0).1.bus.Write data t).trace
      = data.flatMap (fun d =>
          [[d >>> 4, d >>> 4, d >>> 4], [d &&& 0x0F, d &&& 0x0F, d &&& 0x0F]]) := by
  rw [pulseWindows, Write_events_4 rd c4 dps en rs rw t0 data t hdata, List.drop_left,
    windows_low]
  have h := windows_flatMap dps en
    (fun d => nibbleText (d >>> 4) false ++ nibbleText d true
      ++ (lineEvents dps (d >>> 4) ++ pulseEvents en ++ (lineEvents dps d ++ pulseEvents en)))
    (fun d => [[d >>> 4, d >>> 4, d >>> 4], [d &&& 0x0F, d &&& 0x0F, d &&& 0x0F]])
    ?_ data hdata (t ++ [Event.low rw]) []
  · simpa [windowsFrom] using h
  · intro d hd h1 B
    have hhi : d >>> 4 < 256 := by
      have := shiftRight_four_lt d hd
      omega
    have hhimod : d >>> 4 % 2 ^ dps.length = d >>> 4 := by
      rw [hlen]
      exact Nat.mod_eq_of_lt (shiftRight_four_lt d hd)
    have hlomod : d % 2 ^ dps.length = d &&& 0x0F := by
      rw [hlen]
      exact low_nibble d
    have hshape : nibbleText (d >>> 4) false ++ nibbleText d true
        ++ (lineEvents dps (d >>> 4) ++ pulseEvents en ++ (lineEvents dps d ++ pulseEvents en))
        ++ B
        = (nibbleText (d >>> 4) false ++ nibbleText d true)
          ++ (lineEvents dps (d >>> 4) ++ pulseEvents en
            ++ (lineEvents dps d ++ pulseEvents en ++ B)) := by
      simp only [List.append_assoc]
    have hquiet : Event.high en ∉ nibbleText (d >>> 4) false ++ nibbleText d true := by
      simp [nibbleText]
    rw [hshape, windows_skip dps en h1 _ _ hquiet, windows_unit dps en _ _ _ hhi hn hen,
      windows_unit dps en _ _ _ hd hn hen, hhimod, hlomod]
    simp only [List.append_assoc, List.cons_append, List.nil_append]

theorem windows_Write_8 (hm : mode ≠ c4) (hlen : dps.length = 8) (hn : dps.Nodup)
    (hen : en ∉ dps) (hdata : ∀ d ∈ data, d < 256) :
    pulseWindows dps en t (( newGPIO rd c4 dps en rs rw mode t0).1.bus.Write data t).trace
      = data.map (fun d => [d, d, d]) := by
  rw [pulseWindows, Write_events_8 rd c4 mode dps en rs rw t0 data t hm hdata, List.drop_left,
    windows_low]
  have h := windows_flatMap dps en (fun d => lineEvents dps d ++ pulseEvents en)
    (fun d => [[d, d, d]]) ?_ data hdata (t ++ [Event.low rw]) []
  · simpa [windowsFrom, flatMap_single] using h
  · intro d hd h1 B
    have hmod : d % 2 ^ dps.length = d := by
      rw [hlen]
      exact Nat.mod_eq_of_lt (by omega)
    rw [windows_unit dps en _ _ _ hd hn hen, hmod]
    simp only [List.cons_append, List.nil_append]

theorem windows_WriteNibble_4 (hlen : dps.length = 4) (hn : dps.Nodup) (hen : en ∉ dps)
    (hrw : rw ∉ dps) (hdata : ∀ d ∈ data, d < 256) :
    pulseWindows dps en t (( newGPIO rd c4 dps en rs rw c4 t0).1.bus.WriteNibble data t).trace
      = data.map (fun d => [d &&& 0x0F, d &&& 0x0F, d &&& 0x0F])
          ++ [match data.getLast? with
              | some d => [d &&& 0x0F, d &&& 0x0F, d &&& 0x0F]
              | none => [lineValue dps t, lineValue dps t, lineValue dps t]] := by
  have hline : lineValue dps (t ++ [Event.low rw]
      ++ data.flatMap (fun d => nibbleText d true ++ (lineEvents dps d ++ pulseEvents en)))
      = (match data.getLast? with
          | some d => d &&& 0x0F
          | none => lineValue dps t) := by
    have h1 := lineValue_writeLoop
      (debugWrite ( GPIO.write4BitNibble
        { dataPins := dps, en := en, rs := rs, rw := rw,
            write := none, writeNibble := none, read := none }) true)
      dps (fun d => d &&& 0x0F) data hdata
      (fun d hd t1 => by
        apply lineValue_debugWrite
        intro t2
        have h := lineValue_write4BitNibble
          { dataPins := dps, en := en, rs := rs, rw := rw,
              write := none, writeNibble := none, read := none } d t2 hd hn hen
        simp only [hlen] at h
        rw [h, low_nibble])
      0 (Pin.Low rw t)
    rw [writeLoop_events _
      (fun d => nibbleText d true ++ (lineEvents dps d ++ pulseEvents en)) data hdata
      (fun d hd t1 => by
        have h := debugWrite_events ( GPIO.write4BitNibble
          { dataPins := dps, en := en, rs := rs, rw := rw,
              write := none, writeNibble := none, read := none }) true d t1 _
          (fun t2 => write4BitNibble_events _ d hd t2)
        simpa using h)] at h1
    rw [show Pin.Low rw t = t ++ [Event.low rw] from rfl] at h1
    rw [h1]
    cases data.getLast? with
    | none =>
        have hq := lineValue_Low rw dps t hrw
        simpa [Pin.Low] using hq
    | some y => rfl
  rw [pulseWindows, WriteNibble_events_4 rd c4 dps en rs rw t0 data t hdata, List.drop_left,
    List.append_assoc, windows_low]
  have h := windows_flatMap dps en
    (fun d => nibbleText d true ++ (lineEvents dps d ++ pulseEvents en))
    (fun d => [[d &&& 0x0F, d &&& 0x0F, d &&& 0x0F]]) ?_ data hdata (t ++ [Event.low rw])
    (pulseEvents en)
  · have hp := windows_pulse dps en (t ++ [Event.low rw]
      ++ data.flatMap (fun d => nibbleText d true ++ (lineEvents dps d ++ pulseEvents en)))
      [] hen
    simp only [List.append_nil] at hp
    rw [h, hp, hline, flatMap_single]
    cases data.getLast? <;> simp [windowsFrom]
  · intro d hd h1 B
    have hlomod : d % 2 ^ dps.length = d &&& 0x0F := by
      rw [hlen]
      exact low_nibble d
    have hshape : nibbleText d true ++ (lineEvents dps d ++ pulseEvents en) ++ B
        = nibbleText d true ++ (lineEvents dps d ++ pulseEvents en ++ B) := by
      simp only [List.append_assoc]
    rw [hshape, windows_skip dps en h1 _ _ (nibbleText_quiet en d true),
      windows_unit dps en _ _ _ hd hn hen, hlomod]
    simp only [List.append_assoc, List.cons_append, List.nil_append]

end CallWindows

/-! ## The enable-pulse sequencer -/

/-- C9: one run of `pulseEnable` appends exactly the events enable low, delay of
one microsecond, enable high, delay of one microsecond, enable low, delay of
100 microseconds. The delay it requests adds up to 102 microseconds, the enable
line ends low, every line event of the run is on the enable line, and the level
of every other line is what it was. -/
theorem pulseEnable_sequence (g : GPIO) (t : Trace) :
    g.pulseEnable t =
        t ++ [Event.low g.en, Event.sleep (1 * Microsecond), Event.high g.en,
              Event.sleep (1 * Microsecond), Event.low g.en,
              Event.sleep (100 * Microsecond)]
      ∧ totalSleep (g.pulseEnable t) = totalSleep t + 102 * Microsecond
      ∧ totalSleep (g.pulseEnable t) ≥ totalSleep t + 102 * Microsecond
      ∧ level g.en (g.pulseEnable t) = false
      ∧ (∀ e ∈ (g.pulseEnable t).drop t.length, ∀ p, e.line = some p → p = g.en)
      ∧ (∀ p, p ≠ g.en → level p (g.pulseEnable t) = level p t) := by
  have hseq : g.pulseEnable t =
      t ++ [Event.low g.en, Event.sleep (1 * Microsecond), Event.high g.en,
            Event.sleep (1 * Microsecond), Event.low g.en,
            Event.sleep (100 * Microsecond)] := by
    simp [ GPIO.pulseEnable, Pin.Low, Pin.High, Sleep]
  refine ⟨hseq, totalSleep_pulseEnable g t, ?_, ?_, ?_, ?_⟩
  · rw [totalSleep_pulseEnable]
  · simp [ GPIO.pulseEnable]
  · rw [hseq, List.drop_left]
    intro e he p hp
    simp only [List.mem_cons, List.mem_singleton, List.not_mem_nil, or_false] at he
    rcases he with h | h | h | h | h | h <;> subst h <;> simp [Event.line] at hp <;> exact hp.symm
  · intro p hp
    have hne : g.en ≠ p := fun h => hp h.symm
    simp [ GPIO.pulseEnable, hne]

/-! ## Read with an empty buffer -/

/-- C5: `Read` with a zero-length buffer returns count 0 and a non-nil error
and appends no event at all, so no line is configured, driven or sampled and no
delay is requested. Conversely, whenever `Read` returns an error the buffer
length is zero. -/
theorem Read_empty_buffer (g : GPIO) (t : Trace) :
    (∃ e, g.Read [] t = Outcome.ret ([], 0, some e) t)
      ∧ (g.Read [] t).trace = t
      ∧ (g.Read [] t).trace.drop t.length = []
      ∧ (∀ (data : List Nat) (t1 t2 : Trace) (r : List Nat × Nat × Option GoError),
          g.Read data t1 = Outcome.ret r t2 → r.2.2 ≠ none → data.length = 0) := by
  refine ⟨⟨_, rfl⟩, rfl, ?_, ?_⟩
  · simp [ GPIO.Read, Outcome.trace]
  · intro data t1 t2 r h hr
    by_contra hlen
    simp only [ GPIO.Read, if_neg hlen] at h
    split at h
    · cases h
    · cases h
      exact hr rfl

/-- C5 at a concrete transport: an empty `Read` returns the error and leaves the
history as it was, and the returned error goes with a buffer of length zero. -/
theorem Read_empty_buffer_witness :
    ( newGPIO lastDriven 0 [0, 1, 2, 3] 4 5 6 0 []).1.bus.Read [] [Event.low 6]
        = Outcome.ret ([], 0, some (GoError.New "length greater than 0 is required"))
            [Event.low 6]
      ∧ ([] : List Nat).length = 0 :=
  ⟨rfl,
   (Read_empty_buffer ( newGPIO lastDriven 0 [0, 1, 2, 3] 4 5 6 0 []).1.bus [Event.low 6]).2.2.2
     [] [Event.low 6] [Event.low 6]
     ([], 0, some (GoError.New "length greater than 0 is required")) rfl (by simp)⟩

/-! ## Transcoding round trip -/

/-- C8: on a transport with four or eight distinct data lines that return the
level last driven, `pins` right after `setPins v` returns `v` modulo `2 ^ N`
for every byte `v`: `v` itself with eight lines, and with four lines when
`v < 16`. -/
theorem setPins_pins_roundtrip (g : GPIO) (v : Nat) (t : Trace)
    (hN : g.dataPins.length = 4 ∨ g.dataPins.length = 8) (hn : g.dataPins.Nodup)
    (hv : v < 256) :
    (g.pins lastDriven (g.setPins v t)).1 = v % 2 ^ g.dataPins.length
      ∧ (g.dataPins.length = 8 → (g.pins lastDriven (g.setPins v t)).1 = v)
      ∧ (g.dataPins.length = 4 → v < 16 → (g.pins lastDriven (g.setPins v t)).1 = v) := by
  have hle : g.dataPins.length ≤ 8 := by omega
  have h : (g.pins lastDriven (g.setPins v t)).1 = v % 2 ^ g.dataPins.length := by
    rw [pins_lastDriven g _ hle, lineValue_setPins g v hv t hn]
  refine ⟨h, ?_, ?_⟩
  · intro h8
    rw [h, h8]
    exact Nat.mod_eq_of_lt hv
  · intro h4 h16
    rw [h, h4]
    exact Nat.mod_eq_of_lt h16

/-- C8 on four lines: `0xA5` comes back as `0x5`, and `0x9` as itself. -/
theorem setPins_pins_roundtrip_witness :
    (( newGPIO lastDriven 0 [0, 1, 2, 3] 4 5 6 0 []).1.bus.pins lastDriven
        (( newGPIO lastDriven 0 [0, 1, 2, 3] 4 5 6 0 []).1.bus.setPins 0xA5 [])).1 = 0xA5 % 2 ^ 4
      ∧ (( newGPIO lastDriven 0 [0, 1, 2, 3] 4 5 6 0 []).1.bus.pins lastDriven
        (( newGPIO lastDriven 0 [0, 1, 2, 3] 4 5 6 0 []).1.bus.setPins 0x9 [])).1 = 0x9 :=
  ⟨(setPins_pins_roundtrip ( newGPIO lastDriven 0 [0, 1, 2, 3] 4 5 6 0 []).1.bus 0xA5 []
      (Or.inl rfl) (by decide) (by decide)).1,
   (setPins_pins_roundtrip ( newGPIO lastDriven 0 [0, 1, 2, 3] 4 5 6 0 []).1.bus 0x9 []
      (Or.inl rfl) (by decide) (by decide)).2.2 rfl (by decide)⟩

/-! ## Pulses of a write -/

/-- The values shown at the drive-highs of enable that a 4-line `Write` adds:
high nibble, then low nibble of each byte; their number; and the delay added. -/
theorem Write_4line_shown (rd : PinReader) (c4 : Nat) (dps : List Pin) (en rs rw : Pin)
    (t0 t : Trace) (data : List Nat)
    (hlen : dps.length = 4) (hn : dps.Nodup) (hen : en ∉ dps)
    (hdata : ∀ d ∈ data, d < 256) :
    shown dps en (( newGPIO rd c4 dps en rs rw c4 t0).1.bus.Write data t).trace
        = shown dps en t ++ data.flatMap (fun d => [d >>> 4, d &&& 0x0F])
      ∧ (shown dps en (( newGPIO rd c4 dps en rs rw c4 t0).1.bus.Write data t).trace).length
        = (shown dps en t).length + 2 * data.length
      ∧ totalSleep (( newGPIO rd c4 dps en rs rw c4 t0).1.bus.Write data t).trace
        = totalSleep t + (2 * data.length) * (102 * Microsecond) := by
  have hshown : shown dps en (( newGPIO rd c4 dps en rs rw c4 t0).1.bus.Write data t).trace
      = shown dps en t ++ data.flatMap (fun d => [d >>> 4, d &&& 0x0F]) := by
    rw [Write_eq _ _ ( newGPIO_write_4 rd c4 dps en rs rw t0)]
    rw [trace_ret]
    rw [shown_writeLoop _ dps en (fun d => [d >>> 4, d &&& 0x0F]) data hdata]
    · simp
    · intro d hd t1
      apply shown_debugWrite
      intro t2
      have h := shown_write4BitMode
        { dataPins := dps, en := en, rs := rs, rw := rw,
          write := none, writeNibble := none, read := none } d t2 hd hn hen
      simp only [hlen] at h
      have h1 : d >>> 4 % 2 ^ 4 = d >>> 4 := Nat.mod_eq_of_lt (shiftRight_four_lt d hd)
      rw [h, h1, low_nibble]
  refine ⟨hshown, ?_, ?_⟩
  · rw [hshown, List.length_append]
    congr 1
    clear hshown hdata
    induction data with
    | nil => rfl
    | cons d ds ih => simp [List.flatMap_cons, ih]; omega
  · rw [Write_eq _ _ ( newGPIO_write_4 rd c4 dps en rs rw t0)]
    rw [trace_ret]
    rw [totalSleep_writeLoop _ (2 * (102 * Microsecond))]
    · simp
      ring
    · intro d t1
      exact totalSleep_debugWrite _ _ _ _ _ (fun t2 => totalSleep_write4BitMode _ d t2)

/-- C2: in 4-line mode, on four distinct data lines apart from the enable line,
`Write(data)` adds exactly these events: the read/write line low, then for each
byte the console output of the two nibbles, the lines driven to the high nibble
`data[k] >> 4` (line `i` = bit `i`), one run of the enable-pulse sequencer, the
lines driven to the low nibble `data[k] & 0x0F`, one more run. So it emits
exactly `2 * len(data)` enable pulses, and from the rise to the fall of enable
in pulse `2k` the lines show the high nibble, in pulse `2k + 1` the low nibble. -/
theorem Write_4line_pulses (rd : PinReader) (c4 : Nat) (dps : List Pin) (en rs rw : Pin)
    (t0 t : Trace) (data : List Nat)
    (hlen : dps.length = 4) (hn : dps.Nodup) (hen : en ∉ dps)
    (hdata : ∀ d ∈ data, d < 256) :
    (( newGPIO rd c4 dps en rs rw c4 t0).1.bus.Write data t).trace
        = t ++ ([Event.low rw] ++ data.flatMap (fun d =>
            nibbleText (d >>> 4) false ++ nibbleText d true
              ++ (lineEvents dps (d >>> 4) ++ pulseEvents en
                ++ (lineEvents dps (d &&& 0x0F) ++ pulseEvents en))))
      ∧ pulseWindows dps en t (( newGPIO rd c4 dps en rs rw c4 t0).1.bus.Write data t).trace
        = data.flatMap (fun d =>
            [[d >>> 4, d >>> 4, d >>> 4], [d &&& 0x0F, d &&& 0x0F, d &&& 0x0F]])
      ∧ (pulseWindows dps en t
          (( newGPIO rd c4 dps en rs rw c4 t0).1.bus.Write data t).trace).length
        = 2 * data.length
      ∧ shown dps en (( newGPIO rd c4 dps en rs rw c4 t0).1.bus.Write data t).trace
        = shown dps en t ++ data.flatMap (fun d => [d >>> 4, d &&& 0x0F])
      ∧ (shown dps en (( newGPIO rd c4 dps en rs rw c4 t0).1.bus.Write data t).trace).length
        = (shown dps en t).length + 2 * data.length
      ∧ totalSleep (( newGPIO rd c4 dps en rs rw c4 t0).1.bus.Write data t).trace
        = totalSleep t + (2 * data.length) * (102 * Microsecond) := by
  have hold := Write_4line_shown rd c4 dps en rs rw t0 t data hlen hn hen hdata
  have hwin := windows_Write_4 rd c4 dps en rs rw t0 data t hlen hn hen hdata
  have hfun : (fun d => nibbleText (d >>> 4) false ++ nibbleText d true
        ++ (lineEvents dps (d >>> 4) ++ pulseEvents en ++ (lineEvents dps d ++ pulseEvents en)))
      = (fun d => nibbleText (d >>> 4) false ++ nibbleText d true
        ++ (lineEvents dps (d >>> 4) ++ pulseEvents en
          ++ (lineEvents dps (d &&& 0x0F) ++ pulseEvents en))) := by
    funext d
    have h := lineEvents_mod dps d
    rw [hlen, low_nibble] at h
    rw [h]
  refine ⟨?_, hwin, ?_, hold.1, hold.2.1, hold.2.2⟩
  · rw [Write_events_4 rd c4 dps en rs rw t0 data t hdata, hfun]
  · rw [hwin]
    clear hwin hold hdata
    induction data with
    | nil => rfl
    | cons d ds ih =>
        simp only [List.flatMap_cons, List.length_append, List.length_cons,
          List.length_nil, ih]
        omega

/-- C2 for the byte `0xA5`: the events added, and two pulses with the lines
showing `0xA` throughout the first and `0x5` throughout the second. -/
theorem Write_4line_pulses_witness :
    (( newGPIO lastDriven 0 [0, 1, 2, 3] 4 5 6 0 []).1.bus.Write [0xA5] []).trace
        = [Event.low 6,
           Event.print (Console.int 1), Event.print (Console.int 0),
           Event.print (Console.int 1), Event.print (Console.int 0), Event.print Console.space,
           Event.print (Console.int 0), Event.print (Console.int 1),
           Event.print (Console.int 0), Event.print (Console.int 1),
           Event.print Console.newline,
           Event.low 0, Event.high 1, Event.low 2, Event.high 3,
           Event.low 4, Event.sleep 1000, Event.high 4, Event.sleep 1000, Event.low 4,
           Event.sleep 100000,
           Event.high 0, Event.low 1, Event.high 2, Event.low 3,
           Event.low 4, Event.sleep 1000, Event.high 4, Event.sleep 1000, Event.low 4,
           Event.sleep 100000]
      ∧ pulseWindows [0, 1, 2, 3] 4 []
          (( newGPIO lastDriven 0 [0, 1, 2, 3] 4 5 6 0 []).1.bus.Write [0xA5] []).trace
        = [[0xA, 0xA, 0xA], [0x5, 0x5, 0x5]]
      ∧ shown [0, 1, 2, 3] 4
          (( newGPIO lastDriven 0 [0, 1, 2, 3] 4 5 6 0 []).1.bus.Write [0xA5] []).trace
        = [0xA, 0x5] :=
  ⟨(Write_4line_pulses lastDriven 0 [0, 1, 2, 3] 4 5 6 [] [] [0xA5] rfl (by decide)
      (by decide) (by decide)).1,
   (Write_4line_pulses lastDriven 0 [0, 1, 2, 3] 4 5 6 [] [] [0xA5] rfl (by decide)
      (by decide) (by decide)).2.1,
   (Write_4line_pulses lastDriven 0 [0, 1, 2, 3] 4 5 6 [] [] [0xA5] rfl (by decide)
      (by decide) (by decide)).2.2.2.1⟩

/-- The values shown at the drive-highs of enable that an 8-line `Write` adds:
each byte in turn; their number; the delay added; and the line levels after a
single byte. -/
theorem Write_8line_shown (rd : PinReader) (c4 mode : Nat) (dps : List Pin) (en rs rw : Pin)
    (t0 t : Trace) (data : List Nat)
    (hm : mode ≠ c4) (hlen : dps.length = 8) (hn : dps.Nodup) (hen : en ∉ dps)
    (hdata : ∀ d ∈ data, d < 256) :
    shown dps en (( newGPIO rd c4 dps en rs rw mode t0).1.bus.Write data t).trace
        = shown dps en t ++ data
      ∧ (shown dps en (( newGPIO rd c4 dps en rs rw mode t0).1.bus.Write data t).trace).length
        = (shown dps en t).length + data.length
      ∧ totalSleep (( newGPIO rd c4 dps en rs rw mode t0).1.bus.Write data t).trace
        = totalSleep t + data.length * (102 * Microsecond)
      ∧ (∀ d, d < 256 → ∀ i, i < 8 →
          (dps.map (fun p => level p
              (( newGPIO rd c4 dps en rs rw mode t0).1.bus.Write [d] t).trace)).getD i false
            = d.testBit i) := by
  have hshown : ∀ (l : List Nat), (∀ d ∈ l, d < 256) →
      shown dps en (( newGPIO rd c4 dps en rs rw mode t0).1.bus.Write l t).trace
        = shown dps en t ++ l := by
    intro l hl
    rw [Write_eq _ _ ( newGPIO_write_8 rd c4 dps en rs rw mode t0 hm), trace_ret]
    rw [shown_writeLoop _ dps en (fun d => [d]) l hl]
    · simp [flatMap_single]
    · intro d hd t1
      have h := shown_write8BitMode
        { dataPins := dps, en := en, rs := rs, rw := rw,
          write := none, writeNibble := none, read := none } d t1 hd hn hen
      simp only [hlen] at h
      rw [h, Nat.mod_eq_of_lt (by omega)]
  refine ⟨hshown data hdata, ?_, ?_, ?_⟩
  · rw [hshown data hdata, List.length_append]
  · rw [Write_eq _ _ ( newGPIO_write_8 rd c4 dps en rs rw mode t0 hm), trace_ret]
    rw [totalSleep_writeLoop _ (102 * Microsecond)]
    · simp
    · intro d t1
      exact totalSleep_write8BitMode _ d t1
  · intro d hd i _
    rw [← lineValue_testBit]
    congr 1
    rw [Write_eq _ _ ( newGPIO_write_8 rd c4 dps en rs rw mode t0 hm), trace_ret]
    simp only [writeLoop, trace_ret]
    have h := lineValue_write8BitMode
      { dataPins := dps, en := en, rs := rs, rw := rw,
        write := none, writeNibble := none, read := none } d
      (Pin.Low ( newGPIO rd c4 dps en rs rw mode t0).1.bus.rw t) hd hn hen
    simp only [hlen] at h
    rw [h, Nat.mod_eq_of_lt (by omega)]

/-- C3: in 8-line mode, on eight distinct data lines apart from the enable line,
`Write(data)` adds exactly these events: the read/write line low, then for each
byte the eight lines driven to `data[k]` (line `i` high exactly when bit `i` is
1) followed by one run of the enable-pulse sequencer. So it emits exactly
`len(data)` enable pulses, and from the rise to the fall of enable in pulse `k`
all eight lines together show `data[k]`. -/
theorem Write_8line_pulses (rd : PinReader) (c4 mode : Nat) (dps : List Pin) (en rs rw : Pin)
    (t0 t : Trace) (data : List Nat)
    (hm : mode ≠ c4) (hlen : dps.length = 8) (hn : dps.Nodup) (hen : en ∉ dps)
    (hdata : ∀ d ∈ data, d < 256) :
    (( newGPIO rd c4 dps en rs rw mode t0).1.bus.Write data t).trace
        = t ++ ([Event.low rw]
            ++ data.flatMap (fun d => lineEvents dps d ++ pulseEvents en))
      ∧ pulseWindows dps en t (( newGPIO rd c4 dps en rs rw mode t0).1.bus.Write data t).trace
        = data.map (fun d => [d, d, d])
      ∧ (pulseWindows dps en t
          (( newGPIO rd c4 dps en rs rw mode t0).1.bus.Write data t).trace).length
        = data.length
      ∧ shown dps en (( newGPIO rd c4 dps en rs rw mode t0).1.bus.Write data t).trace
        = shown dps en t ++ data
      ∧ (shown dps en (( newGPIO rd c4 dps en rs rw mode t0).1.bus.Write data t).trace).length
        = (shown dps en t).length + data.length
      ∧ totalSleep (( newGPIO rd c4 dps en rs rw mode t0).1.bus.Write data t).trace
        = totalSleep t + data.length * (102 * Microsecond)
      ∧ (∀ d, d < 256 → ∀ i, i < 8 →
          (dps.map (fun p => level p
              (( newGPIO rd c4 dps en rs rw mode t0).1.bus.Write [d] t).trace)).getD i false
            = d.testBit i) := by
  have hold := Write_8line_shown rd c4 mode dps en rs rw t0 t data hm hlen hn hen hdata
  have hwin := windows_Write_8 rd c4 mode dps en rs rw t0 data t hm hlen hn hen hdata
  refine ⟨Write_events_8 rd c4 mode dps en rs rw t0 data t hm hdata, hwin, ?_,
    hold.1, hold.2.1, hold.2.2.1, hold.2.2.2⟩
  rw [hwin, List.length_map]

/-- C3 for the single byte `0xA5`: the events added, and exactly one pulse with
the lines showing `0xA5` throughout. -/
theorem Write_8line_pulses_witness :
    (( newGPIO lastDriven 0 [0, 1, 2, 3, 4, 5, 6, 7] 8 9 10 16 []).1.bus.Write [0xA5] []).trace
        = [Event.low 10,
           Event.high 0, Event.low 1, Event.high 2, Event.low 3,
           Event.low 4, Event.high 5, Event.low 6, Event.high 7,
           Event.low 8, Event.sleep 1000, Event.high 8, Event.sleep 1000, Event.low 8,
           Event.sleep 100000]
      ∧ pulseWindows [0, 1, 2, 3, 4, 5, 6, 7] 8 []
          (( newGPIO lastDriven 0 [0, 1, 2, 3, 4, 5, 6, 7] 8 9 10 16 []).1.bus.Write
            [0xA5] []).trace
        = [[0xA5, 0xA5, 0xA5]]
      ∧ shown [0, 1, 2, 3, 4, 5, 6, 7] 8
          (( newGPIO lastDriven 0 [0, 1, 2, 3, 4, 5, 6, 7] 8 9 10 16 []).1.bus.Write
            [0xA5] []).trace
        = [0xA5] :=
  ⟨(Write_8line_pulses lastDriven 0 16 [0, 1, 2, 3, 4, 5, 6, 7] 8 9 10 [] [] [0xA5]
      (by decide) rfl (by decide) (by decide) (by decide)).1,
   (Write_8line_pulses lastDriven 0 16 [0, 1, 2, 3, 4, 5, 6, 7] 8 9 10 [] [] [0xA5]
      (by decide) rfl (by decide) (by decide) (by decide)).2.1,
   (Write_8line_pulses lastDriven 0 16 [0, 1, 2, 3, 4, 5, 6, 7] 8 9 10 [] [] [0xA5]
      (by decide) rfl (by decide) (by decide) (by decide)).2.2.2.1⟩

/-- The values shown at the drive-highs of enable that a 4-line `WriteNibble`
adds: the low nibbles and the trailing repeat; their number; the line value
after the call; the delay added; and their independence from the high nibbles. -/
theorem WriteNibble_shown (rd : PinReader) (c4 : Nat) (dps : List Pin) (en rs rw : Pin)
    (t0 t : Trace) (data : List Nat)
    (hlen : dps.length = 4) (hn : dps.Nodup) (hen : en ∉ dps) (hrw : rw ∉ dps)
    (hdata : ∀ d ∈ data, d < 256) :
    shown dps en (( newGPIO rd c4 dps en rs rw c4 t0).1.bus.WriteNibble data t).trace
        = shown dps en t ++ data.map (fun d => d &&& 0x0F)
            ++ [match data.getLast? with
                | some d => d &&& 0x0F
                | none => lineValue dps t]
      ∧ (shown dps en (( newGPIO rd c4 dps en rs rw c4 t0).1.bus.WriteNibble data t).trace).length
        = (shown dps en t).length + (data.length + 1)
      ∧ lineValue dps (( newGPIO rd c4 dps en rs rw c4 t0).1.bus.WriteNibble data t).trace
        = (match data.getLast? with
            | some d => d &&& 0x0F
            | none => lineValue dps t)
      ∧ totalSleep (( newGPIO rd c4 dps en rs rw c4 t0).1.bus.WriteNibble data t).trace
        = totalSleep t + (data.length + 1) * (102 * Microsecond)
      ∧ (∀ other : List Nat, (∀ d ∈ other, d < 256) →
          other.map (fun d => d &&& 0x0F) = data.map (fun d => d &&& 0x0F) →
          shown dps en (( newGPIO rd c4 dps en rs rw c4 t0).1.bus.WriteNibble other t).trace
            = shown dps en (( newGPIO rd c4 dps en rs rw c4 t0).1.bus.WriteNibble data t).trace) := by
  have hunit : ∀ d, d < 256 → ∀ t1,
      lineValue dps (debugWrite ( GPIO.write4BitNibble
          { dataPins := dps, en := en, rs := rs, rw := rw,
            write := none, writeNibble := none, read := none }) true d t1) = d &&& 0x0F := by
    intro d hd t1
    apply lineValue_debugWrite
    intro t2
    have h := lineValue_write4BitNibble
      { dataPins := dps, en := en, rs := rs, rw := rw,
        write := none, writeNibble := none, read := none } d t2 hd hn hen
    simp only [hlen] at h
    rw [h, low_nibble]
  have hline : ∀ (l : List Nat), (∀ d ∈ l, d < 256) →
      lineValue dps (writeLoop (some (debugWrite ( GPIO.write4BitNibble
          { dataPins := dps, en := en, rs := rs, rw := rw,
            write := none, writeNibble := none, read := none }) true)) l 0
          (Pin.Low ( newGPIO rd c4 dps en rs rw c4 t0).1.bus.rw t)).trace
        = (match l.getLast? with
            | some d => d &&& 0x0F
            | none => lineValue dps t) := by
    intro l hl
    rw [lineValue_writeLoop _ dps (fun d => d &&& 0x0F) l hl hunit]
    cases l.getLast? with
    | none => simp [lineValue_Low, hrw]
    | some y => rfl
  have hshown : ∀ (l : List Nat), (∀ d ∈ l, d < 256) →
      shown dps en (( newGPIO rd c4 dps en rs rw c4 t0).1.bus.WriteNibble l t).trace
        = shown dps en t ++ l.map (fun d => d &&& 0x0F)
            ++ [match l.getLast? with
                | some d => d &&& 0x0F
                | none => lineValue dps t] := by
    intro l hl
    rw [WriteNibble_eq _ _ ( newGPIO_writeNibble_4 rd c4 dps en rs rw t0), trace_ret]
    have hp := shown_pulseEnable dps ( newGPIO rd c4 dps en rs rw c4 t0).1.bus
      (writeLoop (some (debugWrite ( GPIO.write4BitNibble
          { dataPins := dps, en := en, rs := rs, rw := rw,
            write := none, writeNibble := none, read := none }) true)) l 0
          (Pin.Low ( newGPIO rd c4 dps en rs rw c4 t0).1.bus.rw t)).trace
      (by simpa using hen)
    rw [ newGPIO_en] at hp
    rw [hp, hline l hl, shown_writeLoop _ dps en (fun d => [d &&& 0x0F]) l hl]
    · simp [flatMap_single]
    · intro d hd t1
      apply shown_debugWrite
      intro t2
      have h := shown_write4BitNibble
        { dataPins := dps, en := en, rs := rs, rw := rw,
          write := none, writeNibble := none, read := none } d t2 hd hn hen
      simp only [hlen] at h
      rw [h, low_nibble]
  refine ⟨hshown data hdata, ?_, ?_, ?_, ?_⟩
  · rw [hshown data hdata]
    simp only [List.length_append, List.length_map, List.length_singleton]
    omega
  · rw [WriteNibble_eq _ _ ( newGPIO_writeNibble_4 rd c4 dps en rs rw t0), trace_ret]
    rw [lineValue_pulseEnable dps _ _ (by simpa using hen)]
    exact hline data hdata
  · rw [WriteNibble_eq _ _ ( newGPIO_writeNibble_4 rd c4 dps en rs rw t0), trace_ret]
    rw [totalSleep_pulseEnable, totalSleep_writeLoop _ (102 * Microsecond)]
    · simp
      ring
    · intro d t1
      exact totalSleep_debugWrite _ _ _ _ _ (fun t2 => totalSleep_write4BitNibble _ d t2)
  · intro other hother hsame
    rw [hshown data hdata, hshown other hother, hsame]
    congr 2
    have hl : (other.map (fun d => d &&& 0x0F)).getLast?
        = (data.map (fun d => d &&& 0x0F)).getLast? := by rw [hsame]
    rw [List.getLast?_map, List.getLast?_map] at hl
    cases ho : other.getLast? <;> cases hd : data.getLast? <;> simp [ho, hd] at hl ⊢
    exact hl

theorem nibbleText_low (d : Nat) (nl : Bool) :
    nibbleText (d &&& 0x0F) nl = nibbleText d nl := by
  have h : d &&& 0x0F = d % 16 := Nat.and_pow_two_sub_one_eq_mod d 4
  have h8 : d % 16 / 8 % 2 = d / 8 % 2 := by omega
  have h4 : d % 16 / 4 % 2 = d / 4 % 2 := by omega
  have h2 : d % 16 / 2 % 2 = d / 2 % 2 := by omega
  have h1 : d % 16 % 2 = d % 2 := by omega
  simp only [nibbleText, h, h8, h4, h2, h1]

/-- C4: in 4-line mode, on four distinct data lines apart from the enable and
the read/write line, `WriteNibble(data)` adds exactly these events: the
read/write line low, then for each element the console output of its low
nibble, the lines driven to the low nibble `data[k] & 0x0F` and one run of the
enable-pulse sequencer, and at the end one more run with no line driven before
it. So it emits exactly `len(data) + 1` enable pulses; from the rise to the fall
of enable in pulse `k < len(data)` the lines show `data[k] & 0x0F`, and in the
trailing pulse they show what they showed before it. Every added event is
written in terms of the low nibbles only: no pulse encodes a high nibble. -/
theorem WriteNibble_pulses (rd : PinReader) (c4 : Nat) (dps : List Pin) (en rs rw : Pin)
    (t0 t : Trace) (data : List Nat)
    (hlen : dps.length = 4) (hn : dps.Nodup) (hen : en ∉ dps) (hrw : rw ∉ dps)
    (hdata : ∀ d ∈ data, d < 256) :
    (( newGPIO rd c4 dps en rs rw c4 t0).1.bus.WriteNibble data t).trace
        = t ++ ([Event.low rw]
            ++ data.flatMap (fun d => nibbleText (d &&& 0x0F) true
                ++ (lineEvents dps (d &&& 0x0F) ++ pulseEvents en))
            ++ pulseEvents en)
      ∧ pulseWindows dps en t
          (( newGPIO rd c4 dps en rs rw c4 t0).1.bus.WriteNibble data t).trace
        = data.map (fun d => [d &&& 0x0F, d &&& 0x0F, d &&& 0x0F])
            ++ [match data.getLast? with
                | some d => [d &&& 0x0F, d &&& 0x0F, d &&& 0x0F]
                | none => [lineValue dps t, lineValue dps t, lineValue dps t]]
      ∧ (pulseWindows dps en t
          (( newGPIO rd c4 dps en rs rw c4 t0).1.bus.WriteNibble data t).trace).length
        = data.length + 1
      ∧ shown dps en (( newGPIO rd c4 dps en rs rw c4 t0).1.bus.WriteNibble data t).trace
        = shown dps en t ++ data.map (fun d => d &&& 0x0F)
            ++ [match data.getLast? with
                | some d => d &&& 0x0F
                | none => lineValue dps t]
      ∧ (shown dps en (( newGPIO rd c4 dps en rs rw c4 t0).1.bus.WriteNibble data t).trace).length
        = (shown dps en t).length + (data.length + 1)
      ∧ lineValue dps (( newGPIO rd c4 dps en rs rw c4 t0).1.bus.WriteNibble data t).trace
        = (match data.getLast? with
            | some d => d &&& 0x0F
            | none => lineValue dps t)
      ∧ totalSleep (( newGPIO rd c4 dps en rs rw c4 t0).1.bus.WriteNibble data t).trace
        = totalSleep t + (data.length + 1) * (102 * Microsecond)
      ∧ (∀ other : List Nat, (∀ d ∈ other, d < 256) →
          other.map (fun d => d &&& 0x0F) = data.map (fun d => d &&& 0x0F) →
          shown dps en (( newGPIO rd c4 dps en rs rw c4 t0).1.bus.WriteNibble other t).trace
            = shown dps en (( newGPIO rd c4 dps en rs rw c4 t0).1.bus.WriteNibble data t).trace) := by
  have hold := WriteNibble_shown rd c4 dps en rs rw t0 t data hlen hn hen hrw hdata
  have hwin := windows_WriteNibble_4 rd c4 dps en rs rw t0 data t hlen hn hen hrw hdata
  have hfun : (fun d => nibbleText d true ++ (lineEvents dps d ++ pulseEvents en))
      = (fun d => nibbleText (d &&& 0x0F) true
          ++ (lineEvents dps (d &&& 0x0F) ++ pulseEvents en)) := by
    funext d
    have h := lineEvents_mod dps d
    rw [hlen, low_nibble] at h
    rw [h, nibbleText_low]
  refine ⟨?_, hwin, ?_, hold.1, hold.2.1, hold.2.2.1, hold.2.2.2.1, hold.2.2.2.2⟩
  · rw [WriteNibble_events_4 rd c4 dps en rs rw t0 data t hdata, hfun]
  · rw [hwin]
    simp

/-- C4 for `[0x3, 0x7]`: the events added, and three pulses with the lines
showing `0x3`, `0x7`, `0x7` throughout. -/
theorem WriteNibble_pulses_witness :
    (( newGPIO lastDriven 0 [0, 1, 2, 3] 4 5 6 0 []).1.bus.WriteNibble [0x3, 0x7] []).trace
        = [Event.low 6,
           Event.print (Console.int 0), Event.print (Console.int 0),
           Event.print (Console.int 1), Event.print (Console.int 1),
           Event.print Console.newline,
           Event.high 0, Event.high 1, Event.low 2, Event.low 3,
           Event.low 4, Event.sleep 1000, Event.high 4, Event.sleep 1000, Event.low 4,
           Event.sleep 100000,
           Event.print (Console.int 0), Event.print (Console.int 1),
           Event.print (Console.int 1), Event.print (Console.int 1),
           Event.print Console.newline,
           Event.high 0, Event.high 1, Event.high 2, Event.low 3,
           Event.low 4, Event.sleep 1000, Event.high 4, Event.sleep 1000, Event.low 4,
           Event.sleep 100000,
           Event.low 4, Event.sleep 1000, Event.high 4, Event.sleep 1000, Event.low 4,
           Event.sleep 100000]
      ∧ pulseWindows [0, 1, 2, 3] 4 []
          (( newGPIO lastDriven 0 [0, 1, 2, 3] 4 5 6 0 []).1.bus.WriteNibble [0x3, 0x7] []).trace
        = [[0x3, 0x3, 0x3], [0x7, 0x7, 0x7], [0x7, 0x7, 0x7]]
      ∧ shown [0, 1, 2, 3] 4
          (( newGPIO lastDriven 0 [0, 1, 2, 3] 4 5 6 0 []).1.bus.WriteNibble [0x3, 0x7] []).trace
        = [0x3, 0x7, 0x7] :=
  ⟨(WriteNibble_pulses lastDriven 0 [0, 1, 2, 3] 4 5 6 [] [] [0x3, 0x7] rfl (by decide)
      (by decide) (by decide) (by decide)).1,
   (WriteNibble_pulses lastDriven 0 [0, 1, 2, 3] 4 5 6 [] [] [0x3, 0x7] rfl (by decide)
      (by decide) (by decide) (by decide)).2.1,
   (WriteNibble_pulses lastDriven 0 [0, 1, 2, 3] 4 5 6 [] [] [0x3, 0x7] rfl (by decide)
      (by decide) (by decide) (by decide)).2.2.2.1⟩

/-! ## Counts returned by `Write` and `Read` -/

/-- C10: on a transport built by `newGPIO`, in either mode, `Write(seq)` returns
the count `len(seq)` and a nil error for every `seq`; and for every non-empty
buffer `Read` returns the count `len(buffer)` and a nil error, the buffer then
holding, position by position, the bytes of `len(buffer)` successive calls of
the transport's read function, whatever the buffer held before. -/
theorem Write_Read_counts (rd : PinReader) (c4 mode : Nat) (dps : List Pin) (en rs rw : Pin)
    (t0 : Trace) (seq buffer : List Nat) (t : Trace) (hb : 0 < buffer.length) :
    (( newGPIO rd c4 dps en rs rw mode t0).1.bus.Write seq t).value = some (seq.length, none)
      ∧ ∃ f bytes, ( newGPIO rd c4 dps en rs rw mode t0).1.bus.read = some f
        ∧ (( newGPIO rd c4 dps en rs rw mode t0).1.bus.Read buffer t).value
            = some (bytes, buffer.length, none)
        ∧ bytes.length = buffer.length
        ∧ bytes = (successive f buffer.length
            (reconfigureLoop PinMode.PinInput dps (Pin.High rw t))).1 := by
  have hne : buffer ≠ [] := fun h => by simp [h] at hb
  by_cases hm : mode = c4
  · subst hm
    refine ⟨?_, _, _, newGPIO_read_4 rd mode dps en rs rw t0, ?_, ?_, rfl⟩
    · rw [Write_eq _ _ ( newGPIO_write_4 rd mode dps en rs rw t0), value_ret]
    · rw [Read_eq _ _ ( newGPIO_read_4 rd mode dps en rs rw t0) buffer t hne, value_ret]
      simp [ GPIO.reconfigureGPIOMode]
    · exact successive_length _ _ _
  · refine ⟨?_, _, _, newGPIO_read_8 rd c4 dps en rs rw mode t0 hm, ?_, ?_, rfl⟩
    · rw [Write_eq _ _ ( newGPIO_write_8 rd c4 dps en rs rw mode t0 hm), value_ret]
    · rw [Read_eq _ _ ( newGPIO_read_8 rd c4 dps en rs rw mode t0 hm) buffer t hne, value_ret]
      simp [ GPIO.reconfigureGPIOMode]
    · exact successive_length _ _ _

/-- C10 on eight mirroring lines: writing three bytes returns 3 and no error,
and reading into a two-byte buffer returns 2 and no error with two bytes stored. -/
theorem Write_Read_counts_witness :
    (( newGPIO lastDriven 0 [0, 1, 2, 3, 4, 5, 6, 7] 8 9 10 16 []).1.bus.Write
        [0x41, 0x42, 0x43] []).value = some (3, none)
      ∧ ∃ bytes,
        (( newGPIO lastDriven 0 [0, 1, 2, 3, 4, 5, 6, 7] 8 9 10 16 []).1.bus.Read [0, 0] []).value
            = some (bytes, 2, none)
          ∧ bytes.length = 2 :=
  ⟨(Write_Read_counts lastDriven 0 16 [0, 1, 2, 3, 4, 5, 6, 7] 8 9 10 [] [0x41, 0x42, 0x43]
      [0, 0] [] (by decide)).1,
   (Write_Read_counts lastDriven 0 16 [0, 1, 2, 3, 4, 5, 6, 7] 8 9 10 [] [0x41, 0x42, 0x43]
      [0, 0] [] (by decide)).2.elim
     (fun _ h => h.elim (fun bytes hb => ⟨bytes, hb.2.1, hb.2.2.1⟩))⟩

/-! ## Bytes assembled by `Read` -/

/-- C6: in 4-line mode (four data lines, any reader) the read function of the
transport raises enable, samples the lines (`s1`), lowers enable, raises it
again, samples the lines (`s2`) and lowers enable, and yields the byte
`((s1 & 0x0F) << 4) | (s2 & 0x0F)`: the first sample is the high nibble. The
enable line is driven high, low, high, low, is high at both samples and ends
low, and every byte `Read` stores is assembled this way. -/
theorem Read_4line_byte (rd : PinReader) (c4 : Nat) (dps : List Pin) (en rs rw : Pin)
    (t0 : Trace) (hlen : dps.length = 4) :
    ∃ f, ( newGPIO rd c4 dps en rs rw c4 t0).1.bus.read = some f
      ∧ (∀ t, f t
          = (((sampled rd dps (Pin.High en t) &&& 0x0F) <<< 4)
              ||| (sampled rd dps
                    (Pin.High en (Pin.Low en (sampledTrace rd dps (Pin.High en t)))) &&& 0x0F),
             Pin.Low en (sampledTrace rd dps
               (Pin.High en (Pin.Low en (sampledTrace rd dps (Pin.High en t)))))))
      ∧ (∀ t, drives en (f t).2 = drives en t ++ [true, false, true, false])
      ∧ (∀ t, level en (sampledTrace rd dps (Pin.High en t)) = true)
      ∧ (∀ t, level en (sampledTrace rd dps
          (Pin.High en (Pin.Low en (sampledTrace rd dps (Pin.High en t))))) = true)
      ∧ (∀ t, level en (f t).2 = false)
      ∧ (∀ (b0 : Nat) (t : Trace),
          (( newGPIO rd c4 dps en rs rw c4 t0).1.bus.Read [b0] t).value
            = some ([(f (reconfigureLoop PinMode.PinInput dps (Pin.High rw t))).1], 1, none))
      ∧ (∀ (buffer bytes : List Nat) (t : Trace) (n : Nat) (e : Option GoError),
          (( newGPIO rd c4 dps en rs rw c4 t0).1.bus.Read buffer t).value = some (bytes, n, e) →
          ∀ b ∈ bytes, ∃ tk, b = (f tk).1) := by
  have heq : ∀ t, _ := fun t => read4BitMode_eq rd
    { dataPins := dps, en := en, rs := rs, rw := rw,
      write := none, writeNibble := none, read := none } t (by simp [hlen])
  simp only at heq
  refine ⟨_, newGPIO_read_4 rd c4 dps en rs rw t0, heq, ?_, ?_, ?_, ?_, ?_, ?_⟩
  · intro t
    rw [heq]
    simp [drives_Low, drives_High, drives_sampledTrace]
  · intro t
    simp [level_sampledTrace]
  · intro t
    simp [level_sampledTrace]
  · intro t
    rw [heq]
    simp
  · intro b0 t
    rw [Read_eq _ _ (newGPIO_read_4 rd c4 dps en rs rw t0) [b0] t (by simp), value_ret]
    simp [successive, GPIO.reconfigureGPIOMode]
  · intro buffer bytes t n e h b hb
    by_cases hne : buffer = []
    · subst hne
      simp [ GPIO.Read, Outcome.value] at h
      rw [h.1] at hb
      simp at hb
    · rw [Read_eq _ _ (newGPIO_read_4 rd c4 dps en rs rw t0) buffer t hne, value_ret] at h
      simp only [Option.some.injEq, Prod.mk.injEq] at h
      rw [← h.1] at hb
      exact successive_mem _ _ _ b hb

/-- C6 with a reader that answers high on lines 0 and 2 while enable has been
raised once and on lines 1 and 3 afterwards: the samples are `0x5` and `0xA`,
and the byte stored is `0x5A`. -/
theorem Read_4line_byte_witness :
    (( newGPIO (fun t p => (p + (drives 4 t).length / 2) % 2 == 0) 0
        [0, 1, 2, 3] 4 5 6 0 []).1.bus.Read [0] []).value
      = some ([0x5A], 1, none) := by
  obtain ⟨f, -, heq, -, -, -, -, hread, -⟩ :=
    Read_4line_byte (fun t p => (p + (drives 4 t).length / 2) % 2 == 0) 0
      [0, 1, 2, 3] 4 5 6 [] rfl
  rw [hread, heq]
  rfl

/-- C7: in 8-line mode (eight data lines, any reader) the read function of the
transport raises enable, samples the eight lines and lowers enable. The byte it
yields is the sum over the lines of the answer of line `i` times `2 ^ i`, the
accumulator starting at zero, so bit `i` of the byte is the answer of line `i`
with line 0 the least significant bit. Enable is driven high then low, is high
at the sample and ends low, and every byte `Read` stores is assembled this way. -/
theorem Read_8line_byte (rd : PinReader) (c4 mode : Nat) (dps : List Pin) (en rs rw : Pin)
    (t0 : Trace) (hm : mode ≠ c4) (hlen : dps.length = 8) :
    ∃ f, ( newGPIO rd c4 dps en rs rw mode t0).1.bus.read = some f
      ∧ (∀ t, f t
          = (sampled rd dps (Pin.High en t), Pin.Low en (sampledTrace rd dps (Pin.High en t))))
      ∧ (∀ t i, (f t).1.testBit i = (answers rd dps (Pin.High en t)).getD i false)
      ∧ (∀ t, (answers rd dps t).length = 8 ∧ sampled rd dps t < 256)
      ∧ (∀ t, drives en (f t).2 = drives en t ++ [true, false])
      ∧ (∀ t, level en (sampledTrace rd dps (Pin.High en t)) = true)
      ∧ (∀ t, level en (f t).2 = false)
      ∧ (∀ (b0 : Nat) (t : Trace),
          (( newGPIO rd c4 dps en rs rw mode t0).1.bus.Read [b0] t).value
            = some ([(f (reconfigureLoop PinMode.PinInput dps (Pin.High rw t))).1], 1, none))
      ∧ (∀ (buffer bytes : List Nat) (t : Trace) (n : Nat) (e : Option GoError),
          (( newGPIO rd c4 dps en rs rw mode t0).1.bus.Read buffer t).value = some (bytes, n, e) →
          ∀ b ∈ bytes, ∃ tk, b = (f tk).1) := by
  have heq : ∀ t, _ := fun t => read8BitMode_eq rd
    { dataPins := dps, en := en, rs := rs, rw := rw,
      write := none, writeNibble := none, read := none } t (by simp [hlen])
  simp only at heq
  have hans : ∀ (ps : List Pin) (t : Trace), (answers rd ps t).length = ps.length := by
    intro ps
    induction ps with
    | nil => intro t; rfl
    | cons x xs ih => intro t; simp [answers, ih]
  refine ⟨_, newGPIO_read_8 rd c4 dps en rs rw mode t0 hm, heq, ?_, ?_, ?_, ?_, ?_, ?_, ?_⟩
  · intro t i
    rw [heq]
    exact sampled_testBit rd dps _ i
  · intro t
    refine ⟨by rw [hans, hlen], ?_⟩
    have h := sampled_lt rd dps t
    rw [hlen] at h
    exact h
  · intro t
    rw [heq]
    simp [drives_Low, drives_High, drives_sampledTrace]
  · intro t
    simp [level_sampledTrace]
  · intro t
    rw [heq]
    simp
  · intro b0 t
    rw [Read_eq _ _ (newGPIO_read_8 rd c4 dps en rs rw mode t0 hm) [b0] t (by simp), value_ret]
    simp [successive, GPIO.reconfigureGPIOMode]
  · intro buffer bytes t n e h b hb
    by_cases hne : buffer = []
    · subst hne
      simp [ GPIO.Read, Outcome.value] at h
      rw [h.1] at hb
      simp at hb
    · rw [Read_eq _ _ (newGPIO_read_8 rd c4 dps en rs rw mode t0 hm) buffer t hne,
        value_ret] at h
      simp only [Option.some.injEq, Prod.mk.injEq] at h
      rw [← h.1] at hb
      exact successive_mem _ _ _ b hb

/-- C7 with a reader that answers high on lines 0, 2, 5 and 7: the byte stored
is `0xA5`. -/
theorem Read_8line_byte_witness :
    (( newGPIO (fun _ p => p == 0 || p == 2 || p == 5 || p == 7) 0
        [0, 1, 2, 3, 4, 5, 6, 7] 8 9 10 16 []).1.bus.Read [0] []).value
      = some ([0xA5], 1, none) := by
  obtain ⟨f, -, heq, -, -, -, -, -, hread, -⟩ :=
    Read_8line_byte (fun _ p => p == 0 || p == 2 || p == 5 || p == 7) 0 16
      [0, 1, 2, 3, 4, 5, 6, 7] 8 9 10 [] (by decide) rfl
  rw [hread, heq]
  rfl

/-! ## Write then read back -/

/-- C1, as stated, fails on four lines: after `Write([0xA5])` the lines hold the
low nibble, both samples of the read see `0x5`, and the buffer holds `0x55`. -/
theorem Write_Read_4line_counterexample :
    (( newGPIO lastDriven 0 [0, 1, 2, 3] 4 5 6 0 []).1.bus.Read [0]
        (( newGPIO lastDriven 0 [0, 1, 2, 3] 4 5 6 0 []).1.bus.Write [0xA5]
          ( newGPIO lastDriven 0 [0, 1, 2, 3] 4 5 6 0 []).2).trace).value
        = some ([0x55], 1, none)
      ∧ (( newGPIO lastDriven 0 [0, 1, 2, 3] 4 5 6 0 []).1.bus.Read [0]
        (( newGPIO lastDriven 0 [0, 1, 2, 3] 4 5 6 0 []).1.bus.Write [0xA5]
          ( newGPIO lastDriven 0 [0, 1, 2, 3] 4 5 6 0 []).2).trace).value
        ≠ some ([0xA5], 1, none) := by
  constructor
  · rfl
  · decide

/-- C1, amended: on distinct lines that return the level last driven, for every
byte `v`, `Write([v])` followed by `Read` into a one-byte buffer leaves `v` in
the buffer with eight data lines (any mode other than `DATA_LENGTH_4BIT`); with
four data lines (`DATA_LENGTH_4BIT`) it leaves `v` exactly when the high and the
low nibble of `v` are equal. -/
theorem Write_Read_roundtrip (c4 mode : Nat) (dps : List Pin) (en rs rw : Pin)
    (t0 t : Trace) (v b0 : Nat)
    (hn : dps.Nodup) (hen : en ∉ dps) (hrw : rw ∉ dps) (hv : v < 256) :
    (mode ≠ c4 → dps.length = 8 →
        (( newGPIO lastDriven c4 dps en rs rw mode t0).1.bus.Read [b0]
          (( newGPIO lastDriven c4 dps en rs rw mode t0).1.bus.Write [v] t).trace).value
        = some ([v], 1, none))
      ∧ (mode = c4 → dps.length = 4 →
        ((( newGPIO lastDriven c4 dps en rs rw mode t0).1.bus.Read [b0]
          (( newGPIO lastDriven c4 dps en rs rw mode t0).1.bus.Write [v] t).trace).value
          = some ([v], 1, none)
        ↔ v >>> 4 = v &&& 0x0F)) := by
  constructor
  · intro hm hlen
    exact Write_Read_8line_value c4 mode dps en rs rw t0 t v b0 hm hlen hn hen hrw hv
  · intro hm hlen
    subst hm
    rw [Write_Read_4line_value mode dps en rs rw t0 t v b0 hlen hn hen hrw hv]
    have hlow : v &&& 0x0F = v % 16 := Nat.and_pow_two_sub_one_eq_mod v 4
    have hhigh : v >>> 4 = v / 16 := Nat.shiftRight_eq_div_pow v 4
    rw [hlow, hhigh]
    constructor
    · intro h
      simp only [Option.some.injEq, Prod.mk.injEq, List.cons.injEq, and_true] at h
      omega
    · intro h
      simp only [Option.some.injEq, Prod.mk.injEq, List.cons.injEq, and_true]
      omega

/-- C1, amended, at `0xA5` on eight lines (read back unchanged) and at `0x33`
on four lines (equal nibbles, read back unchanged). -/
theorem Write_Read_roundtrip_witness :
    (( newGPIO lastDriven 0 [0, 1, 2, 3, 4, 5, 6, 7] 8 9 10 16 []).1.bus.Read [0]
        (( newGPIO lastDriven 0 [0, 1, 2, 3, 4, 5, 6, 7] 8 9 10 16 []).1.bus.Write
          [0xA5] []).trace).value = some ([0xA5], 1, none)
      ∧ (( newGPIO lastDriven 0 [0, 1, 2, 3] 4 5 6 0 []).1.bus.Read [0]
        (( newGPIO lastDriven 0 [0, 1, 2, 3] 4 5 6 0 []).1.bus.Write
          [0x33] []).trace).value = some ([0x33], 1, none) :=
  ⟨(Write_Read_roundtrip 0 16 [0, 1, 2, 3, 4, 5, 6, 7] 8 9 10 [] [] 0xA5 0
      (by decide) (by decide) (by decide) (by decide)).1 (by decide) rfl,
   ((Write_Read_roundtrip 0 0 [0, 1, 2, 3] 4 5 6 [] [] 0x33 0
      (by decide) (by decide) (by decide) (by decide)).2 rfl rfl).mpr (by decide)⟩

/-! ## Line state after `Read` -/

/-- C11: on a transport built by `newGPIO`, in either mode and for any list of
data lines, a `Read` into a non-empty buffer returns without error from any
history, and afterwards every data line is configured as input and the
read/write line, being a line other than enable, is high. -/
theorem Read_leaves_input (rd : PinReader) (c4 mode : Nat) (dps : List Pin) (en rs rw : Pin)
    (t0 : Trace) (buffer : List Nat) (t : Trace) (hb : 0 < buffer.length) (hrw : rw ≠ en) :
    (∃ bytes, (( newGPIO rd c4 dps en rs rw mode t0).1.bus.Read buffer t).value
        = some (bytes, buffer.length, none))
      ∧ (∀ p ∈ dps, direction p (( newGPIO rd c4 dps en rs rw mode t0).1.bus.Read buffer t).trace
          = some PinMode.PinInput)
      ∧ level rw (( newGPIO rd c4 dps en rs rw mode t0).1.bus.Read buffer t).trace = true := by
  have hne : buffer ≠ [] := fun h => by simp [h] at hb
  have hev : ReadEvents (fun e => e ≠ Event.high rw ∧ e ≠ Event.low rw) dps en := by
    refine ⟨⟨?_, by simp⟩, ⟨by simp, ?_⟩, fun p _ v => by simp⟩
    · intro h
      cases h
      exact hrw rfl
    · intro h
      cases h
      exact hrw rfl
  obtain ⟨f, hf, hadds⟩ := newGPIO_read_Adds rd c4 mode dps en rs rw t0 hev
  rw [Read_eq f _ hf buffer t hne]
  simp only [trace_ret, value_ret, GPIO.reconfigureGPIOMode, newGPIO_dataPins, newGPIO_rw]
  refine ⟨⟨_, rfl⟩, ?_, ?_⟩
  · intro p hp
    exact direction_reconfigureLoop_mem _ _ _ p hp
  · rw [level_reconfigureLoop, level_of_Adds rw (Adds_successive f _ _ hadds),
      level_reconfigureLoop, level_High]
    simp

/-- C11 on four lines right after construction: a one-byte `Read` leaves data
line 2 configured as input and the read/write line high. -/
theorem Read_leaves_input_witness :
    direction 2 (( newGPIO lastDriven 0 [0, 1, 2, 3] 4 5 6 0 []).1.bus.Read [0]
        ( newGPIO lastDriven 0 [0, 1, 2, 3] 4 5 6 0 []).2).trace = some PinMode.PinInput
      ∧ level 6 (( newGPIO lastDriven 0 [0, 1, 2, 3] 4 5 6 0 []).1.bus.Read [0]
        ( newGPIO lastDriven 0 [0, 1, 2, 3] 4 5 6 0 []).2).trace = true :=
  ⟨(Read_leaves_input lastDriven 0 0 [0, 1, 2, 3] 4 5 6 [] [0]
      ( newGPIO lastDriven 0 [0, 1, 2, 3] 4 5 6 0 []).2 (by decide) (by decide)).2.1 2
      (by decide),
   (Read_leaves_input lastDriven 0 0 [0, 1, 2, 3] 4 5 6 [] [0]
      ( newGPIO lastDriven 0 [0, 1, 2, 3] 4 5 6 0 []).2 (by decide) (by decide)).2.2⟩

/-! ## Command mode -/

/-- C12: `SetCommandMode(b)` adds one event, the drive of the register-select
line: low when `b` is true, high when `b` is false. The level of every other
line and the direction of every line are what they were, and no delay is
requested. A second call with the same argument changes no level, no direction
and no delay. -/
theorem SetCommandMode_frame (g : GPIO) (b : Bool) (t : Trace) :
    g.SetCommandMode b t = t ++ [if b then Event.low g.rs else Event.high g.rs]
      ∧ level g.rs (g.SetCommandMode b t) = !b
      ∧ (∀ p, p ≠ g.rs → level p (g.SetCommandMode b t) = level p t)
      ∧ (∀ p, direction p (g.SetCommandMode b t) = direction p t)
      ∧ delays (g.SetCommandMode b t) = delays t
      ∧ totalSleep (g.SetCommandMode b t) = totalSleep t
      ∧ (∀ p, level p (g.SetCommandMode b (g.SetCommandMode b t))
          = level p (g.SetCommandMode b t))
      ∧ (∀ p, direction p (g.SetCommandMode b (g.SetCommandMode b t))
          = direction p (g.SetCommandMode b t))
      ∧ delays (g.SetCommandMode b (g.SetCommandMode b t)) = delays (g.SetCommandMode b t)
      ∧ totalSleep (g.SetCommandMode b (g.SetCommandMode b t))
          = totalSleep (g.SetCommandMode b t) := by
  have hdir : ∀ (t1 : Trace) (p : Pin), direction p (g.SetCommandMode b t1) = direction p t1 := by
    intro t1 p
    apply direction_of_Adds
    cases b
    · exact Adds_High _ _ (by simp)
    · exact Adds_Low _ _ (by simp)
  have hdel : ∀ (t1 : Trace), delays (g.SetCommandMode b t1) = delays t1 := by
    intro t1
    cases b <;> simp [ GPIO.SetCommandMode, delays_High, delays_Low]
  have hts : ∀ (t1 : Trace), totalSleep (g.SetCommandMode b t1) = totalSleep t1 := by
    intro t1
    cases b <;> simp [ GPIO.SetCommandMode]
  refine ⟨?_, ?_, ?_, hdir t, hdel t, hts t, ?_, fun p => hdir _ p, hdel _, hts _⟩
  · cases b <;> simp [ GPIO.SetCommandMode, Pin.Low, Pin.High]
  · cases b <;> simp [ GPIO.SetCommandMode]
  · intro p hp
    have hne : g.rs ≠ p := fun h => hp h.symm
    cases b <;> simp [ GPIO.SetCommandMode, hne]
  · intro p
    cases b <;> simp [ GPIO.SetCommandMode]

/-- C12 on a transport built by `newGPIO`: after `SetCommandMode(true)` the
register-select line 5 is low and the enable line 4 is as it was. -/
theorem SetCommandMode_frame_witness :
    level 5 (( newGPIO lastDriven 0 [0, 1, 2, 3] 4 5 6 0 []).1.bus.SetCommandMode true
        [Event.high 5, Event.high 4]) = false
      ∧ level 4 (( newGPIO lastDriven 0 [0, 1, 2, 3] 4 5 6 0 []).1.bus.SetCommandMode true
        [Event.high 5, Event.high 4]) = true :=
  ⟨(SetCommandMode_frame ( newGPIO lastDriven 0 [0, 1, 2, 3] 4 5 6 0 []).1.bus true
      [Event.high 5, Event.high 4]).2.1,
   (SetCommandMode_frame ( newGPIO lastDriven 0 [0, 1, 2, 3] 4 5 6 0 []).1.bus true
      [Event.high 5, Event.high 4]).2.2.1 4 (by decide)⟩

/-! ## Where the enable-pulse sequencer runs -/

/-- C13, as stated, fails for reads: on eight lines a `Read` of one byte returns
the count 1, yet it requests no delay at all, so the sequencer with its
1 + 1 + 100 microseconds did not run; enable was just driven high and low. -/
theorem Read_runs_no_sequencer_counterexample :
    (( newGPIO lastDriven 0 [0, 1, 2, 3, 4, 5, 6, 7] 8 9 10 16 []).1.bus.Read [0] []).value
        = some ([0], 1, none)
      ∧ delays (( newGPIO lastDriven 0 [0, 1, 2, 3, 4, 5, 6, 7] 8 9 10 16 []).1.bus.Read
          [0] []).trace = []
      ∧ totalSleep (( newGPIO lastDriven 0 [0, 1, 2, 3, 4, 5, 6, 7] 8 9 10 16 []).1.bus.Read
          [0] []).trace = 0
      ∧ drives 8 (( newGPIO lastDriven 0 [0, 1, 2, 3, 4, 5, 6, 7] 8 9 10 16 []).1.bus.Read
          [0] []).trace = [true, false] := by
  refine ⟨?_, ?_, ?_, ?_⟩ <;> rfl

/-- The delays and the drives of enable that `Write`, `WriteNibble` and `Read`
add, each taken on its own: triples of 1, 1 and 100 microseconds and drives low,
high, low for the writes; no delay and drives high, low for the reads. -/
theorem sequencer_accounts (rd : PinReader) (c4 mode : Nat) (dps : List Pin) (en rs rw : Pin)
    (t0 : Trace) (data buffer : List Nat) (t : Trace) (hen : en ∉ dps) (hrw : rw ≠ en) :
    delays (( newGPIO rd c4 dps en rs rw mode t0).1.bus.Write data t).trace
        = delays t ++ (List.replicate (if mode = c4 then 2 * data.length else data.length)
            [Microsecond, Microsecond, 100 * Microsecond]).flatten
      ∧ drives en (( newGPIO rd c4 dps en rs rw mode t0).1.bus.Write data t).trace
        = drives en t ++ (List.replicate (if mode = c4 then 2 * data.length else data.length)
            [false, true, false]).flatten
      ∧ (mode = c4 →
          delays (( newGPIO rd c4 dps en rs rw mode t0).1.bus.WriteNibble data t).trace
            = delays t ++ (List.replicate (data.length + 1)
                [Microsecond, Microsecond, 100 * Microsecond]).flatten
          ∧ drives en (( newGPIO rd c4 dps en rs rw mode t0).1.bus.WriteNibble data t).trace
            = drives en t ++ (List.replicate (data.length + 1) [false, true, false]).flatten)
      ∧ delays (( newGPIO rd c4 dps en rs rw mode t0).1.bus.Read buffer t).trace = delays t
      ∧ drives en (( newGPIO rd c4 dps en rs rw mode t0).1.bus.Read buffer t).trace
        = drives en t
            ++ (List.replicate (if mode = c4 then 2 * buffer.length else buffer.length)
                [true, false]).flatten := by
  by_cases hm : mode = c4
  · subst hm
    simp only [if_true]
    exact ⟨Write_delays_4 rd mode dps en rs rw t0 data t,
      Write_drives_4 rd mode dps en rs rw t0 data t hen hrw,
      fun _ => ⟨WriteNibble_delays_4 rd mode dps en rs rw t0 data t,
        WriteNibble_drives_4 rd mode dps en rs rw t0 data t hen hrw⟩,
      Read_delays rd mode mode dps en rs rw t0 t buffer,
      Read_drives_4 rd mode dps en rs rw t0 t buffer hrw⟩
  · simp only [if_neg hm]
    exact ⟨Write_delays_8 rd c4 mode dps en rs rw t0 data t hm,
      Write_drives_8 rd c4 mode dps en rs rw t0 data t hm hen hrw,
      fun h => absurd h hm,
      Read_delays rd c4 mode dps en rs rw t0 t buffer,
      Read_drives_8 rd c4 mode dps en rs rw t0 t buffer hm hrw⟩

theorem Read_no_sleep (rd : PinReader) (c4 mode : Nat) (dps : List Pin) (en rs rw : Pin)
    (t0 : Trace) (buffer : List Nat) (t : Trace) :
    ∀ e ∈ (( newGPIO rd c4 dps en rs rw mode t0).1.bus.Read buffer t).trace.drop t.length,
      ∀ d, e ≠ Event.sleep d := by
  obtain ⟨f, hf, hadds⟩ := newGPIO_read_Adds (P := fun e => ∀ d, e ≠ Event.sleep d)
    rd c4 mode dps en rs rw t0 ⟨by simp, by simp, fun p _ v => by simp⟩
  obtain ⟨evs, hevs, hp⟩ := Adds_Read _ f hf buffer t (by simp) (fun p _ => by simp) hadds
  rw [hevs, List.drop_left]
  exact hp

/-- C13, amended: on a transport built by `newGPIO` (fewer than 256 data lines,
enable none of them nor the read/write line), a `Write` of `n` bytes adds
exactly: read/write low, then per byte the lines driven to the byte followed by
one run of the enable-pulse sequencer in 8-line mode, and in 4-line mode the
console output, the lines driven to the high nibble, one run, the lines driven
to the low nibble, one run: `n` runs, respectively `2n`. `WriteNibble` of `n`
elements in 4-line mode adds one run per element and one more: `n + 1` runs.
`Read` does not run the sequencer: it adds exactly read/write high, the data
lines configured as input, then per unit (`n` in 8-line mode, `2n` in 4-line
mode) enable high, the samples of the lines, enable low, and the data lines
configured as input again; none of its events is a delay. -/
theorem sequencer_runs (rd : PinReader) (c4 mode : Nat) (dps : List Pin) (en rs rw : Pin)
    (t0 : Trace) (data buffer : List Nat) (t : Trace) (hen : en ∉ dps) (hrw : rw ≠ en)
    (hdata : ∀ d ∈ data, d < 256) (hlen : dps.length < 256) :
    (mode = c4 →
        (( newGPIO rd c4 dps en rs rw mode t0).1.bus.Write data t).trace
          = t ++ ([Event.low rw] ++ data.flatMap (fun d =>
              nibbleText (d >>> 4) false ++ nibbleText d true
                ++ (lineEvents dps (d >>> 4) ++ pulseEvents en
                  ++ (lineEvents dps d ++ pulseEvents en))))
        ∧ (( newGPIO rd c4 dps en rs rw mode t0).1.bus.WriteNibble data t).trace
          = t ++ ([Event.low rw]
              ++ data.flatMap (fun d =>
                  nibbleText d true ++ (lineEvents dps d ++ pulseEvents en))
              ++ pulseEvents en)
        ∧ (buffer ≠ [] →
          (( newGPIO rd c4 dps en rs rw mode t0).1.bus.Read buffer t).trace
            = t ++ ([Event.high rw] ++ configEvents PinMode.PinInput dps
                ++ readUnits rd dps en (2 * buffer.length)
                    (t ++ ([Event.high rw] ++ configEvents PinMode.PinInput dps))
                ++ configEvents PinMode.PinInput dps)))
      ∧ (mode ≠ c4 →
        (( newGPIO rd c4 dps en rs rw mode t0).1.bus.Write data t).trace
          = t ++ ([Event.low rw]
              ++ data.flatMap (fun d => lineEvents dps d ++ pulseEvents en))
        ∧ (buffer ≠ [] →
          (( newGPIO rd c4 dps en rs rw mode t0).1.bus.Read buffer t).trace
            = t ++ ([Event.high rw] ++ configEvents PinMode.PinInput dps
                ++ readUnits rd dps en buffer.length
                    (t ++ ([Event.high rw] ++ configEvents PinMode.PinInput dps))
                ++ configEvents PinMode.PinInput dps)))
      ∧ (∀ e ∈ (( newGPIO rd c4 dps en rs rw mode t0).1.bus.Read buffer t).trace.drop t.length,
          ∀ d, e ≠ Event.sleep d)
      ∧ delays (( newGPIO rd c4 dps en rs rw mode t0).1.bus.Write data t).trace
        = delays t ++ (List.replicate (if mode = c4 then 2 * data.length else data.length)
            [Microsecond, Microsecond, 100 * Microsecond]).flatten
      ∧ drives en (( newGPIO rd c4 dps en rs rw mode t0).1.bus.Write data t).trace
        = drives en t ++ (List.replicate (if mode = c4 then 2 * data.length else data.length)
            [false, true, false]).flatten
      ∧ (mode = c4 →
          delays (( newGPIO rd c4 dps en rs rw mode t0).1.bus.WriteNibble data t).trace
            = delays t ++ (List.replicate (data.length + 1)
                [Microsecond, Microsecond, 100 * Microsecond]).flatten
          ∧ drives en (( newGPIO rd c4 dps en rs rw mode t0).1.bus.WriteNibble data t).trace
            = drives en t ++ (List.replicate (data.length + 1) [false, true, false]).flatten)
      ∧ delays (( newGPIO rd c4 dps en rs rw mode t0).1.bus.Read buffer t).trace = delays t
      ∧ drives en (( newGPIO rd c4 dps en rs rw mode t0).1.bus.Read buffer t).trace
        = drives en t
            ++ (List.replicate (if mode = c4 then 2 * buffer.length else buffer.length)
                [true, false]).flatten := by
  have hold := sequencer_accounts rd c4 mode dps en rs rw t0 data buffer t hen hrw
  refine ⟨?_, ?_, Read_no_sleep rd c4 mode dps en rs rw t0 buffer t,
    hold.1, hold.2.1, hold.2.2.1, hold.2.2.2.1, hold.2.2.2.2⟩
  · intro hm
    subst hm
    exact ⟨Write_events_4 rd mode dps en rs rw t0 data t hdata,
      WriteNibble_events_4 rd mode dps en rs rw t0 data t hdata,
      fun hne => Read_events_4 rd mode dps en rs rw t0 t buffer hne hlen⟩
  · intro hm
    exact ⟨Write_events_8 rd c4 mode dps en rs rw t0 data t hm hdata,
      fun hne => Read_events_8 rd c4 mode dps en rs rw t0 t buffer hm hne hlen⟩

/-- C13, amended, on eight lines: writing `0xA5` adds the line drives and one
run of the sequencer; reading one byte adds enable high, eight samples and
enable low between the configurations, and no delay. -/
theorem sequencer_runs_witness :
    (( newGPIO lastDriven 0 [0, 1, 2, 3, 4, 5, 6, 7] 8 9 10 16 []).1.bus.Write [0xA5] []).trace
        = [Event.low 10,
           Event.high 0, Event.low 1, Event.high 2, Event.low 3,
           Event.low 4, Event.high 5, Event.low 6, Event.high 7,
           Event.low 8, Event.sleep 1000, Event.high 8, Event.sleep 1000, Event.low 8,
           Event.sleep 100000]
      ∧ (( newGPIO lastDriven 0 [0, 1, 2, 3, 4, 5, 6, 7] 8 9 10 16 []).1.bus.Read [0] []).trace
        = [Event.high 10,
           Event.configure 0 PinMode.PinInput, Event.configure 1 PinMode.PinInput,
           Event.configure 2 PinMode.PinInput, Event.configure 3 PinMode.PinInput,
           Event.configure 4 PinMode.PinInput, Event.configure 5 PinMode.PinInput,
           Event.configure 6 PinMode.PinInput, Event.configure 7 PinMode.PinInput,
           Event.high 8,
           Event.get 0 false, Event.get 1 false, Event.get 2 false, Event.get 3 false,
           Event.get 4 false, Event.get 5 false, Event.get 6 false, Event.get 7 false,
           Event.low 8,
           Event.configure 0 PinMode.PinInput, Event.configure 1 PinMode.PinInput,
           Event.configure 2 PinMode.PinInput, Event.configure 3 PinMode.PinInput,
           Event.configure 4 PinMode.PinInput, Event.configure 5 PinMode.PinInput,
           Event.configure 6 PinMode.PinInput, Event.configure 7 PinMode.PinInput]
      ∧ delays (( newGPIO lastDriven 0 [0, 1, 2, 3, 4, 5, 6, 7] 8 9 10 16 []).1.bus.Read
          [0] []).trace = [] :=
  ⟨((sequencer_runs lastDriven 0 16 [0, 1, 2, 3, 4, 5, 6, 7] 8 9 10 [] [0xA5] [0] []
      (by decide) (by decide) (by decide) (by decide)).2.1 (by decide)).1,
   ((sequencer_runs lastDriven 0 16 [0, 1, 2, 3, 4, 5, 6, 7] 8 9 10 [] [0xA5] [0] []
      (by decide) (by decide) (by decide) (by decide)).2.1 (by decide)).2 (by decide),
   (sequencer_runs lastDriven 0 16 [0, 1, 2, 3, 4, 5, 6, 7] 8 9 10 [] [0xA5] [0] []
      (by decide) (by decide) (by decide) (by decide)).2.2.2.2.2.2.1⟩

/-! ## The constructor -/

/-- C14, as stated, fails: `newGPIO` built in 4-line mode from three handles
holds three data lines, and built in another mode from five handles holds five. -/
theorem newGPIO_width_counterexample :
    ( newGPIO lastDriven 0 [0, 1, 2] 4 5 6 0 []).1.bus.dataPins.length = 3
      ∧ ( newGPIO lastDriven 0 [0, 1, 2] 4 5 6 0 []).1.bus.dataPins.length ≠ 4
      ∧ ( newGPIO lastDriven 0 [0, 1, 2, 3, 7] 4 5 6 16 []).1.bus.dataPins.length = 5
      ∧ ( newGPIO lastDriven 0 [0, 1, 2, 3, 7] 4 5 6 16 []).1.bus.dataPins.length ≠ 8 := by
  decide

/-- C14, amended: the transport `newGPIO` returns holds exactly the data-line
handles the caller passed, in their order, with the control lines and the mode
as passed; so it holds exactly 4 data lines in 4-line mode and exactly 8
otherwise if and only if the caller passed that many handles. -/
theorem newGPIO_keeps_handles (rd : PinReader) (c4 mode : Nat) (dps : List Pin)
    (en rs rw : Pin) (t0 : Trace) :
    ( newGPIO rd c4 dps en rs rw mode t0).1.bus.dataPins = dps
      ∧ ( newGPIO rd c4 dps en rs rw mode t0).1.bus.en = en
      ∧ ( newGPIO rd c4 dps en rs rw mode t0).1.bus.rs = rs
      ∧ ( newGPIO rd c4 dps en rs rw mode t0).1.bus.rw = rw
      ∧ ( newGPIO rd c4 dps en rs rw mode t0).1.datalength = mode
      ∧ (( newGPIO rd c4 dps en rs rw mode t0).1.bus.dataPins.length
            = (if mode = c4 then 4 else 8)
          ↔ dps.length = (if mode = c4 then 4 else 8)) := by
  refine ⟨newGPIO_dataPins .., newGPIO_en .., newGPIO_rs .., newGPIO_rw .., rfl, ?_⟩
  rw [newGPIO_dataPins]

/-! ## `WriteNibble` outside 4-line mode -/

/-- C15: on a transport built by `newGPIO` with a mode other than
`DATA_LENGTH_4BIT` the `writeNibble` function is never assigned. `WriteNibble`
on a non-empty input then stops at the call of the unset function, having only
driven the read/write line low: no data line and no enable change. On the
empty input it returns `(0, nil)` after the drive of the read/write line and
exactly one run of the enable pulse. Built in 4-line mode, `WriteNibble`
returns the count and a nil error for every input. -/
theorem WriteNibble_needs_4line (rd : PinReader) (c4 mode : Nat) (dps : List Pin)
    (en rs rw : Pin) (t0 : Trace) (d : Nat) (ds data : List Nat) (t : Trace)
    (hm : mode ≠ c4) :
    ( newGPIO rd c4 dps en rs rw mode t0).1.bus.writeNibble = none
      ∧ ( newGPIO rd c4 dps en rs rw mode t0).1.bus.WriteNibble (d :: ds) t
          = Outcome.nilFunc (t ++ [Event.low rw])
      ∧ (( newGPIO rd c4 dps en rs rw mode t0).1.bus.WriteNibble (d :: ds) t).value = none
      ∧ ( newGPIO rd c4 dps en rs rw mode t0).1.bus.WriteNibble [] t
          = Outcome.ret (0, none)
              (t ++ [Event.low rw, Event.low en, Event.sleep Microsecond, Event.high en,
                     Event.sleep Microsecond, Event.low en, Event.sleep (100 * Microsecond)])
      ∧ (( newGPIO rd c4 dps en rs rw c4 t0).1.bus.WriteNibble data t).value
          = some (data.length, none) := by
  have hnone := newGPIO_writeNibble_8 rd c4 dps en rs rw mode t0 hm
  refine ⟨hnone, ?_, ?_, ?_, ?_⟩
  · simp [ GPIO.WriteNibble, hnone, writeLoop, Pin.Low]
  · simp [ GPIO.WriteNibble, hnone, writeLoop, Outcome.value]
  · simp [ GPIO.WriteNibble, writeLoop, GPIO.pulseEnable, Pin.Low, Pin.High, Sleep]
  · rw [WriteNibble_eq _ _ (newGPIO_writeNibble_4 rd c4 dps en rs rw t0), value_ret]

/-- C15 on eight lines: `WriteNibble([1])` stops at the unset function after the
single event `rw` low, and `WriteNibble([])` returns `(0, nil)`. -/
theorem WriteNibble_needs_4line_witness :
    ( newGPIO lastDriven 0 [0, 1, 2, 3, 4, 5, 6, 7] 8 9 10 16 []).1.bus.WriteNibble [1] []
        = Outcome.nilFunc [Event.low 10]
      ∧ (( newGPIO lastDriven 0 [0, 1, 2, 3, 4, 5, 6, 7] 8 9 10 16 []).1.bus.WriteNibble
          [] []).value = some (0, none) :=
  ⟨(WriteNibble_needs_4line lastDriven 0 16 [0, 1, 2, 3, 4, 5, 6, 7] 8 9 10 [] 1 [] [] []
      (by decide)).2.1,
   by rw [(WriteNibble_needs_4line lastDriven 0 16 [0, 1, 2, 3, 4, 5, 6, 7] 8 9 10 [] 1 [] [] []
      (by decide)).2.2.2.1]; rfl⟩

/-! ## Directions of the data lines -/

/-- C16: on a transport built by `newGPIO`, `Write` and `WriteNibble` leave the
configured direction of every line as it was, for every history and input, and
so does `SetCommandMode`; `Read` changes a direction only to input. The
constructor configures every data line as output. After a `Read` into a
non-empty buffer, a following non-empty `Write` drives every data line while
each data line is still configured as input. -/
theorem Write_keeps_direction (rd : PinReader) (c4 mode : Nat) (dps : List Pin)
    (en rs rw : Pin) (t0 : Trace) (data buffer : List Nat) (d : Nat) (b : Bool) (t : Trace)
    (hb : 0 < buffer.length) :
    (∀ p, direction p (( newGPIO rd c4 dps en rs rw mode t0).1.bus.Write data t).trace
        = direction p t)
      ∧ (∀ p, direction p (( newGPIO rd c4 dps en rs rw mode t0).1.bus.WriteNibble data t).trace
        = direction p t)
      ∧ (∀ p, direction p (( newGPIO rd c4 dps en rs rw mode t0).1.bus.SetCommandMode b t)
        = direction p t)
      ∧ (∀ p, direction p (( newGPIO rd c4 dps en rs rw mode t0).1.bus.Read buffer t).trace
        = if p ∈ dps then some PinMode.PinInput else direction p t)
      ∧ (∀ p ∈ dps, direction p ( newGPIO rd c4 dps en rs rw mode t0).2
        = some PinMode.PinOutput)
      ∧ (∀ p ∈ dps,
          direction p (( newGPIO rd c4 dps en rs rw mode t0).1.bus.Write (d :: data)
              (( newGPIO rd c4 dps en rs rw mode t0).1.bus.Read buffer t).trace).trace
            = some PinMode.PinInput
          ∧ (drives p (( newGPIO rd c4 dps en rs rw mode t0).1.bus.Read buffer t).trace).length
            < (drives p (( newGPIO rd c4 dps en rs rw mode t0).1.bus.Write (d :: data)
              (( newGPIO rd c4 dps en rs rw mode t0).1.bus.Read buffer t).trace).trace).length) := by
  have hne : buffer ≠ [] := fun h => by simp [h] at hb
  have hwrite : ∀ (l : List Nat) (t1 : Trace) (p : Pin),
      direction p (( newGPIO rd c4 dps en rs rw mode t0).1.bus.Write l t1).trace
        = direction p t1 := by
    intro l t1 p
    apply direction_of_Adds
    apply Adds_Write _ l t1 (by simp)
    intro f hf
    exact newGPIO_write_Adds rd c4 mode dps en rs rw t0
      ⟨fun _ _ => by simp, by simp, by simp, fun _ => by simp, fun _ => by simp⟩ f hf
  have hread : ∀ p, direction p (( newGPIO rd c4 dps en rs rw mode t0).1.bus.Read buffer t).trace
      = if p ∈ dps then some PinMode.PinInput else direction p t := by
    intro p
    by_cases hp : p ∈ dps
    · rw [if_pos hp]
      obtain ⟨f, hf, -⟩ := newGPIO_read_Adds (P := fun _ => True) rd c4 mode dps en rs rw t0
        ⟨trivial, trivial, fun _ _ _ => trivial⟩
      rw [Read_eq f _ hf buffer t hne, trace_ret]
      simp only [ GPIO.reconfigureGPIOMode, newGPIO_dataPins]
      exact direction_reconfigureLoop_mem _ _ _ p hp
    · rw [if_neg hp]
      obtain ⟨f, hf, hadds⟩ := newGPIO_read_Adds
        (P := fun e => ∀ m, e ≠ Event.configure p m) rd c4 mode dps en rs rw t0
        ⟨by simp, by simp, fun _ _ _ => by simp⟩
      apply direction_of_Adds
      apply Adds_Read _ f hf buffer t (by simp) _ hadds
      intro q hq m hqm
      rw [newGPIO_dataPins] at hq
      cases hqm
      exact hp hq
  refine ⟨hwrite data t, ?_, ?_, hread, ?_, ?_⟩
  · intro p
    apply direction_of_Adds
    apply Adds_WriteNibble _ data t (by simp) ⟨by simp, by simp, fun _ => by simp⟩
    intro f hf
    exact newGPIO_writeNibble_Adds rd c4 mode dps en rs rw t0
      ⟨fun _ _ => by simp, by simp, by simp, fun _ => by simp, fun _ => by simp⟩ f hf
  · intro p
    apply direction_of_Adds
    cases b
    · exact Adds_High _ _ (by simp)
    · exact Adds_Low _ _ (by simp)
  · intro p hp
    have hfr : direction p ( newGPIO rd c4 dps en rs rw mode t0).2
        = direction p (reconfigureLoop PinMode.PinOutput dps t0) := by
      by_cases hpen : en = p <;> by_cases hprs : rs = p <;> by_cases hprw : rw = p <;>
        simp [ newGPIO, direction_Configure, hpen, hprs, hprw,
          direction_of_Adds p (Adds_Low _ _ (by simp)),
          direction_reconfigureLoop_mem _ _ _ p hp]
    rw [hfr]
    exact direction_reconfigureLoop_mem _ _ _ p hp
  · intro p hp
    refine ⟨?_, drives_length_Write rd c4 mode dps en rs rw t0 d data _ p hp⟩
    rw [hwrite, hread, if_pos hp]

/-- C16 on four lines: after construction data line 1 is an output; after a
one-byte `Read` followed by `Write([0xA5])` it is configured as input. -/
theorem Write_keeps_direction_witness :
    direction 1 ( newGPIO lastDriven 0 [0, 1, 2, 3] 4 5 6 0 []).2 = some PinMode.PinOutput
      ∧ direction 1 (( newGPIO lastDriven 0 [0, 1, 2, 3] 4 5 6 0 []).1.bus.Write [0xA5]
          (( newGPIO lastDriven 0 [0, 1, 2, 3] 4 5 6 0 []).1.bus.Read [0]
            ( newGPIO lastDriven 0 [0, 1, 2, 3] 4 5 6 0 []).2).trace).trace
        = some PinMode.PinInput :=
  ⟨(Write_keeps_direction lastDriven 0 0 [0, 1, 2, 3] 4 5 6 [] [] [0] 0xA5 true
      ( newGPIO lastDriven 0 [0, 1, 2, 3] 4 5 6 0 []).2 (by decide)).2.2.2.2.1 1 (by decide),
   ((Write_keeps_direction lastDriven 0 0 [0, 1, 2, 3] 4 5 6 [] [] [0] 0xA5 true
      ( newGPIO lastDriven 0 [0, 1, 2, 3] 4 5 6 0 []).2 (by decide)).2.2.2.2.2 1
      (by decide)).1⟩

/-! ## What a 4-line read sees after a write -/

/-- C17: in 4-line mode, on four distinct data lines apart from the enable and
the read/write line, all returning the level last driven, `Write([v])` followed
by `Read` into a one-byte buffer stores `(v & 0x0F) * 0x11` for every byte `v`:
the low nibble of `v` in both halves. After the write the lines show the low
nibble, and both samples of the read see exactly that value. -/
theorem Write_Read_4line_low_nibble (c4 : Nat) (dps : List Pin) (en rs rw : Pin)
    (t0 t : Trace) (v b0 : Nat)
    (hlen : dps.length = 4) (hn : dps.Nodup) (hen : en ∉ dps) (hrw : rw ∉ dps)
    (hv : v < 256) :
    (( newGPIO lastDriven c4 dps en rs rw c4 t0).1.bus.Read [b0]
        (( newGPIO lastDriven c4 dps en rs rw c4 t0).1.bus.Write [v] t).trace).value
        = some ([(v &&& 0x0F) * 0x11], 1, none)
      ∧ (v &&& 0x0F) * 0x11 = ((v &&& 0x0F) <<< 4) ||| (v &&& 0x0F)
      ∧ lineValue dps (( newGPIO lastDriven c4 dps en rs rw c4 t0).1.bus.Write [v] t).trace
        = v &&& 0x0F
      ∧ sampled lastDriven dps (Pin.High en (reconfigureLoop PinMode.PinInput dps (Pin.High rw
          (( newGPIO lastDriven c4 dps en rs rw c4 t0).1.bus.Write [v] t).trace)))
        = v &&& 0x0F
      ∧ sampled lastDriven dps (Pin.High en (Pin.Low en (sampledTrace lastDriven dps
          (Pin.High en (reconfigureLoop PinMode.PinInput dps (Pin.High rw
            (( newGPIO lastDriven c4 dps en rs rw c4 t0).1.bus.Write [v] t).trace))))))
        = v &&& 0x0F := by
  have hlow : v &&& 0x0F < 16 := by
    rw [← low_nibble]
    exact Nat.mod_lt _ (by decide)
  have hline : lineValue dps
      (( newGPIO lastDriven c4 dps en rs rw c4 t0).1.bus.Write [v] t).trace = v &&& 0x0F := by
    rw [Write_eq _ _ (newGPIO_write_4 lastDriven c4 dps en rs rw t0), trace_ret]
    simp only [writeLoop, trace_ret]
    apply lineValue_debugWrite
    intro t1
    have h := lineValue_write4BitMode
      { dataPins := dps, en := en, rs := rs, rw := rw,
        write := none, writeNibble := none, read := none } v t1 hv hn hen
    simp only [hlen] at h
    rw [h, low_nibble]
  refine ⟨Write_Read_4line_value c4 dps en rs rw t0 t v b0 hlen hn hen hrw hv, ?_, hline, ?_, ?_⟩
  · have h := nibbles_assemble (v &&& 0x0F) hlow
    have hid : (v &&& 0x0F) &&& 0x0F = v &&& 0x0F := by
      rw [Nat.and_assoc, Nat.and_self]
    rw [hid] at h
    exact h.symm
  · rw [sampled_lastDriven, lineValue_High _ _ _ hen, lineValue_reconfigureLoop,
      lineValue_High _ _ _ hrw, hline]
  · rw [sampled_lastDriven, lineValue_High _ _ _ hen, lineValue_Low _ _ _ hen,
      lineValue_sampledTrace, lineValue_High _ _ _ hen, lineValue_reconfigureLoop,
      lineValue_High _ _ _ hrw, hline]

/-- C17 for `0xA5` on four lines: the buffer holds `0x55`. -/
theorem Write_Read_4line_low_nibble_witness :
    (( newGPIO lastDriven 0 [0, 1, 2, 3] 4 5 6 0 []).1.bus.Read [0]
        (( newGPIO lastDriven 0 [0, 1, 2, 3] 4 5 6 0 []).1.bus.Write [0xA5] []).trace).value
      = some ([0x55], 1, none) :=
  (Write_Read_4line_low_nibble 0 [0, 1, 2, 3] 4 5 6 [] [] 0xA5 0 rfl (by decide) (by decide)
    (by decide) (by decide)).1

end hd44780
